import Mathlib

/-!
A shallow embedding, in Lean 4, of the core data structures and algorithms of
the pymake build tool (a GNU-make reimplementation), together with theorems
checking the natural-language specification against the code.

The embedding follows the Python sources `pymake/data.py`, `pymake/functions.py`
and `pymake/parser.py`:
  * pure helpers (`mtimeislater`, `splitwords`, string splitting) become Lean
    functions;
  * mutable objects (`Variables`, `Expansion`, `Target`, `Makefile`) become
    records with explicit state passing;
  * Python exceptions become an explicit `MakeError` sum, returned via `Except`
    (together with the state at the raise point, since Python mutation is not
    rolled back by an exception);
  * `st_mtime` values are abstracted as integers (only order comparisons are
    used by the code);
  * the filesystem (`os.stat`) and the subprocess layer are oracles stored in
    the makefile state;
  * the expansion-evaluation engine (`parsemakesyntax` + `Expansion.resolve`),
    a separate component, is abstracted as an explicit oracle argument wherever
    a resolved variable value is needed; all theorems quantify over it.
-/

set_option maxRecDepth 10000

namespace PyMake

/-! ## Python string primitives

Python's `str.split()`, `str.strip()` and `re.split(r'\s+', s)` operate on the
whitespace class space, tab, newline, carriage return, vertical tab, form feed.
-/

def pyIsSpace (c : Char) : Bool :=
  c = ' ' || c = '\t' || c = '\n' || c = '\r' || c = '\x0b' || c = '\x0c'

/-- Python `str.split()` with no arguments: maximal nonempty runs of
non-whitespace characters. -/
def pysplitGo : List Char → List Char → List String
  | [], acc => if acc.isEmpty then [] else [String.mk acc.reverse]
  | c :: cs, acc =>
    if pyIsSpace c then
      if acc.isEmpty then pysplitGo cs [] else String.mk acc.reverse :: pysplitGo cs []
    else pysplitGo cs (c :: acc)

def pysplit (s : String) : List String := pysplitGo s.toList []

/-- Python `re.split` on a character-class regex `[..]+`: the fragments
between maximal runs of separator characters, including an empty fragment at
either boundary when the string starts or ends with a run. The `skipping`
flag is true while inside a run whose preceding fragment has been emitted. -/
def resplitPredGo (p : Char → Bool) : List Char → List Char → Bool → List String
  | [], acc, _ => [String.mk acc.reverse]
  | c :: cs, acc, skipping =>
    if p c then
      if skipping then resplitPredGo p cs acc true
      else String.mk acc.reverse :: resplitPredGo p cs [] true
    else resplitPredGo p cs (c :: acc) false

/-- Python `re.split(r'\s+', s)`. -/
def resplitWSGo (l : List Char) (acc : List Char) : List String :=
  resplitPredGo pyIsSpace l acc false

/-- `data.splitwords` (data.py): `re.split(r'\s+', s)` followed by deletion of
an empty first fragment and then an empty last fragment. -/
def splitwords (s : String) : List String :=
  let words := resplitWSGo s.toList []
  let words := match words with
    | "" :: rest => rest
    | w => w
  match words with
  | [] => []
  | _ => if words.getLast? = some "" then words.dropLast else words

/-- Python `str.lstrip()` with no arguments. -/
def pyLStrip (s : String) : String := String.mk (s.toList.dropWhile pyIsSpace)

/-- Python `str.rstrip()` with no arguments. -/
def pyRStrip (s : String) : String :=
  String.mk ((s.toList.reverse.dropWhile pyIsSpace).reverse)

/-- Python `str.strip()` with no arguments. -/
def pyStrip (s : String) : String := pyLStrip (pyRStrip s)

/-! ## Errors

The exception classes of errors.py/data.py that the embedded code can raise.
`resolutionError` corresponds to `data.ResolutionError` (the only class that
implicit-rule search catches); `dataError` to `data.DataError`; `syntaxError`
to the parser's `SyntaxError`. `assertionFailed` and `indexError` model
Python `assert` failures and out-of-range indexing. `outOfFuel` is an artifact
of the fuel-based embedding of the (possibly divergent) recursive resolution. -/
inductive MakeError where
  | dataError (msg : String)
  | resolutionError (msg : String)
  | syntaxError (msg : String)
  | assertionFailed
  | indexError
  | outOfFuel
  deriving Repr, DecidableEq

deriving instance DecidableEq for Except

def MakeError.isResolutionError : MakeError → Bool
  | .resolutionError _ => true
  | _ => false

/-! ## mtimes

`st_mtime` values are abstracted as integers; `None` (missing file) is `none`.
-/

abbrev MTime := Int

/-- `data.mtimeislater` (data.py:34-43): is the mtime of the dependency later
than the target? -/
def mtimeislater (deptime targettime : Option MTime) : Bool :=
  match deptime with
  | none => true
  | some d =>
    match targettime with
    | none => false
    | some t => decide (d > t)

/-! ## The lastword built-in (functions.py:248-257)

`LastWordFunction.resolve` resolves its single argument, splits it with
Python `str.split()`, yields nothing when there are no words, and otherwise
yields `wl[0]`. The function below maps the resolved argument string to the
concatenation of the yielded strings. -/
def lastwordResolve (d : String) : String :=
  match pysplit d with
  | [] => ""
  | w :: _ => w

/-- `FirstWordFunction.resolve` (functions.py:237-246), for comparison: it has
the same body. -/
def firstwordResolve (d : String) : String :=
  match pysplit d with
  | [] => ""
  | w :: _ => w

/-! ## Variables (data.py:157-282)

A `Variables` object is a dict from names to `(flavor, source, valuestr)`
triples plus an optional parent scope. Flavor and source constants keep their
Python values. -/

def FLAVOR_RECURSIVE : Nat := 0
def FLAVOR_SIMPLE : Nat := 1
def FLAVOR_APPEND : Nat := 2

def SOURCE_OVERRIDE : Nat := 0
def SOURCE_COMMANDLINE : Nat := 1
def SOURCE_MAKEFILE : Nat := 2
def SOURCE_ENVIRONMENT : Nat := 3
def SOURCE_AUTOMATIC : Nat := 4

/-- One dict entry: `(flavor, source, valuestr)`. -/
abbrev VarEntry := Nat × Nat × String

abbrev VarMap := List (String × VarEntry)

/-- Python dict lookup over the association list (at most one entry per key is
maintained by `setEntry`). -/
def VarMap.lookup : VarMap → String → Option VarEntry
  | [], _ => none
  | (k, e) :: rest, name => if k = name then some e else VarMap.lookup rest name

/-- Python dict assignment `_map[name] = e`: replace in place, or append. -/
def VarMap.setEntry : VarMap → String → VarEntry → VarMap
  | [], name, e => [(name, e)]
  | (k, e0) :: rest, name, e =>
    if k = name then (name, e) :: rest else (k, e0) :: VarMap.setEntry rest name e

/-- A `Variables` scope chain: the object's own dict followed by the dicts
of its `parent` chain (Python's parent pointers form a linear chain). -/
abbrev VariablesS := List VarMap

/-- The `Variables(map, parent)` constructor. -/
def VariablesS.mk (map : VarMap) (parent : Option VariablesS) : VariablesS :=
  map :: parent.getD []

/-- The object's own dict. -/
def VariablesS.vmap : VariablesS → VarMap
  | [] => []
  | m :: _ => m

/-- Replace the object's own dict (`self._map[...] = ...` writes only the
current scope). -/
def VariablesS.withMap : VariablesS → VarMap → VariablesS
  | [], m => [m]
  | _ :: rest, m => m :: rest

/-- `Variables.get` (data.py:183-235) with `expand=False`: returns the
`(flavor, source, value)` triple, the value as the raw stored text. The
flavor and source components do not depend on the `expand` argument (only the
value's representation does), and `Variables.set` consults only those; with
`expand=True` the code additionally parses recursive values into expansions
(the expansion-evaluation component, outside this embedding). An absent
parent is the empty chain, on which `get` returns `(None, None, None)`. -/
def VariablesS.get : VariablesS → String → Option Nat × Option Nat × Option String
  | [], _ => (none, none, none)
  | m :: ancestors, name =>
    match VarMap.lookup m name with
    | some (flavor, source, valuestr) =>
      if flavor = FLAVOR_APPEND then
        match VariablesS.get ancestors name with
        | (_, _, none) =>
          -- parent has no value: the entry degrades to FLAVOR_RECURSIVE
          (some FLAVOR_RECURSIVE, some source, some valuestr)
        | (pflavor, psource, some pvalue) =>
          if (match psource with | some ps => decide (source > ps) | none => false) then
            (pflavor, psource, some pvalue)
          else
            (pflavor, psource, some (pvalue ++ " " ++ valuestr))
      else
        (some flavor, some source, some valuestr)
    | none => VariablesS.get ancestors name

/-- `Variables.set` (data.py:237-248): looks up the previous binding through
the scope chain, refuses (with a logged warning) when the previous source is
strictly higher priority (numerically lower), otherwise stores the entry in
this scope's dict. The Python `assert`s on flavor and source validity are
expressed as hypotheses of the theorems below (all call sites satisfy them). -/
def VariablesS.set (v : VariablesS) (name : String) (flavor source : Nat)
    (value : String) : VariablesS :=
  let (_, prevsource, _) := v.get name
  match prevsource with
  | some ps =>
    if source > ps then v
    else v.withMap (VarMap.setEntry v.vmap name (flavor, source, value))
  | none => v.withMap (VarMap.setEntry v.vmap name (flavor, source, value))

/-! ## Expansions (data.py:73-155)

An `Expansion` is a list whose elements are strings or function nodes. The
internals of function nodes play no role in `append`/`concat`/`lstrip`/
`rstrip`, so the element type is parametrized by an arbitrary type `F` of
function nodes. -/

inductive Elt (F : Type) where
  | str (s : String)
  | func (f : F)
  deriving DecidableEq

abbrev ExpansionS (F : Type) := List (Elt F)

def Elt.isStr {F : Type} : Elt F → Bool
  | .str _ => true
  | .func _ => false

/-- Helper for `Expansion.append`: append a (known non-empty-string) element,
folding it into the last element when both are strings. -/
def appendNE {F : Type} : ExpansionS F → Elt F → ExpansionS F
  | [], obj => [obj]
  | [last], obj =>
    match last, obj with
    | .str s, .str t => [.str (s ++ t)]
    | _, _ => [last, obj]
  | x :: y :: rest, obj => x :: appendNE (y :: rest) obj

/-- `Expansion.append` (data.py:89-99): an empty string is dropped; a string
appended after a string is folded into it; otherwise the element is appended.
(The `DataError` branch for foreign element types is excluded by typing.) -/
def ExpansionS.append {F : Type} (e : ExpansionS F) (obj : Elt F) : ExpansionS F :=
  match obj with
  | .str s => if s = "" then e else appendNE e (.str s)
  | o => appendNE e o

/-- `Expansion.concat` (data.py:101-107): concatenate another expansion onto
this one, folding the boundary pair when both are strings (the recursion over
a longer first list just walks to its last element). -/
def ExpansionS.concat {F : Type} : ExpansionS F → ExpansionS F → ExpansionS F
  | [], o => o
  | [last], o =>
    match o with
    | [] => [last]
    | o1 :: orest =>
      match last, o1 with
      | .str s, .str t => .str (s ++ t) :: orest
      | _, _ => last :: o1 :: orest
  | x :: y :: rest, o => x :: ExpansionS.concat (y :: rest) o

/-- `Expansion.lstrip` (data.py:109-113): strip leading literal whitespace by
lstripping the first element when it is a string. (The code's `assert` that
strings are folded holds under the invariant proven below.) -/
def ExpansionS.lstripE {F : Type} : ExpansionS F → ExpansionS F
  | .str s :: rest => .str (pyLStrip s) :: rest
  | e => e

/-- `Expansion.rstrip` (data.py:115-119): strip trailing literal whitespace by
rstripping the last element when it is a string. -/
def ExpansionS.rstripE {F : Type} : ExpansionS F → ExpansionS F
  | [] => []
  | [x] =>
    match x with
    | .str s => [.str (pyRStrip s)]
    | x => [x]
  | x :: y :: rest => x :: ExpansionS.rstripE (y :: rest)

/-- An element is either a function node or a non-empty string. -/
def eltOK {F : Type} : Elt F → Bool
  | .str s => s != ""
  | .func _ => true

/-- No element is the empty string. -/
def noEmptyStr {F : Type} (l : ExpansionS F) : Bool := l.all eltOK

/-- No two adjacent elements are both strings (adjacent literal runs folded). -/
def folded {F : Type} : ExpansionS F → Bool
  | [] => true
  | [_] => true
  | x :: y :: rest => !(x.isStr && y.isStr) && folded (y :: rest)

/-- The invariant claimed for expansions built through `append`/`concat`. -/
def ExpInv {F : Type} (l : ExpansionS F) : Prop :=
  noEmptyStr l = true ∧ folded l = true

/-- Expansions constructible from the empty expansion (`Expansion()`, also
`fromstring`) through `append` and `concat`. -/
inductive BuiltExp {F : Type} : ExpansionS F → Prop where
  | empty : BuiltExp []
  | app {e : ExpansionS F} {obj : Elt F} : BuiltExp e → BuiltExp (e.append obj)
  | cat {e o : ExpansionS F} : BuiltExp e → BuiltExp o → BuiltExp (e.concat o)

/-- The leading literal run of an expansion: the concatenation of the maximal
prefix of string elements. -/
def litRun {F : Type} : ExpansionS F → String
  | .str s :: rest => s ++ litRun rest
  | _ => ""

def allStr {F : Type} (l : ExpansionS F) : Bool := l.all Elt.isStr

/-- The literal content of an element. -/
def strOf {F : Type} : Elt F → String
  | .str s => s
  | .func _ => ""

/-- The trailing literal run of an expansion: the concatenation of the maximal
suffix of string elements. -/
def litSuffix {F : Type} : ExpansionS F → String
  | [] => ""
  | [x] => strOf x
  | x :: y :: rest => (if allStr (x :: y :: rest) then strOf x else "") ++ litSuffix (y :: rest)

/-! ## Patterns (data.py:284-401)

`Pattern.__init__` unescapes backslashes with the GNU rules and splits at the
first operative `%`. `self.data` is a 1-tuple (no `%`) or a 2-tuple
(prefix, suffix); both spellings are carried as `first`/`rest` here, with the
strings as character lists. Reading `s[i + 1]` when a backslash is the last
character raises `IndexError`, rendered as `none`. -/

structure PatternS where
  first : List Char
  rest : Option (List Char)
  deriving Repr, DecidableEq

def patInitGo : List Char → List Char → Option PatternS
  | [], r => some ⟨r.reverse, none⟩
  | [c], r =>
    -- a final backslash reads s[i + 1] out of range (IndexError)
    if c = '\\' then none
    else if c = '%' then some ⟨r.reverse, some []⟩
    else some ⟨(c :: r).reverse, none⟩
  | c :: nc :: rest2, r =>
    if c = '\\' then
      if nc = '%' then patInitGo rest2 ('%' :: r)
      else if nc = '\\' then patInitGo rest2 ('\\' :: r)
      else
        -- the backslash is kept; `nc` (neither `%` nor `\`) is consumed by the
        -- immediately following iteration, fused here to keep the recursion
        -- structural
        patInitGo rest2 (nc :: '\\' :: r)
    else if c = '%' then some ⟨r.reverse, some (nc :: rest2)⟩
    else patInitGo (nc :: rest2) (c :: r)

/-- `Pattern(s)`: `none` when construction raises `IndexError`. -/
def PatternS.fromString (s : String) : Option PatternS := patInitGo s.toList []

def PatternS.ispattern (p : PatternS) : Bool := p.rest.isSome

def PatternS.ismatchany (p : PatternS) : Bool := p.first = [] && p.rest = some []

/-- `Pattern.match` (data.py:345-364) (`match` is a Lean keyword, hence the
name `matchStem`): returns the matching stem, or `none` when the word does not
match. For a `%`-less pattern the stem returned on a match is the whole word. -/
def PatternS.matchStem (p : PatternS) (word : List Char) : Option (List Char) :=
  match p.rest with
  | none => if word = p.first then some word else none
  | some suffix =>
    let l1 := p.first.length
    let l2 := suffix.length
    if word.length ≥ l1 + l2 && p.first.isPrefixOf word && suffix.isSuffixOf word then
      if l2 = 0 then some (word.drop l1)
      else some ((word.drop l1).take (word.length - l1 - l2))  -- word[l1:-l2]
    else none

/-- `Pattern.resolve` (data.py:366-370). -/
def PatternS.resolve (p : PatternS) (dir stem : List Char) : List Char :=
  match p.rest with
  | some suffix => dir ++ p.first ++ stem ++ suffix
  | none => p.first

/-- `Pattern.subst` (data.py:372-391): pattern substitution a la `patsubst`.
`IndexError` from constructing `Pattern(replacement)` propagates. -/
def PatternS.subst (p : PatternS) (replacement : String) (word : List Char)
    (mustmatch : Bool) : Except MakeError (List Char) :=
  match p.matchStem word with
  | none =>
    if mustmatch then
      .error (.dataError ("target '" ++ String.mk word ++ "' doesn't match pattern"))
    else .ok word
  | some stem =>
    if p.ispattern then
      match patInitGo replacement.toList [] with
      | none => .error .indexError
      | some pr => .ok (pr.resolve [] stem)
    else
      -- if we're not a pattern, the replacement is not parsed as a pattern either
      .ok replacement.toList

/-- No `%` character occurs. -/
def noPercent (l : List Char) : Bool := l.all (· ≠ '%')

/-- Every backslash is inert for `Pattern.__init__`: it is not the last
character and is not followed by `\` or `%`. -/
def bsSafe : List Char → Bool
  | [] => true
  | [c] => c != '\\'
  | c :: nc :: rest =>
    (c != '\\' || (nc != '\\' && nc != '%')) && bsSafe (nc :: rest)

/-! ## Targets, rules and the makefile (data.py:403-1134)

Rules, pattern rules and pattern-rule instances are Python objects; stack
membership tests (`r in rulestack`) use object identity, modeled by giving
each `Rule`/`PatternRule` an `id` unique per object, so structural equality
coincides with identity. Command expansions are identified opaquely (their
content is only consumed by the subprocess layer, outside this embedding). -/

abbrev CmdId := Nat

structure RuleS where
  id : Nat
  prerequisites : List String
  doublecolon : Bool
  commands : List CmdId
  deriving Repr, DecidableEq

structure PatternRuleS where
  id : Nat
  targetpatterns : List PatternS
  prerequisites : List PatternS
  doublecolon : Bool
  commands : List CmdId
  deriving Repr, DecidableEq

/-- `PatternRule.prerequisitesforstem` (data.py:932-933). -/
def PatternRuleS.prerequisitesforstem (r : PatternRuleS) (dir stem : List Char) :
    List String :=
  r.prerequisites.map fun p => String.mk (p.resolve dir stem)

/-- `PatternRule.ismatchany` (data.py:900-901). -/
def PatternRuleS.ismatchanyR (r : PatternRuleS) : Bool :=
  r.targetpatterns.any fun t => t.ismatchany

/-- `PatternRule.hasmatch` (data.py:903-908). -/
def PatternRuleS.hasmatch (r : PatternRuleS) (file : List Char) : Bool :=
  r.targetpatterns.any fun p => (p.matchStem file).isSome

/-- `PatternRuleInstance` (data.py:856-881): binds a PatternRule to a concrete
`(dir, stem, ismatchany)`. -/
structure PRInstanceS where
  prule : PatternRuleS
  dir : List Char
  stem : List Char
  ismatchany : Bool
  deriving Repr, DecidableEq

def PRInstanceS.prerequisites (ri : PRInstanceS) : List String :=
  ri.prule.prerequisitesforstem ri.dir ri.stem

def PRInstanceS.doublecolon (ri : PRInstanceS) : Bool := ri.prule.doublecolon

def PRInstanceS.commands (ri : PRInstanceS) : List CmdId := ri.prule.commands

/-- A rule attached to a target: a `Rule` or a `PatternRuleInstance`. -/
inductive RuleEither where
  | rule (r : RuleS)
  | inst (ri : PRInstanceS)
  deriving Repr, DecidableEq

def RuleEither.prerequisites : RuleEither → List String
  | .rule r => r.prerequisites
  | .inst ri => ri.prerequisites

def RuleEither.doublecolon : RuleEither → Bool
  | .rule r => r.doublecolon
  | .inst ri => ri.doublecolon

def RuleEither.commands : RuleEither → List CmdId
  | .rule r => r.commands
  | .inst ri => ri.commands

/-- The identity of the underlying rule object, used to label execute events. -/
def RuleEither.rid : RuleEither → Nat
  | .rule r => r.id
  | .inst ri => ri.prule.id

/-- An entry of the `rulestack` argument: `resolvedeps` pushes `Rule` and
`PatternRuleInstance` objects, implicit-rule search pushes `PatternRule`
objects; the membership test in `resolveimplicitrule` compares a
`PatternRule` against all of them by object identity. -/
inductive StackRule where
  | ruleObj (r : RuleS)
  | instObj (ri : PRInstanceS)
  | patObj (p : PatternRuleS)
  deriving Repr, DecidableEq

def stackOf : RuleEither → StackRule
  | .rule r => .ruleObj r
  | .inst ri => .instObj ri

/-- `PatternRule.matchesfor` (data.py:910-930), the yield for a single target
pattern. -/
def matchesforPat (r : PatternRuleS) (dir file : List Char) (skipsinglecolonmatchany : Bool)
    (p : PatternS) : Option PRInstanceS :=
  if p.ismatchany then
    if skipsinglecolonmatchany && !r.doublecolon then none
    else some ⟨r, dir, file, true⟩
  else
    match p.matchStem (dir ++ file) with
    | some stem => some ⟨r, [], stem, false⟩
    | none =>
      match p.matchStem file with
      | some stem => some ⟨r, dir, stem, false⟩
      | none => none

def PatternRuleS.matchesfor (r : PatternRuleS) (dir file : List Char)
    (skipsinglecolonmatchany : Bool) : List PRInstanceS :=
  r.targetpatterns.filterMap (matchesforPat r dir file skipsinglecolonmatchany)

/-- A target record (data.py:414-426). `mtime`/`realmtime` are Python
attributes first assigned by `resolvevpath`/`remake`; in the embedded control
flow they are always assigned before being read, so they start as `none`.
`vars` renders the `variables` attribute (a reserved word in Lean), the
target's own scope frame; its parent is the makefile's global scope. -/
structure TargetS where
  target : String
  vpathtarget : Option String
  rules : List RuleEither
  vars : VarMap
  explicit : Bool
  remade : Option Bool
  mtime : Option MTime
  realmtime : Option MTime
  deriving Repr, DecidableEq
-- (fields `variables` in the source are named `vars` here)

def newTarget (name : String) : TargetS :=
  { target := name, vpathtarget := none, rules := [], vars := [],
    explicit := false, remade := none, mtime := none, realmtime := none }

/-- `Target.hasdependency` (data.py:448-453). -/
def TargetS.hasdependency (t : TargetS) (dep : String) : Bool :=
  t.rules.any fun r => r.prerequisites.contains dep

/-- `Target.ruleswithcommands` (data.py:529-531). -/
def TargetS.ruleswithcommands (t : TargetS) : Nat :=
  t.rules.foldl (fun i r => i + (if r.commands.length > 0 then 1 else 0)) 0

/-- `Target.isdoublecolon` (data.py:441-442): `self.rules[0].doublecolon`;
`none` renders the `IndexError` on an empty rule list. -/
def TargetS.isdoublecolonQ (t : TargetS) : Option Bool :=
  match t.rules with
  | [] => none
  | r :: _ => some r.doublecolon

/-- `Target.remake` (data.py:651-659). -/
def TargetS.remakeT (t : TargetS) : TargetS :=
  { t with realmtime := t.mtime, mtime := none, vpathtarget := some t.target }

def alistFind {α : Type} : List (String × α) → String → Option α
  | [], _ => none
  | (k, v) :: rest, name => if k = name then some v else alistFind rest name

def alistSet {α : Type} : List (String × α) → String → α → List (String × α)
  | [], name, v => [(name, v)]
  | (k, v0) :: rest, name, v =>
    if k = name then (name, v) :: rest else (k, v0) :: alistSet rest name v

/-- The makefile state (data.py:935-977). `fs` is the filesystem
(`os.stat().st_mtime` or `none`); `exprEval` abstracts the expansion
evaluator (`parsemakesyntax` + `Expansion.resolve`) applied to a raw
(non-simple) variable value; `execFails` abstracts the subprocess layer:
whether executing the commands of rule `id` for a target raises the
command-failed `DataError`. -/
structure MakefileS where
  targets : List (String × TargetS)
  implicitrules : List PatternRuleS
  parsingfinished : Bool
  vars : VariablesS
  patternvariables : List (PatternS × VarMap)
  vpathList : List String
  patternvpaths : List (PatternS × List String)
  workdir : String
  overrides : List String
  fs : String → Option MTime
  exprEval : String → String
  execFails : String → Nat → Bool

def MakefileS.updateTarget (mk : MakefileS) (name : String) (f : TargetS → TargetS) :
    MakefileS :=
  { mk with targets := match alistFind mk.targets name with
      | some t => alistSet mk.targets name (f t)
      | none => mk.targets }

/-- Python `s.rstrip('/')`. -/
def pyRStripChar (s : String) (c : Char) : String :=
  String.mk ((s.toList.reverse.dropWhile (· = c)).reverse)

/-- `Makefile.gettarget` (data.py:1006-1020): normalizes the name, rejects
wildcards, creates the record lazily. Returns the normalized key together
with the updated state. The `assert target != ''` is rendered as
`assertionFailed`. -/
def MakefileS.gettarget (mk : MakefileS) (target : String) :
    Except MakeError (String × MakefileS) :=
  let target := pyRStripChar target '/'
  if target = "" then .error .assertionFailed
  else if target.toList.contains '*' || target.toList.contains '?' ||
      target.toList.contains '[' then
    .error (.dataError ("wildcards should have been expanded by the parser: '" ++ target ++ "'"))
  else
    match alistFind mk.targets target with
    | some _ => .ok (target, mk)
    | none => .ok (target, { mk with targets := alistSet mk.targets target (newTarget target) })

def pyTruthy : Option Bool → Bool
  | some b => b
  | none => false

/-- `Target.isphony` (data.py:444-446). The Python body computes
`phony = makefile.gettarget('.PHONY').hasdependency(self.target)` and then
falls off the end without a `return` statement, so the caller receives
Python `None`; the call still creates the `.PHONY` target record as a side
effect. -/
def MakefileS.isphony (mk : MakefileS) (t : TargetS) :
    Except MakeError (Option Bool × MakefileS) :=
  match mk.gettarget ".PHONY" with
  | .error e => .error e
  | .ok (key, mk1) =>
    match alistFind mk1.targets key with
    | none => .error .assertionFailed   -- unreachable: gettarget ensures presence
    | some pt =>
      let _phony := pt.hasdependency t.target
      .ok (none, mk1)   -- the body ends without `return phony`

def withoutdupsGo (seen : List String) : List String → List String
  | [] => []
  | x :: rest =>
    if seen.contains x then withoutdupsGo seen rest
    else x :: withoutdupsGo (x :: seen) rest

/-- `data.withoutdups` (data.py:27-32) on strings. -/
def withoutdups (l : List String) : List String := withoutdupsGo [] l

/-- `Makefile.getvpath` (data.py:1084-1090). -/
def MakefileS.getvpath (mk : MakefileS) (target : String) : List String :=
  let vp := mk.vpathList ++
    (mk.patternvpaths.filterMap fun pd =>
      if (pd.1.matchStem target.toList).isSome then some pd.2 else none).flatten
  withoutdups vp

/-- Python `str.startswith` (via character lists, for kernel evaluation). -/
def pyStartsWith (s pre : String) : Bool := pre.toList.isPrefixOf s.toList

/-- Python `str.endswith`. -/
def pyEndsWith (s suf : String) : Bool := suf.toList.isSuffixOf s.toList

def pyIsAbs (s : String) : Bool := pyStartsWith s "/"

/-- `posixpath.join` on two components. -/
def pyPathJoin (a b : String) : String :=
  if pyIsAbs b then b
  else if a = "" || pyEndsWith a "/" then a ++ b
  else a ++ "/" ++ b

/-- Look a variable up and resolve its value to a string:
`variables.get(name)` followed by `value.resolve(makefile, variables)`. A
simple variable's expansion is `fromstring(valuestr)` and resolves to the raw
text verbatim; other flavors go through the expansion-evaluator oracle. -/
def MakefileS.getvarResolved (mk : MakefileS) (name : String) : Option String :=
  match mk.vars.get name with
  | (flavor, _, some raw) =>
    some (if flavor = some FLAVOR_SIMPLE then raw else mk.exprEval raw)
  | (_, _, none) => none

/-- Python 2 `map(Pattern, words)`: eager, so an `IndexError` from any
construction aborts before the search loop. -/
def mapPattern : List String → Option (List PatternS)
  | [] => some []
  | s :: rest =>
    match PatternS.fromString s with
    | none => none
    | some p =>
      match mapPattern rest with
      | none => none
      | some ps => some (p :: ps)

/-- The inner directory loop of the `.LIBPATTERNS` search (data.py:622-629):
first directory where the library exists wins. -/
def libDirLoop (mk : MakefileS) (tname libname : String) :
    List String → Option MakefileS
  | [] => none
  | dir :: rest =>
    let libpath := pyPathJoin dir libname
    let fspath := pyPathJoin mk.workdir libpath
    match mk.fs fspath with
    | some m =>
      some (mk.updateTarget tname fun u => { u with vpathtarget := some libpath, mtime := some m })
    | none => libDirLoop mk tname libname rest

/-- The `.LIBPATTERNS` pattern loop (data.py:616-629): `ok none` when
exhausted (caller then resolves to the bare target with no mtime). -/
def libSearchPatterns (mk : MakefileS) (tname : String) (stem : String)
    (searchdirs : List String) : List PatternS → Except MakeError (Option MakefileS)
  | [] => .ok none
  | lp :: rest =>
    if !lp.ispattern then .error (.dataError ".LIBPATTERNS contains a non-pattern")
    else
      let libname := String.mk (lp.resolve [] stem.toList)
      match libDirLoop mk tname libname searchdirs with
      | some mk1 => .ok (some mk1)
      | none => libSearchPatterns mk tname stem searchdirs rest

/-- The plain VPATH search loop (data.py:640-649): first existing candidate
wins; fallback is the bare target with no mtime. -/
def vpathSearchLoop (mk : MakefileS) (tname : String) : List String → MakefileS
  | [] => mk.updateTarget tname fun u => { u with vpathtarget := some u.target, mtime := none }
  | cand :: rest =>
    let fspath := pyPathJoin mk.workdir cand
    match mk.fs fspath with
    | some m =>
      mk.updateTarget tname fun u => { u with vpathtarget := some cand, mtime := some m }
    | none => vpathSearchLoop mk tname rest

def MakefileS.vpathNormalSearch (mk : MakefileS) (tname : String) (t : TargetS) :
    MakefileS :=
  let search := [t.target] ++
    (if !pyIsAbs t.target then (mk.getvpath t.target).map fun dir => pyPathJoin dir t.target
     else [])
  vpathSearchLoop mk tname search

/-- `Target.resolvevpath` (data.py:598-649). Errors are returned together
with the state at the raise point (Python does not roll back mutations). -/
def MakefileS.resolvevpathU (mk : MakefileS) (tname : String) :
    (Except MakeError Unit) × MakefileS :=
  match alistFind mk.targets tname with
  | none => (.error .assertionFailed, mk)   -- callers obtained the target via gettarget
  | some t =>
    if t.vpathtarget.isSome then (.ok (), mk)
    else
      match mk.isphony t with
      | .error e => (.error e, mk)
      | .ok (phony, mk1) =>
        if pyTruthy phony then
          (.ok (), mk1.updateTarget tname fun u => { u with vpathtarget := some u.target, mtime := none })
        else
          if pyStartsWith t.target "-l" then
            let stem := String.mk (t.target.toList.drop 2)
            match mk1.getvarResolved ".LIBPATTERNS" with
            | some resolved =>
              match mapPattern (splitwords resolved) with
              | none => (.error .indexError, mk1)
              | some libpatterns =>
                if libpatterns.length ≠ 0 then
                  let searchdirs := [""] ++ mk1.getvpath t.target
                  match libSearchPatterns mk1 tname stem searchdirs libpatterns with
                  | .error e => (.error e, mk1)
                  | .ok (some mk2) => (.ok (), mk2)
                  | .ok none =>
                    (.ok (), mk1.updateTarget tname fun u =>
                      { u with vpathtarget := some u.target, mtime := none })
                else (.ok (), mk1.vpathNormalSearch tname t)
            | none => (.ok (), mk1.vpathNormalSearch tname t)
          else (.ok (), mk1.vpathNormalSearch tname t)

/-- Python `s.rpartition(c)` for a single-character separator: split at the
last occurrence, or `('', '', s)` when absent. -/
def rpartitionCh (s : String) (c : Char) : String × String × String :=
  let rev := s.toList.reverse
  let afterRev := rev.takeWhile (· ≠ c)
  if afterRev.length = rev.length then ("", "", s)
  else (String.mk ((rev.drop (afterRev.length + 1)).reverse), String.mk [c],
        String.mk afterRev.reverse)

def strJoin (sep : String) : List String → String
  | [] => ""
  | [x] => x
  | x :: y :: rest => x ++ sep ++ strJoin sep (y :: rest)

/-- An execute event: `executecommands` ran the commands of rule `rid` for the
named target. -/
abbrev Trace := List (String × Nat)

/-- `Rule.execute`/`PatternRuleInstance.execute` → `executecommands`
(data.py:813-831): build the automatic-variable scope and run each command
line through the subprocess layer. Command-text resolution and process
spawning are outside this embedding (the child scope is local and the state
is otherwise unchanged); the run is recorded as an event, and the `execFails`
oracle decides whether a command exits nonzero without an ignore-errors
prefix, raising the command-failed `DataError`. -/
def executeRule (mk : MakefileS) (tname : String) (rid : Nat) :
    (Except MakeError Unit) × Trace :=
  if mk.execFails tname rid then
    (.error (.dataError "command failed"), [(tname, rid)])
  else (.ok (), [(tname, rid)])

/-- `Variables.merge` (data.py:272-275): `set` each entry of the other scope
(in its dict order, modeled by list order). -/
def VariablesS.mergeFrom (v : VariablesS) (other : VarMap) : VariablesS :=
  other.foldl (fun acc kfsv => acc.set kfsv.1 kfsv.2.1 kfsv.2.2.1 kfsv.2.2.2) v

/-- `Makefile.getpatternvariablesfor` (data.py:998-1001). -/
def MakefileS.getpatternvariablesfor (mk : MakefileS) (target : String) : List VarMap :=
  mk.patternvariables.filterMap fun pv =>
    if (pv.1.matchStem target.toList).isSome then some pv.2 else none

/-- The pattern-variable merge at the end of `resolvedeps` (data.py:595-596):
the target's scope (child of the makefile's globals) merges every matching
pattern scope in list order. -/
def mergePatternVariables (mk : MakefileS) (tname : String) : MakefileS :=
  mk.updateTarget tname fun u =>
    { u with vars :=
        ((mk.getpatternvariablesfor u.target).foldl VariablesS.mergeFrom
          (VariablesS.mk u.vars (some mk.vars))).vmap }

/-- The candidate generation of `resolveimplicitrule` (data.py:470-481): skip
rules already on the rule stack and rules without commands; collect the
instances `matchesfor` yields. -/
def implicitCandidates (irules : List PatternRuleS) (rulestack : List StackRule)
    (dir file : List Char) (hasmatch : Bool) : List PRInstanceS :=
  ((irules.filter fun r =>
      !(rulestack.contains (StackRule.patObj r)) && r.commands.length != 0).map
    fun r => r.matchesfor dir file hasmatch).flatten

/-- The pass-A prerequisite check (data.py:486-492): each prerequisite is
VPATH-resolved; it fails when it is neither explicit nor on disk. -/
def irCheckPrereqsA (mk : MakefileS) : List String → (Except MakeError (Option String)) × MakefileS
  | [] => (.ok none, mk)
  | p :: rest =>
    match mk.gettarget p with
    | .error e => (.error e, mk)
    | .ok (pkey, mk1) =>
      match MakefileS.resolvevpathU mk1 pkey with
      | (.error e, mk2) => (.error e, mk2)
      | (.ok (), mk2) =>
        match alistFind mk2.targets pkey with
        | none => (.error .assertionFailed, mk2)
        | some t =>
          if t.explicit = false ∧ t.mtime = none then (.ok (some p), mk2)
          else irCheckPrereqsA mk2 rest

/-- Pass A of implicit-rule search (data.py:485-503): install the first
candidate whose prerequisites all check out (`ok none`); terminal
(double-colon) failures are dropped, others survive to pass B
(`ok (some newcandidates)`). -/
def irPassA (mk : MakefileS) (tname : String) :
    List PRInstanceS → List PRInstanceS → (Except MakeError (Option (List PRInstanceS))) × MakefileS
  | [], newcands => (.ok (some newcands), mk)
  | ri :: rest, newcands =>
    match irCheckPrereqsA mk ri.prerequisites with
    | (.error e, mk1) => (.error e, mk1)
    | (.ok (some _p), mk1) =>
      if ri.doublecolon then irPassA mk1 tname rest newcands
      else irPassA mk1 tname rest (newcands ++ [ri])
    | (.ok none, mk1) =>
      (.ok none, mk1.updateTarget tname fun u => { u with rules := u.rules ++ [.inst ri] })

/-! The mutually recursive resolution/build engine. The Python recursion can
diverge (ever-growing target names through pattern chains), so every function
takes a fuel argument, decremented on each recursive call; `outOfFuel` is the
embedding's rendering of nontermination, and all theorems hold for every
fuel. -/

mutual

/-- `Target.resolvedeps` (data.py:533-596). -/
def resolvedeps : Nat → MakefileS → String → List String → List StackRule → Bool →
    (Except MakeError Unit) × MakefileS
  | 0, mk, _, _, _, _ => (.error .outOfFuel, mk)
  | fuel + 1, mk, tname, targetstack, rulestack, required =>
    if mk.parsingfinished = false then (.error .assertionFailed, mk)
    else
      match alistFind mk.targets tname with
      | none => (.error .assertionFailed, mk)
      | some t =>
        if targetstack.contains t.target then
          (.error (.resolutionError
            ("Recursive dependency: " ++ strJoin " -> " targetstack ++ " -> " ++ t.target)), mk)
        else
          let ts1 := targetstack ++ [t.target]
          match MakefileS.resolvevpathU mk tname with
          | (.error e, mk1) => (.error e, mk1)
          | (.ok (), mk1) =>
            match alistFind mk1.targets tname with
            | none => (.error .assertionFailed, mk1)
            | some t1 =>
              let rwc := t1.ruleswithcommands
              match (if t1.rules.length ≠ 0 ∧ t1.isdoublecolonQ = some false then
                       (if rwc > 1 then
                          Except.error (MakeError.dataError
                            ("Target '" ++ t1.target ++ "' has multiple rules with commands."))
                        else Except.ok ())
                     else Except.ok ()) with
              | .error e => (.error e, mk1)
              | .ok () =>
                match (if rwc = 0 then resolveimplicitrule fuel mk1 tname ts1 rulestack
                       else (.ok (), mk1)) with
                | (.error e, mk2) => (.error e, mk2)
                | (.ok (), mk2) =>
                  match alistFind mk2.targets tname with
                  | none => (.error .assertionFailed, mk2)
                  | some t2 =>
                    if t2.rules.length = 0 ∧ t2.mtime = none ∧
                        (t2.rules.any fun r => r.prerequisites.length > 0) = false ∧
                        required = true then
                      (.error (.resolutionError
                        ("No rule to make target '" ++ t2.target ++ "' needed by " ++
                          strJoin " -> " ts1)), mk2)
                    else
                      match rdepsRuleLoop fuel mk2 ts1 rulestack t2.rules with
                      | (.error e, mk3) => (.error e, mk3)
                      | (.ok (), mk3) => (.ok (), mergePatternVariables mk3 tname)

/-- The per-rule loop of `resolvedeps` (data.py:585-593): each rule pushes
itself onto the rule stack and resolves its prerequisites. -/
def rdepsRuleLoop : Nat → MakefileS → List String → List StackRule → List RuleEither →
    (Except MakeError Unit) × MakefileS
  | 0, mk, _, _, _ => (.error .outOfFuel, mk)
  | _fuel + 1, mk, _, _, [] => (.ok (), mk)
  | fuel + 1, mk, ts1, rulestack, r :: rest =>
    let newrulestack := rulestack ++ [stackOf r]
    match rdepsPrereqLoop fuel mk ts1 newrulestack r.prerequisites with
    | (.error e, mk1) => (.error e, mk1)
    | (.ok (), mk1) => rdepsRuleLoop fuel mk1 ts1 rulestack rest

/-- The prerequisite loop of `resolvedeps` (data.py:588-593): explicit
prerequisites are not traversed further. -/
def rdepsPrereqLoop : Nat → MakefileS → List String → List StackRule → List String →
    (Except MakeError Unit) × MakefileS
  | 0, mk, _, _, _ => (.error .outOfFuel, mk)
  | _fuel + 1, mk, _, _, [] => (.ok (), mk)
  | fuel + 1, mk, ts1, newrulestack, d :: rest =>
    match mk.gettarget d with
    | .error e => (.error e, mk)
    | .ok (dkey, mk1) =>
      match alistFind mk1.targets dkey with
      | none => (.error .assertionFailed, mk1)
      | some dt =>
        if dt.explicit then rdepsPrereqLoop fuel mk1 ts1 newrulestack rest
        else
          match resolvedeps fuel mk1 dkey ts1 newrulestack true with
          | (.error e, mk2) => (.error e, mk2)
          | (.ok (), mk2) => rdepsPrereqLoop fuel mk2 ts1 newrulestack rest

/-- `Target.resolveimplicitrule` (data.py:455-527). -/
def resolveimplicitrule : Nat → MakefileS → String → List String → List StackRule →
    (Except MakeError Unit) × MakefileS
  | 0, mk, _, _, _ => (.error .outOfFuel, mk)
  | fuel + 1, mk, tname, targetstack, rulestack =>
    match alistFind mk.targets tname with
    | none => (.error .assertionFailed, mk)
    | some t =>
      let parts := rpartitionCh t.target '/'
      let dir := parts.1 ++ parts.2.1
      let file := parts.2.2.toList
      let hasmatch := mk.implicitrules.any fun r => r.hasmatch file
      let candidates := implicitCandidates mk.implicitrules rulestack dir.toList file hasmatch
      match irPassA mk tname candidates [] with
      | (.error e, mk1) => (.error e, mk1)
      | (.ok none, mk1) => (.ok (), mk1)
      | (.ok (some newcandidates), mk1) =>
        irPassB fuel mk1 tname targetstack rulestack newcandidates

/-- Pass B of implicit-rule search (data.py:505-525): chain through
`resolvedeps` with the pattern rule pushed onto the rule stack; only
`ResolutionError` disqualifies a candidate. -/
def irPassB : Nat → MakefileS → String → List String → List StackRule → List PRInstanceS →
    (Except MakeError Unit) × MakefileS
  | 0, mk, _, _, _, _ => (.error .outOfFuel, mk)
  | _fuel + 1, mk, _, _, _, [] => (.ok (), mk)
  | fuel + 1, mk, tname, ts, rulestack, ri :: rest =>
    let newrulestack := rulestack ++ [StackRule.patObj ri.prule]
    match irCheckPrereqsB fuel mk ts newrulestack ri.prerequisites with
    | (.error e, mk1) => (.error e, mk1)
    | (.ok (some _p), mk1) => irPassB fuel mk1 tname ts rulestack rest
    | (.ok none, mk1) =>
      (.ok (), mk1.updateTarget tname fun u => { u with rules := u.rules ++ [.inst ri] })

/-- The pass-B prerequisite loop (data.py:510-517). -/
def irCheckPrereqsB : Nat → MakefileS → List String → List StackRule → List String →
    (Except MakeError (Option String)) × MakefileS
  | 0, mk, _, _, _ => (.error .outOfFuel, mk)
  | _fuel + 1, mk, _, _, [] => (.ok none, mk)
  | fuel + 1, mk, ts, newrulestack, p :: rest =>
    match mk.gettarget p with
    | .error e => (.error e, mk)
    | .ok (pkey, mk1) =>
      match resolvedeps fuel mk1 pkey ts newrulestack true with
      | (.error (.resolutionError _), mk2) => (.ok (some p), mk2)
      | (.error e, mk2) => (.error e, mk2)
      | (.ok (), mk2) => irCheckPrereqsB fuel mk2 ts newrulestack rest

/-- `Target.make` (data.py:661-731). Returns `didanything`, the updated
state, and the trace of execute events. -/
def make : Nat → MakefileS → String → List String → List StackRule → Bool → Bool →
    (Except MakeError Bool) × MakefileS × Trace
  | 0, mk, _, _, _, _, _ => (.error .outOfFuel, mk, [])
  | fuel + 1, mk, tname, targetstack, rulestack, required, avoidremakeloop =>
    match alistFind mk.targets tname with
    | none => (.error .assertionFailed, mk, [])
    | some t =>
      match t.remade with
      | some b => (.ok b, mk, [])
      | none =>
        match resolvedeps fuel mk tname targetstack rulestack required with
        | (.error e, mk1) => (.error e, mk1, [])
        | (.ok (), mk1) =>
          match alistFind mk1.targets tname with
          | none => (.error .assertionFailed, mk1, [])
          | some t1 =>
            if t1.vpathtarget = none then (.error .assertionFailed, mk1, [])
            else
              let ts2 := targetstack ++ [t1.target]
              match (if t1.rules.length = 0 then
                       ((.ok false, mk1, []) : (Except MakeError Bool) × MakefileS × Trace)
                     else
                       match t1.isdoublecolonQ with
                       | none => (.error .indexError, mk1, [])
                       | some true => makeDCLoop fuel mk1 tname ts2 avoidremakeloop t1.rules false
                       | some false => makeSCCore fuel mk1 tname ts2 t1.rules t1.mtime.isNone) with
              | (.error e, mk2, ev) => (.error e, mk2, ev)
              | (.ok did, mk2, ev) =>
                (.ok did, mk2.updateTarget tname fun u => { u with remade := some did }, ev)

/-- The double-colon branch of `make` (data.py:683-704): each rule decides
and executes independently. -/
def makeDCLoop : Nat → MakefileS → String → List String → Bool → List RuleEither → Bool →
    (Except MakeError Bool) × MakefileS × Trace
  | 0, mk, _, _, _, _, _ => (.error .outOfFuel, mk, [])
  | _fuel + 1, mk, _, _, _, [], did => (.ok did, mk, [])
  | fuel + 1, mk, tname, ts2, avoid, r :: rest, did =>
    match (if r.prerequisites.length = 0 then
             ((if avoid then Except.ok (did, false) else Except.ok (did, true)), mk, ([] : Trace))
           else
             let selfMtime := match alistFind mk.targets tname with
               | some st => st.mtime
               | none => none
             makeDepsLoop fuel mk tname ts2 r.prerequisites did selfMtime.isNone) with
    | (.error e, mk1, ev) => (.error e, mk1, ev)
    | (.ok (did1, remake1), mk1, ev) =>
      if remake1 then
        let mk2 := mk1.updateTarget tname TargetS.remakeT
        match executeRule mk2 tname r.rid with
        | (.error e, ev2) => (.error e, mk2, ev ++ ev2)
        | (.ok (), ev2) =>
          match makeDCLoop fuel mk2 tname ts2 avoid rest true with
          | (res, mk3, ev3) => (res, mk3, ev ++ ev2 ++ ev3)
      else
        match makeDCLoop fuel mk1 tname ts2 avoid rest did1 with
        | (res, mk3, ev3) => (res, mk3, ev ++ ev3)

/-- The single-colon branch of `make` (data.py:706-728): find the (single)
command rule and the out-of-date flag over all rules, then remake once. -/
def makeSCCore : Nat → MakefileS → String → List String → List RuleEither → Bool →
    (Except MakeError Bool) × MakefileS × Trace
  | 0, mk, _, _, _, _ => (.error .outOfFuel, mk, [])
  | fuel + 1, mk, tname, ts2, rules, remake0 =>
    match makeSCRules fuel mk tname ts2 rules none false remake0 with
    | (.error e, mk1, ev) => (.error e, mk1, ev)
    | (.ok (cr, did, remake), mk1, ev) =>
      if remake then
        let mk2 := mk1.updateTarget tname TargetS.remakeT
        match cr with
        | some r =>
          match executeRule mk2 tname r.rid with
          | (.error e, ev2) => (.error e, mk2, ev ++ ev2)
          | (.ok (), ev2) => (.ok true, mk2, ev ++ ev2)
        | none => (.ok true, mk2, ev)
      else (.ok did, mk1, ev)

/-- The per-rule accumulation of the single-colon branch (data.py:713-722):
record the command rule (asserting uniqueness) and run the prerequisites. -/
def makeSCRules : Nat → MakefileS → String → List String → List RuleEither →
    Option RuleEither → Bool → Bool →
    (Except MakeError (Option RuleEither × Bool × Bool)) × MakefileS × Trace
  | 0, mk, _, _, _, _, _, _ => (.error .outOfFuel, mk, [])
  | _fuel + 1, mk, _, _, [], cr, did, remake => (.ok (cr, did, remake), mk, [])
  | fuel + 1, mk, tname, ts2, r :: rest, cr, did, remake =>
    match (if r.commands.length ≠ 0 then
             (if cr.isSome then Except.error MakeError.assertionFailed
              else Except.ok (some r))
           else Except.ok cr) with
    | .error e => (.error e, mk, [])
    | .ok cr1 =>
      match makeDepsLoop fuel mk tname ts2 r.prerequisites did remake with
      | (.error e, mk1, ev) => (.error e, mk1, ev)
      | (.ok (did1, remake1), mk1, ev) =>
        match makeSCRules fuel mk1 tname ts2 rest cr1 did1 remake1 with
        | (res, mk2, ev2) => (res, mk2, ev ++ ev2)

/-- The prerequisite loop shared by both branches of `make`
(data.py:696-701, 717-722): make each dependency (fresh rule stack), fold
`didanything`, and flag out-of-dateness via `mtimeislater`. -/
def makeDepsLoop : Nat → MakefileS → String → List String → List String → Bool → Bool →
    (Except MakeError (Bool × Bool)) × MakefileS × Trace
  | 0, mk, _, _, _, _, _ => (.error .outOfFuel, mk, [])
  | _fuel + 1, mk, _, _, [], did, remake => (.ok (did, remake), mk, [])
  | fuel + 1, mk, tname, ts2, p :: rest, did, remake =>
    match mk.gettarget p with
    | .error e => (.error e, mk, [])
    | .ok (pkey, mk1) =>
      match make fuel mk1 pkey ts2 [] true false with
      | (.error e, mk2, ev) => (.error e, mk2, ev)
      | (.ok depDid, mk2, ev) =>
        let did1 := depDid || did
        let depMtime := match alistFind mk2.targets pkey with
          | some dt => dt.mtime
          | none => none
        let selfMtime := match alistFind mk2.targets tname with
          | some st => st.mtime
          | none => none
        let remake1 := if !remake && mtimeislater depMtime selfMtime then true else remake
        match makeDepsLoop fuel mk2 tname ts2 rest did1 remake1 with
        | (res, mk3, ev2) => (res, mk3, ev ++ ev2)

end

/-- The rule list of a target in a state (`[]` when the target is absent). -/
def rulesOf (mk : MakefileS) (u : String) : List RuleEither :=
  match alistFind mk.targets u with
  | some t => t.rules
  | none => []

/-! ## finishparsing and the eval gate (data.py:1026-1050, functions.py:503-518) -/

/-- Python `re.split('[:\s]+', s)` (fragments between runs of colons and
whitespace). -/
def resplitColonWS (s : String) : List String :=
  resplitPredGo (fun c => c = ':' || pyIsSpace c) s.toList [] false

def markPrereqsExplicit : MakefileS → List String → Except MakeError MakefileS
  | mk, [] => .ok mk
  | mk, p :: rest =>
    match mk.gettarget p with
    | .error e => .error e
    | .ok (key, mk1) =>
      markPrereqsExplicit (mk1.updateTarget key fun u => { u with explicit := true }) rest

/-- The explicit-marking loop of `finishparsing` (data.py:1045-1050), over a
snapshot of the target map: each target becomes explicit, and so does every
prerequisite of its rules (created lazily via `gettarget`). -/
def markExplicit : MakefileS → List (String × TargetS) → Except MakeError MakefileS
  | mk, [] => .ok mk
  | mk, (k, t) :: rest =>
    let mk1 := mk.updateTarget k fun u => { u with explicit := true }
    match markPrereqsExplicit mk1 (t.rules.map RuleEither.prerequisites).flatten with
    | .error e => .error e
    | .ok mk2 => markExplicit mk2 rest

/-- `Makefile.finishparsing` (data.py:1026-1050): set `parsingfinished`,
reject a non-empty `GPATH`, compute the `VPATH` directory list, and mark
mentioned targets and their prerequisites explicit. -/
def MakefileS.finishparsing (mk : MakefileS) : Except MakeError MakefileS :=
  let mk1 := { mk with parsingfinished := true }
  let gpathBad := match mk1.getvarResolved "GPATH" with
    | some v => pyStrip v != ""
    | none => false
  if gpathBad then
    .error (.dataError "GPATH was set: pymake does not support GPATH semantics")
  else
    let vpath := match mk1.getvarResolved "VPATH" with
      | none => []
      | some v => (resplitColonWS v).filter fun e => e ≠ ""
    let mk2 := { mk1 with vpathList := vpath }
    markExplicit mk2 mk2.targets

/-- The result of a successful `EvalFunction.resolve`: the argument text was
parsed as makefile syntax and applied (the parser component, outside this
embedding). -/
inductive EvalOutcome where
  | applied (text : String)
  deriving Repr, DecidableEq

/-- `EvalFunction.resolve` (functions.py:503-518): raises a `DataError` once
parsing is finished; otherwise parses its resolved argument as makefile
syntax and executes the statements. -/
def evalResolve (mk : MakefileS) (argtext : String) : Except MakeError EvalOutcome :=
  if mk.parsingfinished then
    .error (.dataError "$(eval) not allowed via recursive expansion after parsing is finished")
  else .ok (.applied argtext)

/-! ## Command-line argument parsing (parser.py:395-469) -/

def findSubstrGo (sep : List Char) : List Char → Nat → Option Nat
  | [], i => if sep = [] then some i else none
  | c :: rest, i =>
    if sep.isPrefixOf (c :: rest) then some i else findSubstrGo sep rest (i + 1)

/-- Python `str.partition(sep)`: split at the first occurrence of `sep`, or
`(s, '', '')` when absent. -/
def pypartition (s sep : String) : String × String × String :=
  match findSubstrGo sep.toList s.toList 0 with
  | none => (s, "", "")
  | some i =>
    (String.mk (s.toList.take i), sep, String.mk (s.toList.drop (i + sep.length)))

/-- `parser.setvariable` (parser.py:395-441) restricted to the token shapes
reachable from `parsecommandlineargs` (`=` and `:=`; `+=`/`?=` cannot arise
because the argument is partitioned only on `:=` and `=`). The RHS data
iterated with `iterdata` is the text unchanged; `skipwhitespace` is true at
this call site, so the RHS is left-stripped (for `:=` via `Expansion.lstrip`
on the parsed RHS, which strips exactly the leading literal whitespace). For
`:=` the RHS is resolved by the expansion evaluator, abstracted as the
`resolveStr` oracle; for `=` the raw text is stored as recursive. -/
def setvariableCL (resolveStr : String → String) (vars : VariablesS)
    (vname token val : String) (source : Nat) : Except MakeError VariablesS :=
  if vname.length = 0 then .error (.syntaxError "Empty variable name")
  else if token = "=" then
    .ok (vars.set vname FLAVOR_RECURSIVE source (pyLStrip val))
  else
    .ok (vars.set vname FLAVOR_SIMPLE source (resolveStr (pyLStrip val)))

/-- `parser.parsecommandlineargs` (parser.py:443-469): arguments containing
`:=` or `=` are recorded verbatim on the override list and assigned with
source `SOURCE_COMMANDLINE`; the rest are returned, in order, as goal
targets. -/
def parsecommandlineargs (resolveStr : String → String) (mk : MakefileS) :
    List String → Except MakeError (List String × MakefileS)
  | [] => .ok ([], mk)
  | a :: rest =>
    let part1 := pypartition a ":="
    let part := if part1.2.1 = "" then pypartition a "=" else part1
    if part.2.1 ≠ "" then
      let mk1 := { mk with overrides := mk.overrides ++ [a] }
      let vname := pyStrip part.1
      match setvariableCL resolveStr mk1.vars vname part.2.1 part.2.2 SOURCE_COMMANDLINE with
      | .error e => .error e
      | .ok vars1 =>
        parsecommandlineargs resolveStr { mk1 with vars := vars1 } rest
    else
      match parsecommandlineargs resolveStr mk rest with
      | .error e => .error e
      | .ok (r, mkf) => .ok (a :: r, mkf)

/-! ## Concrete fixtures for the closed theorems -/

def emptyMakefile : MakefileS :=
  { targets := [], implicitrules := [], parsingfinished := false,
    vars := .mk [] none, patternvariables := [], vpathList := [],
    patternvpaths := [], workdir := "/work", overrides := [],
    fs := fun _ => none, exprEval := id, execFails := fun _ _ => false }

/-- A makefile in which `foo` is listed as a prerequisite of `.PHONY` and the
file `foo` exists in the working directory with mtime 5. -/
def phonyScenario : MakefileS :=
  { emptyMakefile with
    parsingfinished := true,
    targets :=
      [(".PHONY", { newTarget ".PHONY" with rules :=
          [.rule { id := 1, prerequisites := ["foo"], doublecolon := false, commands := [] }] }),
       ("foo", newTarget "foo")],
    fs := fun p => if p = "/work/foo" then some 5 else none }

/-- The events of a trace belonging to one target. -/
def traceT (T : String) (ev : Trace) : Trace := ev.filter fun e => e.1 = T

/-- The rule lists of a state extend those of another by appended
pattern-rule instances none of which uses a pattern rule already on the given
rule stack. -/
def rulesAppendOK (rs : List StackRule) (old new : List RuleEither) : Prop :=
  ∃ extra, new = old ++ extra ∧
    ∀ e ∈ extra, ∃ ri, e = RuleEither.inst ri ∧ StackRule.patObj ri.prule ∉ rs

/-- Every target-map entry's `target` field equals its key (maintained by
`gettarget`, which creates entries keyed by their own name, and by all
updates, which never change the `target` field). -/
def WFNames (mk : MakefileS) : Prop :=
  ∀ k t, alistFind mk.targets k = some t → t.target = k

/-- The `remade` field of a target in a state. -/
def remadeOf (mk : MakefileS) (u : String) : Option Bool :=
  match alistFind mk.targets u with
  | some t => t.remade
  | none => none

/-- A record of how a state evolved: target-map domain grows, every target's
`target` name-key agreement is kept, and (unless noted) rules and `remade`
are untouched. -/
def StateEvol (mk mk' : MakefileS) : Prop :=
  (∀ u, rulesOf mk' u = rulesOf mk u) ∧
  (∀ u, remadeOf mk' u = remadeOf mk u) ∧
  (∀ u, (alistFind mk.targets u).isSome = true → (alistFind mk'.targets u).isSome = true) ∧
  (WFNames mk → WFNames mk')

/-- The weak evolution satisfied by every engine step: the target-map domain
only grows and name-key agreement is preserved. -/
def Grows (mk mk' : MakefileS) : Prop :=
  (∀ u, (alistFind mk.targets u).isSome = true → (alistFind mk'.targets u).isSome = true) ∧
  (WFNames mk → WFNames mk')

/-- The state `parsecommandlineargs` produces from `emptyMakefile` on
`["V=x", "goal"]`. -/
def cmdlineResult : MakefileS :=
  { emptyMakefile with
    overrides := ["V=x"]
    vars := VariablesS.mk [("V", (FLAVOR_RECURSIVE, SOURCE_COMMANDLINE, "x"))] none }

/-! ## Theorems -/

/-- C10: `mtimeislater` returns true whenever the dependency mtime is `None`
(even when the target mtime is also `None`), false when the dependency mtime
is present but the target mtime is `None`, and otherwise compares the two
mtimes with `>`. -/
theorem C10_mtimeislater_edge_cases :
    (∀ t : Option MTime, mtimeislater none t = true) ∧
    (∀ d : MTime, mtimeislater (some d) none = false) ∧
    (∀ d t : MTime, mtimeislater (some d) (some t) = decide (d > t)) :=
  ⟨fun _ => rfl, fun _ => rfl, fun _ _ => rfl⟩

/-- C4 (code-bug evaluation): the `lastword` built-in, applied to the
two-word argument `"a b"`, resolves to the first word `"a"`, not to the last
word `"b"` as the claim (and the class name) demand — its body is a copy of
`firstword`'s. -/
theorem C4_lastword_returns_first_word :
    lastwordResolve "a b" = "a" ∧ (pysplit "a b").getLast? = some "b" ∧
    lastwordResolve "a b" ≠ "b" ∧
    lastwordResolve "a b" = firstwordResolve "a b" := by decide

/-- C5 (code-bug evaluation): in `phonyScenario`, `foo` is a prerequisite of
`.PHONY` and the file `foo` exists with mtime 5, yet `resolvevpath` records
mtime 5 (the filesystem search ran) instead of the claimed `none`, because
`Target.isphony` computes its flag but falls off the end returning `None`. -/
theorem C5_phony_target_gets_disk_mtime :
    (match alistFind phonyScenario.targets ".PHONY" with
     | some pt => pt.hasdependency "foo"
     | none => false) = true ∧
    (MakefileS.resolvevpathU phonyScenario "foo").1 = .ok () ∧
    ((alistFind (MakefileS.resolvevpathU phonyScenario "foo").2.targets "foo").map
      TargetS.mtime) = some (some 5) ∧
    some (some (5 : MTime)) ≠ some (none : Option MTime) := by decide

/-- C3 (counterexample): with `S1 = SOURCE_MAKEFILE` and
`S2 = SOURCE_COMMANDLINE` (so `S2 < S1`, as the claim quantifies), the second
`set` succeeds — numerically lower means higher priority — and `get` reports
`S2`, not `S1` as claimed. -/
theorem C3_counterexample :
    SOURCE_COMMANDLINE < SOURCE_MAKEFILE ∧
    ((((VariablesS.mk [] none).set "V" FLAVOR_SIMPLE SOURCE_MAKEFILE "a").set
        "V" FLAVOR_SIMPLE SOURCE_COMMANDLINE "b").get "V").2.1 = some SOURCE_COMMANDLINE ∧
    (some SOURCE_COMMANDLINE : Option Nat) ≠ some SOURCE_MAKEFILE := by decide

/-- C3 (amended): `set` refuses to override a binding from a higher-priority
(numerically lower) source: after `set V S1` then `set V S2` with `S2 > S1`,
`get V` still reports flavor `F1`, source `S1` and the first value. The
flavor hypothesis renders the `assert` in `set`. -/
theorem C3_set_respects_priority (name v1 v2 : String) (f1 f2 s1 s2 : Nat)
    (hf1 : f1 = FLAVOR_RECURSIVE ∨ f1 = FLAVOR_SIMPLE)
    (h12 : s1 < s2) :
    (((VariablesS.mk [] none).set name f1 s1 v1).set name f2 s2 v2).get name =
      (some f1, some s1, some v1) := by
  have hne : ¬ (f1 = FLAVOR_APPEND) := by
    rcases hf1 with h | h <;> simp [h, FLAVOR_RECURSIVE, FLAVOR_SIMPLE, FLAVOR_APPEND]
  have h1 : (VariablesS.mk [] none).set name f1 s1 v1 =
      VariablesS.mk [(name, (f1, s1, v1))] none := by
    simp [VariablesS.set, VariablesS.get, VariablesS.mk, VarMap.lookup,
      VariablesS.withMap, VariablesS.vmap, VarMap.setEntry]
  have hget : (VariablesS.mk [(name, (f1, s1, v1))] none).get name =
      (some f1, some s1, some v1) := by
    simp [VariablesS.get, VariablesS.mk, VarMap.lookup, hne]
  rw [h1]
  have h2 : (VariablesS.mk [(name, (f1, s1, v1))] none).set name f2 s2 v2 =
      VariablesS.mk [(name, (f1, s1, v1))] none := by
    simp [VariablesS.set, hget, Nat.lt_iff_add_one_le.mp h12, Nat.not_lt.mpr]
    intro h
    omega
  rw [h2, hget]

/-- Witness for C3's amended theorem at concrete inputs. -/
theorem C3_set_respects_priority_witness :
    ((((VariablesS.mk [] none).set "V" FLAVOR_SIMPLE SOURCE_COMMANDLINE "a").set
        "V" FLAVOR_SIMPLE SOURCE_MAKEFILE "b").get "V") =
      (some FLAVOR_SIMPLE, some SOURCE_COMMANDLINE, some "a") :=
  C3_set_respects_priority "V" "a" "b" FLAVOR_SIMPLE FLAVOR_SIMPLE
    SOURCE_COMMANDLINE SOURCE_MAKEFILE (Or.inr rfl) (by decide)

/-- C7 (counterexample): `p = "\\\\"` (two backslash characters) contains no
`%`, yet `Pattern(p).subst(r, p, True)` raises `DataError` instead of
returning `r`: `Pattern.__init__` unescapes `\\\\` to a single backslash, so
`p` no longer matches itself. -/
theorem C7_counterexample :
    ((PatternS.fromString "\\\\").map fun p => p.subst "r" "\\\\".toList true) ≠
      some (.ok "r".toList) := by decide

/-- Processing an ordinary character (neither backslash nor `%`) just moves
it onto the accumulator. -/
theorem patInitGo_ordinary_step (nc : Char) (rest2 r : List Char)
    (hb : ¬ (nc = '\\')) (hp : ¬ (nc = '%')) :
    patInitGo (nc :: rest2) r = patInitGo rest2 (nc :: r) := by
  cases rest2 with
  | nil => simp [patInitGo, hb, hp]
  | cons x xs => simp [patInitGo, hb, hp]

/-- Processing a backslash followed by an ordinary character keeps both. -/
theorem patInitGo_bs_step (nc : Char) (rest2 r : List Char)
    (h1 : ¬ (nc = '\\')) (h2 : ¬ (nc = '%')) :
    patInitGo ('\\' :: nc :: rest2) r = patInitGo rest2 (nc :: '\\' :: r) := by
  simp [patInitGo, h1, h2]

theorem bsSafe_cons_cons (c nc : Char) (rest : List Char) :
    bsSafe (c :: nc :: rest) =
      ((c != '\\' || (nc != '\\' && nc != '%')) && bsSafe (nc :: rest)) := rfl

/-- Construction of a pattern from a `%`-free string whose backslashes are
all inert leaves the string unchanged (and yields a non-`%` pattern). -/
theorem patInitGo_safe :
    ∀ (l r : List Char), noPercent l = true → bsSafe l = true →
      patInitGo l r = some ⟨r.reverse ++ l, none⟩ := by
  intro l
  induction l with
  | nil => intro r _ _; simp [patInitGo]
  | cons c rest ih =>
    intro r hnp hbs
    have hcp : ¬ (c = '%') := by
      intro h; subst h; simp [noPercent] at hnp
    have hnp' : noPercent rest = true := by
      simp only [noPercent, List.all_cons, Bool.and_eq_true] at hnp
      exact hnp.2
    cases rest with
    | nil =>
      have hcb : ¬ (c = '\\') := by
        intro h; subst h; simp [bsSafe] at hbs
      simp [patInitGo, hcb, hcp]
    | cons nc rest2 =>
      rw [bsSafe_cons_cons] at hbs
      have hbs' : bsSafe (nc :: rest2) = true := by
        rcases Bool.and_eq_true_iff.mp hbs with ⟨_, h2⟩
        exact h2
      by_cases hcb : c = '\\'
      · subst hcb
        have hcond : (nc != '\\' && nc != '%') = true := by
          rcases Bool.and_eq_true_iff.mp hbs with ⟨h1, _⟩
          rcases Bool.or_eq_true_iff.mp h1 with h | h
          · simp at h
          · exact h
        rcases Bool.and_eq_true_iff.mp hcond with ⟨hn1, hn2⟩
        have hnc1 : ¬ (nc = '\\') := by simpa using hn1
        have hnc2 : ¬ (nc = '%') := by simpa using hn2
        have ihr := ih ('\\' :: r) hnp' hbs'
        rw [patInitGo_ordinary_step nc rest2 ('\\' :: r) hnc1 hnc2] at ihr
        rw [patInitGo_bs_step nc rest2 r hnc1 hnc2, ihr]
        simp
      · have ihr := ih (c :: r) hnp' hbs'
        rw [patInitGo_ordinary_step c (nc :: rest2) r hcb hcp, ihr]
        simp

/-- C7 (amended): (1) for a string `p` containing no `%` and only inert
backslashes (none trailing, none followed by `\` or `%` — the cases the
counterexample exhibits), `Pattern(p).subst(r, p, True)` returns `r`; (2) for
patterns `p` and `r` (both containing an operative `%`) and a word `w` with
stem `σ = p.match(w)`, `Pattern(p).subst(r, w, True)` equals
`Pattern(r).resolve('', σ)`. -/
theorem C7_pattern_subst_roundtrip :
    (∀ (s r : String) (p : PatternS),
        noPercent s.toList = true → bsSafe s.toList = true →
        PatternS.fromString s = some p →
        p.subst r s.toList true = .ok r.toList) ∧
    (∀ (p pr : PatternS) (r : String) (w σ : List Char),
        p.ispattern = true → PatternS.fromString r = some pr → pr.ispattern = true →
        p.matchStem w = some σ →
        p.subst r w true = .ok (pr.resolve [] σ)) := by
  constructor
  · intro s r p hnp hbs hp
    rw [PatternS.fromString, patInitGo_safe s.toList [] hnp hbs] at hp
    simp only [List.reverse_nil, List.nil_append, Option.some_inj] at hp
    subst hp
    simp [PatternS.subst, PatternS.matchStem, PatternS.ispattern]
  · intro p pr r w σ hp hr hrp hm
    simp only [PatternS.subst, hm, hp, if_pos]
    rw [PatternS.fromString] at hr
    rw [hr]

/-- Witness for C7's amended theorem at concrete inputs: `p = "ab"` round
trips the replacement, and `%`-pattern substitution `a%b` → `x%y` on `aZb`. -/
theorem C7_pattern_subst_roundtrip_witness :
    (⟨"ab".toList, none⟩ : PatternS).subst "xy" "ab".toList true = .ok "xy".toList ∧
    (⟨['a'], some ['b']⟩ : PatternS).subst "x%y" "aZb".toList true =
      .ok (PatternS.resolve ⟨['x'], some ['y']⟩ [] ['Z']) :=
  ⟨C7_pattern_subst_roundtrip.1 "ab" "xy" ⟨"ab".toList, none⟩ (by decide) (by decide)
      (by decide),
   C7_pattern_subst_roundtrip.2 ⟨['a'], some ['b']⟩ ⟨['x'], some ['y']⟩ "x%y" "aZb".toList
      ['Z'] (by decide) (by decide) (by decide) (by decide)⟩

/-- C6 (counterexample): the command-line assignment `V=x` is performed with
source `SOURCE_COMMANDLINE` (ordinal 1), not `SOURCE_OVERRIDE` (ordinal 0) as
the claim states. -/
theorem C6_counterexample :
    (parsecommandlineargs id emptyMakefile ["V=x"]).toOption.map
      (fun p => (p.2.vars.get "V").2.1) = some (some SOURCE_COMMANDLINE) ∧
    SOURCE_COMMANDLINE ≠ SOURCE_OVERRIDE := by decide

/-- `gettarget` only touches the target map. -/
theorem gettarget_parsingfinished (mk : MakefileS) (t key : String) (mk' : MakefileS)
    (h : mk.gettarget t = .ok (key, mk')) : mk'.parsingfinished = mk.parsingfinished := by
  unfold MakefileS.gettarget at h
  dsimp only at h
  split at h
  · exact absurd h (by simp)
  · split at h
    · exact absurd h (by simp)
    · split at h
      · rcases h with ⟨⟩; rfl
      · rcases h with ⟨⟩; rfl

theorem updateTarget_parsingfinished (mk : MakefileS) (n : String) (f : TargetS → TargetS) :
    (mk.updateTarget n f).parsingfinished = mk.parsingfinished := rfl

theorem markPrereqsExplicit_parsingfinished :
    ∀ (ps : List String) (mk mk' : MakefileS), markPrereqsExplicit mk ps = .ok mk' →
      mk'.parsingfinished = mk.parsingfinished := by
  intro ps
  induction ps with
  | nil => intro mk mk' h; rcases h with ⟨⟩; rfl
  | cons p rest ih =>
    intro mk mk' h
    unfold markPrereqsExplicit at h
    split at h
    · exact absurd h (by simp)
    · rename_i key mk1 heq
      have h1 := gettarget_parsingfinished mk p key mk1 heq
      have h2 := ih _ _ h
      rw [h2, updateTarget_parsingfinished, h1]

theorem markExplicit_parsingfinished :
    ∀ (ts : List (String × TargetS)) (mk mk' : MakefileS), markExplicit mk ts = .ok mk' →
      mk'.parsingfinished = mk.parsingfinished := by
  intro ts
  induction ts with
  | nil => intro mk mk' h; rcases h with ⟨⟩; rfl
  | cons kt rest ih =>
    intro mk mk' h
    unfold markExplicit at h
    dsimp only at h
    split at h
    · exact absurd h (by simp)
    · rename_i mk2 heq
      have h1 := markPrereqsExplicit_parsingfinished _ _ _ heq
      have h2 := ih _ _ h
      rw [h2, h1, updateTarget_parsingfinished]

/-- `finishparsing` leaves `parsingfinished` set in any state it returns. -/
theorem finishparsing_sets_flag (mk mk' : MakefileS)
    (h : mk.finishparsing = .ok mk') : mk'.parsingfinished = true := by
  unfold MakefileS.finishparsing at h
  dsimp only at h
  split at h
  · exact absurd h (by simp)
  · have := markExplicit_parsingfinished _ _ _ h
    rw [this]

/-- C8: after `finishparsing` has set the `parsingfinished` flag, resolving
an `$(eval …)` raises the `DataError` instead of applying its argument as
makefile syntax. -/
theorem C8_eval_after_finishparsing (mk mk' : MakefileS) (arg : String)
    (h : mk.finishparsing = .ok mk') :
    evalResolve mk' arg =
      .error (.dataError
        "$(eval) not allowed via recursive expansion after parsing is finished") := by
  rw [evalResolve, if_pos (finishparsing_sets_flag mk mk' h)]

/-- Witness for C8 at a concrete makefile. -/
theorem C8_eval_after_finishparsing_witness :
    evalResolve { { emptyMakefile with parsingfinished := true } with vpathList := [] }
        "X = 1" =
      .error (.dataError
        "$(eval) not allowed via recursive expansion after parsing is finished") :=
  C8_eval_after_finishparsing emptyMakefile _ "X = 1" rfl

theorem string_append_ne_empty (s t : String) (h : s ≠ "") : s ++ t ≠ "" := by
  intro hc
  apply h
  have h2 : s.toList ++ t.toList = ([] : List Char) := congrArg String.toList hc
  exact String.ext (List.append_eq_nil.mp h2).1

theorem appendNE_head_isStr {F : Type} (x : Elt F) (rest : List (Elt F)) (obj : Elt F) :
    ∃ z rest', appendNE (x :: rest) obj = z :: rest' ∧ z.isStr = x.isStr := by
  cases rest with
  | nil =>
    cases x with
    | str s =>
      cases obj with
      | str t => exact ⟨.str (s ++ t), [], rfl, rfl⟩
      | func f => exact ⟨.str s, [.func f], rfl, rfl⟩
    | func f =>
      cases obj with
      | str t => exact ⟨.func f, [.str t], rfl, rfl⟩
      | func g => exact ⟨.func f, [.func g], rfl, rfl⟩
  | cons y ys => exact ⟨x, appendNE (y :: ys) obj, rfl, rfl⟩

theorem appendNE_inv {F : Type} :
    ∀ (e : ExpansionS F) (obj : Elt F),
      noEmptyStr e = true → folded e = true → eltOK obj = true →
      noEmptyStr (appendNE e obj) = true ∧ folded (appendNE e obj) = true := by
  intro e
  induction e with
  | nil =>
    intro obj _ _ hobj
    simp [appendNE, noEmptyStr, folded, hobj]
  | cons x rest ih =>
    intro obj hne hf hobj
    have hok : eltOK x = true := by
      simp only [noEmptyStr, List.all_cons, Bool.and_eq_true] at hne
      exact hne.1
    have hne' : noEmptyStr rest = true := by
      simp only [noEmptyStr, List.all_cons, Bool.and_eq_true] at hne
      exact hne.2
    cases rest with
    | nil =>
      cases x with
      | str s =>
        have hs : s ≠ "" := by simpa [eltOK] using hok
        cases obj with
        | str t =>
          have : s ++ t ≠ "" := string_append_ne_empty s t hs
          simp [appendNE, noEmptyStr, folded, eltOK, this]
        | func f => simp [appendNE, noEmptyStr, folded, eltOK, hs, Elt.isStr]
      | func f =>
        cases obj with
        | str t =>
          have ht : t ≠ "" := by simpa [eltOK] using hobj
          simp [appendNE, noEmptyStr, folded, eltOK, Elt.isStr, ht]
        | func g => simp [appendNE, noEmptyStr, folded, eltOK, Elt.isStr]
    | cons y ys =>
      have hf' : folded (y :: ys) = true := by
        simp only [folded, Bool.and_eq_true] at hf
        exact hf.2
      have hxy : (x.isStr && y.isStr) = false := by
        simp only [folded, Bool.and_eq_true, Bool.not_eq_true'] at hf
        exact hf.1
      obtain ⟨hne2, hf2⟩ := ih obj hne' hf' hobj
      obtain ⟨z, rest', heq, hiso⟩ := appendNE_head_isStr y ys obj
      have happ : appendNE (x :: y :: ys) obj = x :: appendNE (y :: ys) obj := rfl
      constructor
      · rw [happ]
        simp only [noEmptyStr, List.all_cons, Bool.and_eq_true]
        exact ⟨hok, by simpa [noEmptyStr] using hne2⟩
      · rw [happ, heq]
        simp only [folded, Bool.and_eq_true, Bool.not_eq_true']
        refine ⟨by rw [hiso]; exact hxy, ?_⟩
        rw [← heq]
        exact hf2

theorem concat_nil {F : Type} : ∀ (e : ExpansionS F), ExpansionS.concat e [] = e := by
  intro e
  induction e with
  | nil => rfl
  | cons x rest ih =>
    cases rest with
    | nil => rfl
    | cons y ys =>
      show x :: ExpansionS.concat (y :: ys) [] = _
      rw [ih]

theorem concat_head_isStr {F : Type} (y : Elt F) (ys o : List (Elt F)) :
    ∃ z rest', ExpansionS.concat (y :: ys) o = z :: rest' ∧ z.isStr = y.isStr := by
  cases ys with
  | nil =>
    cases o with
    | nil => exact ⟨y, [], rfl, rfl⟩
    | cons o1 orest =>
      cases y with
      | str s =>
        cases o1 with
        | str t => exact ⟨.str (s ++ t), orest, rfl, rfl⟩
        | func f => exact ⟨.str s, .func f :: orest, rfl, rfl⟩
      | func f => exact ⟨.func f, o1 :: orest, rfl, rfl⟩
  | cons y2 ys2 =>
    cases o with
    | nil => exact ⟨y, y2 :: ys2, concat_nil _, rfl⟩
    | cons o1 orest => exact ⟨y, ExpansionS.concat (y2 :: ys2) (o1 :: orest), rfl, rfl⟩

theorem concat_inv {F : Type} :
    ∀ (e o : ExpansionS F),
      noEmptyStr e = true → folded e = true → noEmptyStr o = true → folded o = true →
      noEmptyStr (ExpansionS.concat e o) = true ∧ folded (ExpansionS.concat e o) = true := by
  intro e
  induction e with
  | nil => intro o _ _ h3 h4; simpa [ExpansionS.concat] using ⟨h3, h4⟩
  | cons x rest ih =>
    intro o hne hf hno hfo
    have hok : eltOK x = true := by
      simp only [noEmptyStr, List.all_cons, Bool.and_eq_true] at hne
      exact hne.1
    have hne' : noEmptyStr rest = true := by
      simp only [noEmptyStr, List.all_cons, Bool.and_eq_true] at hne
      exact hne.2
    cases rest with
    | nil =>
      cases o with
      | nil => exact ⟨hne, hf⟩
      | cons o1 orest =>
        have ho1 : eltOK o1 = true := by
          simp only [noEmptyStr, List.all_cons, Bool.and_eq_true] at hno
          exact hno.1
        have hno' : noEmptyStr orest = true := by
          simp only [noEmptyStr, List.all_cons, Bool.and_eq_true] at hno
          exact hno.2
        cases x with
        | str s =>
          have hs : s ≠ "" := by simpa [eltOK] using hok
          cases o1 with
          | str t =>
            -- concat [.str s] (.str t :: orest) = .str (s ++ t) :: orest
            have hst : s ++ t ≠ "" := string_append_ne_empty s t hs
            constructor
            · simp only [ExpansionS.concat, noEmptyStr, List.all_cons, Bool.and_eq_true]
              exact ⟨by simp [eltOK, hst], by simpa [noEmptyStr] using hno'⟩
            · show folded (Elt.str (s ++ t) :: orest) = true
              cases orest with
              | nil => rfl
              | cons z zs =>
                simp only [folded, Bool.and_eq_true, Bool.not_eq_true', Elt.isStr] at hfo ⊢
                exact hfo
          | func f =>
            -- concat [.str s] (.func f :: orest) = .str s :: .func f :: orest
            constructor
            · simp only [ExpansionS.concat, noEmptyStr, List.all_cons, Bool.and_eq_true]
              exact ⟨hok, ho1, by simpa [noEmptyStr] using hno'⟩
            · show folded (Elt.str s :: Elt.func f :: orest) = true
              simp only [folded, Bool.and_eq_true, Bool.not_eq_true', Elt.isStr,
                Bool.and_false]
              exact ⟨trivial, hfo⟩
        | func f =>
          -- concat [.func f] o = .func f :: o
          constructor
          · simp only [ExpansionS.concat, noEmptyStr, List.all_cons, Bool.and_eq_true]
            exact ⟨hok, by simpa [noEmptyStr] using hno⟩
          · show folded (Elt.func f :: o1 :: orest) = true
            simp only [folded, Bool.and_eq_true, Bool.not_eq_true', Elt.isStr,
              Bool.false_and]
            exact ⟨trivial, hfo⟩
    | cons y ys =>
      have hf' : folded (y :: ys) = true := by
        simp only [folded, Bool.and_eq_true] at hf
        exact hf.2
      have hxy : (x.isStr && y.isStr) = false := by
        simp only [folded, Bool.and_eq_true, Bool.not_eq_true'] at hf
        exact hf.1
      cases o with
      | nil => rw [concat_nil]; exact ⟨hne, hf⟩
      | cons o1 orest =>
        obtain ⟨hne2, hf2⟩ := ih (o1 :: orest) hne' hf' hno hfo
        obtain ⟨z, rest', heq, hiso⟩ := concat_head_isStr y ys (o1 :: orest)
        have happ : ExpansionS.concat (x :: y :: ys) (o1 :: orest) =
            x :: ExpansionS.concat (y :: ys) (o1 :: orest) := rfl
        constructor
        · rw [happ]
          simp only [noEmptyStr, List.all_cons, Bool.and_eq_true]
          exact ⟨hok, by simpa [noEmptyStr] using hne2⟩
        · rw [happ, heq]
          simp only [folded, Bool.and_eq_true, Bool.not_eq_true']
          refine ⟨by rw [hiso]; exact hxy, ?_⟩
          rw [← heq]
          exact hf2

/-- `Expansion.append` preserves the folding invariant. -/
theorem append_inv {F : Type} (e : ExpansionS F) (obj : Elt F)
    (h1 : noEmptyStr e = true) (h2 : folded e = true) :
    noEmptyStr (e.append obj) = true ∧ folded (e.append obj) = true := by
  cases obj with
  | str s =>
    by_cases hs : s = ""
    · subst hs
      simpa [ExpansionS.append] using ⟨h1, h2⟩
    · have hok : eltOK (Elt.str s : Elt F) = true := by simp [eltOK, hs]
      have := appendNE_inv e (.str s) h1 h2 hok
      simpa [ExpansionS.append, hs] using this
  | func f =>
    have := appendNE_inv e (.func f) h1 h2 (by simp [eltOK])
    simpa [ExpansionS.append] using this

/-- Every expansion built through `append`/`concat` satisfies the invariant. -/
theorem built_inv {F : Type} : ∀ (l : ExpansionS F), BuiltExp l → ExpInv l := by
  intro l hb
  induction hb with
  | empty => exact ⟨rfl, rfl⟩
  | app _ ihe => exact append_inv _ _ ihe.1 ihe.2
  | cat _ _ ihe iho => exact concat_inv _ _ ihe.1 ihe.2 iho.1 iho.2

theorem pyLStrip_empty : pyLStrip "" = "" := rfl

theorem pyRStrip_empty : pyRStrip "" = "" := rfl

/-- Under folding, `lstrip` removes exactly the leading whitespace of the
leading literal run. -/
theorem litRun_lstrip {F : Type} (l : ExpansionS F) (hf : folded l = true) :
    litRun l.lstripE = pyLStrip (litRun l) := by
  cases l with
  | nil => rfl
  | cons x rest =>
    cases x with
    | func f => rfl
    | str s =>
      have hrest : litRun rest = "" := by
        cases rest with
        | nil => rfl
        | cons y ys =>
          cases y with
          | str t =>
            simp [folded, Elt.isStr] at hf
          | func g => rfl
      show litRun (Elt.str (pyLStrip s) :: rest) = pyLStrip (litRun (Elt.str s :: rest))
      show pyLStrip s ++ litRun rest = pyLStrip (s ++ litRun rest)
      rw [hrest, String.append_empty, String.append_empty]

theorem allStr_rstripE {F : Type} :
    ∀ (l : ExpansionS F), allStr l.rstripE = allStr l := by
  intro l
  induction l with
  | nil => rfl
  | cons x rest ih =>
    cases rest with
    | nil =>
      cases x with
      | str s => rfl
      | func f => rfl
    | cons y ys =>
      show allStr (x :: ExpansionS.rstripE (y :: ys)) = allStr (x :: y :: ys)
      simp only [allStr, List.all_cons] at ih ⊢
      rw [ih]

theorem rstripE_head_isStr {F : Type} (y : Elt F) (ys : List (Elt F)) :
    ∃ z rest', ExpansionS.rstripE (y :: ys) = z :: rest' ∧ z.isStr = y.isStr := by
  cases ys with
  | nil =>
    cases y with
    | str s => exact ⟨.str (pyRStrip s), [], rfl, rfl⟩
    | func f => exact ⟨.func f, [], rfl, rfl⟩
  | cons y2 ys2 => exact ⟨y, ExpansionS.rstripE (y2 :: ys2), rfl, rfl⟩

/-- Under folding, `rstrip` removes exactly the trailing whitespace of the
trailing literal run. -/
theorem litSuffix_rstrip {F : Type} :
    ∀ (l : ExpansionS F), folded l = true → litSuffix l.rstripE = pyRStrip (litSuffix l) := by
  intro l
  induction l with
  | nil => intro _; rfl
  | cons x rest ih =>
    intro hf
    cases rest with
    | nil =>
      cases x with
      | str s => rfl
      | func f => rfl
    | cons y ys =>
      have hf' : folded (y :: ys) = true := by
        simp only [folded, Bool.and_eq_true] at hf
        exact hf.2
      have hxy : (x.isStr && y.isStr) = false := by
        simp only [folded, Bool.and_eq_true, Bool.not_eq_true'] at hf
        exact hf.1
      have ihr := ih hf'
      obtain ⟨z, rest', heq, hiso⟩ := rstripE_head_isStr y ys
      have hshape : ExpansionS.rstripE (x :: y :: ys) = x :: ExpansionS.rstripE (y :: ys) := rfl
      rw [hshape, heq]
      have hall : allStr (z :: rest') = allStr (y :: ys) := by
        rw [← heq, allStr_rstripE]
      have hcond : allStr (x :: z :: rest') = allStr (x :: y :: ys) := by
        simp only [allStr, List.all_cons] at hall ⊢
        rw [hall]
      show (if allStr (x :: z :: rest') then strOf x else "") ++ litSuffix (z :: rest') =
        pyRStrip ((if allStr (x :: y :: ys) then strOf x else "") ++ litSuffix (y :: ys))
      rw [hcond, ← heq, ihr]
      by_cases hca : allStr (x :: y :: ys) = true
      · -- all strings from x on: then x.isStr and y.isStr, contradicting folding
        exfalso
        simp only [allStr, List.all_cons, Bool.and_eq_true] at hca
        have hx : x.isStr = true := hca.1
        have hy : y.isStr = true := hca.2.1
        rw [hx, hy] at hxy
        simp at hxy
      · rw [if_neg hca]
        rw [show ("" ++ pyRStrip (litSuffix (y :: ys))) = pyRStrip (litSuffix (y :: ys)) by
          simp]
        rw [show ("" ++ litSuffix (y :: ys)) = litSuffix (y :: ys) by simp]

/-- C9: expansions built through `append` and `concat` contain no empty
string and no two adjacent strings, and consequently `lstrip`/`rstrip`
remove exactly the leading/trailing whitespace of the leading/trailing
literal run. -/
theorem C9_expansion_fold_invariant :
    (∀ (F : Type) (l : ExpansionS F), BuiltExp l → ExpInv l) ∧
    (∀ (F : Type) (l : ExpansionS F), ExpInv l →
      litRun l.lstripE = pyLStrip (litRun l) ∧
      litSuffix l.rstripE = pyRStrip (litSuffix l)) :=
  ⟨fun _ l hb => built_inv l hb,
   fun _ l hi => ⟨litRun_lstrip l hi.2, litSuffix_rstrip l hi.2⟩⟩

/-- Witness for C9 at a concrete expansion over a trivial function type. -/
theorem C9_expansion_fold_invariant_witness :
    ExpInv (ExpansionS.append (ExpansionS.append ([] : ExpansionS Unit) (.str " a")) (.str "b ")) ∧
    litRun (ExpansionS.lstripE [Elt.str (F := Unit) " ab"]) = pyLStrip (litRun [Elt.str (F := Unit) " ab"]) :=
  ⟨C9_expansion_fold_invariant.1 Unit _
      (BuiltExp.app (BuiltExp.app BuiltExp.empty)),
   (C9_expansion_fold_invariant.2 Unit [Elt.str " ab"] ⟨by decide, by decide⟩).1⟩

theorem findSubstrGo_eqChar_none_iff (l : List Char) (i : Nat) :
    findSubstrGo ['='] l i = none ↔ '=' ∉ l := by
  induction l generalizing i with
  | nil => simp [findSubstrGo]
  | cons c rest ih =>
    by_cases hc : c = '='
    · subst hc
      simp [findSubstrGo, List.isPrefixOf]
    · have hpre : List.isPrefixOf ['='] (c :: rest) = false := by
        simp [List.isPrefixOf, hc]
        intro h
        exact absurd h.symm hc
      simp only [findSubstrGo, hpre, Bool.false_eq_true, if_false, List.mem_cons]
      rw [ih]
      constructor
      · intro h hmem
        rcases hmem with h1 | h1
        · exact hc h1.symm
        · exact h h1
      · intro h hmem
        exact h (Or.inr hmem)

theorem findSubstrGo_colonEq_some (l : List Char) (i j : Nat)
    (h : findSubstrGo [':', '='] l i = some j) : '=' ∈ l := by
  induction l generalizing i with
  | nil => simp [findSubstrGo] at h
  | cons c rest ih =>
    by_cases hpre : List.isPrefixOf [':', '='] (c :: rest) = true
    · have : '=' ∈ rest := by
        cases rest with
        | nil => simp [List.isPrefixOf] at hpre
        | cons d rest2 =>
          simp only [List.isPrefixOf, Bool.and_eq_true, beq_iff_eq] at hpre
          rcases hpre with ⟨_, h2, _⟩
          rw [← h2]
          exact List.mem_cons_self _ _
      exact List.mem_cons_of_mem _ this
    · simp only [findSubstrGo, hpre, if_false] at h
      exact List.mem_cons_of_mem _ (ih _ h)

/-- The code's assignment detection (partition on `:=`, then on `=`) fires
exactly when the argument contains an `=` character. -/
theorem cmdline_detect (a : String) :
    ((if (pypartition a ":=").2.1 = "" then pypartition a "=" else pypartition a ":=").2.1 ≠ "")
      ↔ '=' ∈ a.toList := by
  unfold pypartition
  rcases h1 : findSubstrGo ":=".toList a.toList 0 with _ | j
  · simp only [h1]
    rcases h2 : findSubstrGo "=".toList a.toList 0 with _ | j2
    · have hn : '=' ∉ a.toList := (findSubstrGo_eqChar_none_iff a.toList 0).mp h2
      simpa using hn
    · have hm : '=' ∈ a.toList := by
        by_contra hc
        have h2' : findSubstrGo ['='] a.toList 0 = some j2 := h2
        rw [(findSubstrGo_eqChar_none_iff a.toList 0).mpr hc] at h2'
        exact Option.noConfusion h2'
      simpa using hm
  · have hm : '=' ∈ a.toList := findSubstrGo_colonEq_some a.toList 0 j h1
    simp only [h1]
    simpa using hm

theorem lookup_setEntry (m : VarMap) (name : String) (e : VarEntry) (n' : String) :
    VarMap.lookup (VarMap.setEntry m name e) n' =
      if n' = name then some e else VarMap.lookup m n' := by
  induction m with
  | nil =>
    by_cases h : n' = name
    · subst h
      simp [VarMap.setEntry, VarMap.lookup]
    · have h2 : ¬ (name = n') := fun hh => h hh.symm
      simp [VarMap.setEntry, VarMap.lookup, h, h2]
  | cons kv rest ih =>
    obtain ⟨k, e0⟩ := kv
    by_cases hk : k = name
    · subst hk
      by_cases h : n' = k
      · subst h
        simp [VarMap.setEntry, VarMap.lookup]
      · have h2 : ¬ (k = n') := fun hh => h hh.symm
        simp [VarMap.setEntry, VarMap.lookup, h, h2]
    · by_cases h : k = n'
      · subst h
        have h2 : ¬ (k = name) := hk
        simp [VarMap.setEntry, VarMap.lookup, hk, fun hh : k = name => hk hh]
      · simp [VarMap.setEntry, VarMap.lookup, hk, h, ih]

/-- A `set` either leaves `get` unchanged on every name, or (on the name set)
reports the new flavor, source and value. -/
theorem set_get_or (v : VariablesS) (name n' : String) (f s : Nat) (val : String)
    (hf : f = FLAVOR_RECURSIVE ∨ f = FLAVOR_SIMPLE) :
    ((v.set name f s val).get n' = v.get n') ∨
    (n' = name ∧ (v.set name f s val).get n' = (some f, some s, some val)) := by
  have hfa : ¬ (f = FLAVOR_APPEND) := by
    rcases hf with h | h <;> simp [h, FLAVOR_RECURSIVE, FLAVOR_SIMPLE, FLAVOR_APPEND]
  have hins : ∀ (anc : List VarMap) (m : VarMap),
      VariablesS.get (VarMap.setEntry m name (f, s, val) :: anc) n' =
        (if n' = name then (some f, some s, some val)
         else VariablesS.get (m :: anc) n') := by
    intro anc m
    by_cases h : n' = name
    · subst h
      simp [VariablesS.get, lookup_setEntry, hfa]
    · simp [VariablesS.get, lookup_setEntry, h]
  have hsplit : (v.set name f s val = v) ∨
      (v.set name f s val = v.withMap (VarMap.setEntry v.vmap name (f, s, val))) := by
    unfold VariablesS.set
    rcases hg : v.get name with ⟨pf, psrc, pval⟩
    dsimp only
    cases psrc with
    | none => exact Or.inr rfl
    | some ps =>
      dsimp only
      by_cases hgt : s > ps
      · rw [if_pos hgt]
        exact Or.inl rfl
      · rw [if_neg hgt]
        exact Or.inr rfl
  rcases hsplit with h1 | h2
  · left
    rw [h1]
  · cases v with
    | nil =>
      by_cases h : n' = name
      · right
        refine ⟨h, ?_⟩
        rw [h2]
        show VariablesS.get [VarMap.setEntry [] name (f, s, val)] n' = _
        rw [show ([VarMap.setEntry [] name (f, s, val)] : VariablesS) =
            VarMap.setEntry [] name (f, s, val) :: ([] : List VarMap) from rfl]
        rw [hins [] [], if_pos h]
      · left
        rw [h2]
        show VariablesS.get [VarMap.setEntry [] name (f, s, val)] n' = VariablesS.get [] n'
        rw [show ([VarMap.setEntry [] name (f, s, val)] : VariablesS) =
            VarMap.setEntry [] name (f, s, val) :: ([] : List VarMap) from rfl]
        rw [hins [] [], if_neg h]
        simp [VariablesS.get, VarMap.lookup]
    | cons m anc =>
      by_cases h : n' = name
      · right
        refine ⟨h, ?_⟩
        rw [h2]
        show VariablesS.get (VarMap.setEntry m name (f, s, val) :: anc) n' = _
        rw [hins anc m, if_pos h]
      · left
        rw [h2]
        show VariablesS.get (VarMap.setEntry m name (f, s, val) :: anc) n' =
          VariablesS.get (m :: anc) n'
        rw [hins anc m, if_neg h]

/-- C6 (amended): `parsecommandlineargs` records each argument containing `=`
or `:=` verbatim on the override list and performs the corresponding
assignment with source `SOURCE_COMMANDLINE` (GNU make's command-line origin,
the second-highest priority — not override), and returns exactly the
remaining arguments, in order, as goal targets. -/
theorem C6_parsecommandlineargs (resolveStr : String → String) :
    ∀ (args : List String) (mk : MakefileS) (goals : List String) (mkf : MakefileS),
      parsecommandlineargs resolveStr mk args = .ok (goals, mkf) →
      goals = args.filter (fun a => !(a.toList.contains '=')) ∧
      mkf.overrides = mk.overrides ++ args.filter (fun a => a.toList.contains '=') ∧
      (∀ n, mkf.vars.get n = mk.vars.get n ∨
        (mkf.vars.get n).2.1 = some SOURCE_COMMANDLINE) := by
  intro args
  induction args with
  | nil =>
    intro mk goals mkf h
    rcases h with ⟨⟩
    exact ⟨rfl, by simp, fun n => Or.inl rfl⟩
  | cons a rest ih =>
    intro mk goals mkf h
    by_cases hdet : '=' ∈ a.toList
    · have hcontains : a.toList.contains '=' = true := by
        simpa [List.contains] using hdet
      have hcond : ((if (pypartition a ":=").2.1 = "" then pypartition a "="
          else pypartition a ":=").2.1 ≠ "") := (cmdline_detect a).mpr hdet
      unfold parsecommandlineargs at h
      dsimp only at h
      rw [if_pos (by
        by_cases hp : (pypartition a ":=").2.1 = ""
        · rw [if_pos hp]; rw [if_pos hp] at hcond; exact hcond
        · rw [if_neg hp]; rw [if_neg hp] at hcond; exact hcond)] at h
      set tok := (if (pypartition a ":=").2.1 = "" then pypartition a "="
          else pypartition a ":=") with htok
      rcases hsv : setvariableCL resolveStr
          ({ mk with overrides := mk.overrides ++ [a] } : MakefileS).vars
          (pyStrip tok.1) tok.2.1 tok.2.2 SOURCE_COMMANDLINE with e | vars1
      · rw [hsv] at h
        exact absurd h (by simp)
      · rw [hsv] at h
        obtain ⟨hg, ho, hv⟩ := ih _ _ _ h
        have hvars1 : ∃ fl, (fl = FLAVOR_RECURSIVE ∨ fl = FLAVOR_SIMPLE) ∧
            ∃ value, vars1 = mk.vars.set (pyStrip tok.1) fl SOURCE_COMMANDLINE value := by
          unfold setvariableCL at hsv
          split at hsv
          · exact absurd hsv (by simp)
          · split at hsv
            · exact ⟨FLAVOR_RECURSIVE, Or.inl rfl, pyLStrip tok.2.2, by
                rcases hsv with ⟨⟩; rfl⟩
            · exact ⟨FLAVOR_SIMPLE, Or.inr rfl, resolveStr (pyLStrip tok.2.2), by
                rcases hsv with ⟨⟩; rfl⟩
        refine ⟨?_, ?_, ?_⟩
        · rw [hg]
          simp only [List.filter_cons, hcontains, Bool.not_true]
          simp
        · rw [ho]
          simp only [List.filter_cons, hcontains, List.append_assoc]
          simp
        · intro n
          rcases hv n with h1 | h1
          · obtain ⟨fl, hfl, value, hv1⟩ := hvars1
            rcases set_get_or mk.vars (pyStrip tok.1) n fl SOURCE_COMMANDLINE value hfl
              with h2 | ⟨_, h2⟩
            · left
              rw [h1, hv1, h2]
            · right
              rw [h1, hv1, h2]
          · right
            exact h1
    · have hcontains : a.toList.contains '=' = false := by
        simpa [List.contains] using hdet
      have hcond : ¬ ((if (pypartition a ":=").2.1 = "" then pypartition a "="
          else pypartition a ":=").2.1 ≠ "") := by
        intro hc
        exact hdet ((cmdline_detect a).mp hc)
      unfold parsecommandlineargs at h
      dsimp only at h
      rw [if_neg (by
        by_cases hp : (pypartition a ":=").2.1 = ""
        · rw [if_pos hp]; rw [if_pos hp] at hcond; exact hcond
        · rw [if_neg hp]; rw [if_neg hp] at hcond; exact hcond)] at h
      rcases hrec : parsecommandlineargs resolveStr mk rest with e | pr
      · rw [hrec] at h
        exact absurd h (by simp)
      · rw [hrec] at h
        obtain ⟨r0, mk0⟩ := pr
        simp only [Except.ok.injEq, Prod.mk.injEq] at h
        obtain ⟨hg0, hm0⟩ := h
        obtain ⟨hg, ho, hv⟩ := ih _ _ _ hrec
        subst hm0
        refine ⟨?_, ?_, hv⟩
        · rw [← hg0, hg]
          simp only [List.filter_cons, hcontains]
          simp
        · rw [ho]
          simp only [List.filter_cons, hcontains]
          simp

/-- Witness for C6's amended theorem on `["V=x", "goal"]`. -/
theorem C6_parsecommandlineargs_witness :
    (["goal"] = (["V=x", "goal"].filter fun a => !(a.toList.contains '='))) ∧
    cmdlineResult.overrides =
      emptyMakefile.overrides ++ (["V=x", "goal"].filter fun a => a.toList.contains '=') ∧
    (cmdlineResult.vars.get "V" = emptyMakefile.vars.get "V" ∨
      (cmdlineResult.vars.get "V").2.1 = some SOURCE_COMMANDLINE) :=
  have h := C6_parsecommandlineargs id ["V=x", "goal"] emptyMakefile ["goal"]
    cmdlineResult rfl
  ⟨h.1, h.2.1, h.2.2 "V"⟩

/-! ### State-evolution lemmas for the resolution/build engine -/

theorem alistFind_alistSet {α : Type} (m : List (String × α)) (k : String) (v : α) :
    ∀ u, alistFind (alistSet m k v) u = if u = k then some v else alistFind m u := by
  induction m with
  | nil =>
    intro u
    by_cases h : u = k
    · subst h
      simp [alistSet, alistFind]
    · have h2 : ¬ (k = u) := fun hh => h hh.symm
      simp [alistSet, alistFind, h, h2]
  | cons kv rest ih =>
    intro u
    obtain ⟨k0, v0⟩ := kv
    by_cases hk : k0 = k
    · subst hk
      by_cases h : u = k0
      · subst h
        simp [alistSet, alistFind]
      · have h2 : ¬ (k0 = u) := fun hh => h hh.symm
        simp [alistSet, alistFind, h, h2]
    · by_cases h : k0 = u
      · subst h
        simp [alistSet, alistFind, hk, fun hh : k0 = k => hk hh]
      · simp [alistSet, alistFind, hk, h, ih]

theorem find_updateTarget (mk : MakefileS) (n : String) (f : TargetS → TargetS) :
    ∀ u, alistFind (mk.updateTarget n f).targets u =
      if u = n then (alistFind mk.targets u).map f else alistFind mk.targets u := by
  intro u
  unfold MakefileS.updateTarget
  rcases hn : alistFind mk.targets n with _ | t
  · by_cases h : u = n
    · subst h
      simp [hn]
    · simp [h]
  · show alistFind (alistSet mk.targets n (f t)) u = _
    rw [alistFind_alistSet]
    by_cases h : u = n
    · subst h
      simp [hn]
    · simp [h]

theorem StateEvol.reflSE (mk : MakefileS) : StateEvol mk mk :=
  ⟨fun _ => rfl, fun _ => rfl, fun _ h => h, fun h => h⟩

theorem StateEvol.transSE {mk1 mk2 mk3 : MakefileS}
    (h12 : StateEvol mk1 mk2) (h23 : StateEvol mk2 mk3) : StateEvol mk1 mk3 :=
  ⟨fun u => (h23.1 u).trans (h12.1 u),
   fun u => (h23.2.1 u).trans (h12.2.1 u),
   fun u h => h23.2.2.1 u (h12.2.2.1 u h),
   fun h => h23.2.2.2 (h12.2.2.2 h)⟩

/-- `updateTarget` with a function that keeps `target`, `rules` and `remade`
is a plain `StateEvol`. -/
theorem updateTarget_evol (mk : MakefileS) (n : String) (f : TargetS → TargetS)
    (htar : ∀ t, (f t).target = t.target)
    (hrules : ∀ t, (f t).rules = t.rules)
    (hremade : ∀ t, (f t).remade = t.remade) :
    StateEvol mk (mk.updateTarget n f) := by
  refine ⟨fun u => ?_, fun u => ?_, fun u h => ?_, fun hw k t hf => ?_⟩
  · rw [rulesOf, find_updateTarget]
    by_cases h : u = n
    · rw [if_pos h, rulesOf]
      rcases alistFind mk.targets u with _ | t
      · rfl
      · simp [hrules]
    · rw [if_neg h, rulesOf]
  · rw [remadeOf, find_updateTarget]
    by_cases h : u = n
    · rw [if_pos h, remadeOf]
      rcases alistFind mk.targets u with _ | t
      · rfl
      · simp [hremade]
    · rw [if_neg h, remadeOf]
  · rw [find_updateTarget]
    by_cases hu : u = n
    · rw [if_pos hu]
      simpa using h
    · rwa [if_neg hu]
  · rw [find_updateTarget] at hf
    by_cases hu : k = n
    · rw [if_pos hu] at hf
      rcases hm : alistFind mk.targets k with _ | t0
      · rw [hm] at hf
        exact absurd hf (by simp)
      · rw [hm] at hf
        have hf2 : some (f t0) = some t := hf
        cases hf2
        rw [htar]
        exact hw k t0 hm
    · rw [if_neg hu] at hf
      exact hw k t hf

theorem rulesOf_eq (mk : MakefileS) (u : String) :
    rulesOf mk u = (match alistFind mk.targets u with
      | some t => t.rules
      | none => []) := rfl

theorem remadeOf_eq (mk : MakefileS) (u : String) :
    remadeOf mk u = (match alistFind mk.targets u with
      | some t => t.remade
      | none => none) := rfl

/-- Inserting a fresh (lazily created) target record is a plain evolution. -/
theorem insert_new_evol (mk : MakefileS) (key : String)
    (hfind : alistFind mk.targets key = none) :
    StateEvol mk { mk with targets := alistSet mk.targets key (newTarget key) } := by
  refine ⟨fun u => ?_, fun u => ?_, fun u hs => ?_, fun hw k t1 hf => ?_⟩
  · rw [rulesOf_eq, rulesOf_eq]
    dsimp only
    rw [alistFind_alistSet]
    by_cases h : u = key
    · subst h
      rw [if_pos rfl, hfind]
      rfl
    · rw [if_neg h]
  · rw [remadeOf_eq, remadeOf_eq]
    dsimp only
    rw [alistFind_alistSet]
    by_cases h : u = key
    · subst h
      rw [if_pos rfl, hfind]
      rfl
    · rw [if_neg h]
  · show (alistFind (alistSet mk.targets key (newTarget key)) u).isSome = true
    rw [alistFind_alistSet]
    by_cases h : u = key
    · rw [if_pos h]
      rfl
    · rwa [if_neg h]
  · rw [show ({ mk with targets := alistSet mk.targets key (newTarget key) } :
        MakefileS).targets = alistSet mk.targets key (newTarget key) from rfl,
      alistFind_alistSet] at hf
    by_cases h : k = key
    · rw [if_pos h] at hf
      simp only [Option.some_inj] at hf
      rw [← hf, h]
      rfl
    · rw [if_neg h] at hf
      exact hw k t1 hf

theorem gettarget_evol (mk : MakefileS) (t key : String) (mk' : MakefileS)
    (h : mk.gettarget t = .ok (key, mk')) :
    StateEvol mk mk' ∧ (alistFind mk'.targets key).isSome = true := by
  unfold MakefileS.gettarget at h
  dsimp only at h
  split at h
  · exact absurd h (by simp)
  · split at h
    · exact absurd h (by simp)
    · split at h
      · rename_i t0 hfind
        rcases h with ⟨⟩
        exact ⟨StateEvol.reflSE mk, by rw [hfind]; rfl⟩
      · rename_i hfind
        rcases h with ⟨⟩
        refine ⟨insert_new_evol mk _ hfind, ?_⟩
        show (alistFind (alistSet mk.targets _ (newTarget _)) _).isSome = true
        rw [alistFind_alistSet, if_pos rfl]
        rfl

theorem Grows.reflG (mk : MakefileS) : Grows mk mk :=
  ⟨fun _ h => h, fun h => h⟩

theorem Grows.transG {mk1 mk2 mk3 : MakefileS}
    (h12 : Grows mk1 mk2) (h23 : Grows mk2 mk3) : Grows mk1 mk3 :=
  ⟨fun u h => h23.1 u (h12.1 u h), fun h => h23.2 (h12.2 h)⟩

theorem StateEvol.grows {mk mk' : MakefileS} (h : StateEvol mk mk') : Grows mk mk' :=
  ⟨h.2.2.1, h.2.2.2⟩

theorem traceT_append (T : String) (a b : Trace) :
    traceT T (a ++ b) = traceT T a ++ traceT T b :=
  List.filter_append a b

theorem traceT_nil (T : String) : traceT T [] = [] := rfl

theorem traceT_single_self (T : String) (rid : Nat) :
    traceT T [(T, rid)] = [(T, rid)] := by
  simp [traceT]

theorem traceT_single_other (T tname : String) (rid : Nat) (h : tname ≠ T) :
    traceT T [(tname, rid)] = [] := by
  simp [traceT, h]

theorem contains_mem (l : List String) (s : String) : l.contains s = true ↔ s ∈ l :=
  List.elem_iff

theorem rulesAppendOK_of_eq (rs : List StackRule) {old new : List RuleEither}
    (h : new = old) : rulesAppendOK rs old new :=
  ⟨[], by simp [h], by simp⟩

theorem rulesAppendOK_trans (rs : List StackRule) {a b c : List RuleEither}
    (h1 : rulesAppendOK rs a b) (h2 : rulesAppendOK rs b c) : rulesAppendOK rs a c := by
  obtain ⟨e1, he1, hp1⟩ := h1
  obtain ⟨e2, he2, hp2⟩ := h2
  refine ⟨e1 ++ e2, by simp [he2, he1], fun e he => ?_⟩
  rcases List.mem_append.1 he with h | h
  · exact hp1 e h
  · exact hp2 e h

theorem rulesAppendOK_mono {rs rs' : List StackRule} {old new : List RuleEither}
    (hsub : ∀ x ∈ rs, x ∈ rs') (h : rulesAppendOK rs' old new) :
    rulesAppendOK rs old new := by
  obtain ⟨e1, he1, hp1⟩ := h
  refine ⟨e1, he1, fun e he => ?_⟩
  obtain ⟨ri, hri, hnot⟩ := hp1 e he
  exact ⟨ri, hri, fun hmem => hnot (hsub _ hmem)⟩

theorem rulesAppendOK_install (rs : List StackRule) (old : List RuleEither)
    (ri : PRInstanceS) (h : StackRule.patObj ri.prule ∉ rs) :
    rulesAppendOK rs old (old ++ [RuleEither.inst ri]) := by
  refine ⟨[RuleEither.inst ri], rfl, fun e he => ?_⟩
  rcases List.mem_singleton.1 he with rfl
  exact ⟨ri, rfl, h⟩

theorem updateTarget_grows (mk : MakefileS) (n : String) (f : TargetS → TargetS)
    (htar : ∀ t, (f t).target = t.target) :
    Grows mk (mk.updateTarget n f) := by
  constructor
  · intro u h
    rw [find_updateTarget]
    by_cases hu : u = n
    · rw [if_pos hu]
      rcases hm : alistFind mk.targets u with _ | t0
      · rw [hm] at h
        exact absurd h (by simp)
      · rfl
    · rwa [if_neg hu]
  · intro hw k t hf
    rw [find_updateTarget] at hf
    by_cases hu : k = n
    · rw [if_pos hu] at hf
      rcases hm : alistFind mk.targets k with _ | t0
      · rw [hm] at hf
        exact absurd hf (by simp)
      · rw [hm] at hf
        have hf2 : some (f t0) = some t := hf
        cases hf2
        rw [htar]
        exact hw k t0 hm
    · rw [if_neg hu] at hf
      exact hw k t hf

theorem rulesOf_updateTarget_keep (mk : MakefileS) (n : String) (f : TargetS → TargetS)
    (hrules : ∀ t, (f t).rules = t.rules) (u : String) :
    rulesOf (mk.updateTarget n f) u = rulesOf mk u := by
  rw [rulesOf, find_updateTarget]
  by_cases h : u = n
  · rw [if_pos h, rulesOf]
    rcases alistFind mk.targets u with _ | t
    · rfl
    · simp [hrules]
  · rw [if_neg h, rulesOf]

theorem rulesOf_updateTarget_ne (mk : MakefileS) (n : String) (f : TargetS → TargetS)
    (u : String) (h : u ≠ n) :
    rulesOf (mk.updateTarget n f) u = rulesOf mk u := by
  rw [rulesOf, find_updateTarget, if_neg h, rulesOf]

theorem remadeOf_updateTarget_self (mk : MakefileS) (n : String) (f : TargetS → TargetS)
    (t : TargetS) (h : alistFind mk.targets n = some t) :
    remadeOf (mk.updateTarget n f) n = (f t).remade := by
  rw [remadeOf, find_updateTarget, if_pos rfl, h]
  rfl


/-! ### Unfolding equations for the engine (all definitional) -/

theorem resolvedeps_zero (mk : MakefileS) (tname : String) (ts : List String)
    (rs : List StackRule) (req : Bool) :
    resolvedeps 0 mk tname ts rs req = (.error .outOfFuel, mk) := rfl

theorem resolvedeps_succ (fuel : Nat) (mk : MakefileS) (tname : String)
    (ts : List String) (rs : List StackRule) (req : Bool) :
    resolvedeps (fuel+1) mk tname ts rs req =
      (if mk.parsingfinished = false then (.error .assertionFailed, mk)
       else
        match alistFind mk.targets tname with
        | none => (.error .assertionFailed, mk)
        | some t =>
          if ts.contains t.target then
            (.error (.resolutionError
              ("Recursive dependency: " ++ strJoin " -> " ts ++ " -> " ++ t.target)), mk)
          else
            match MakefileS.resolvevpathU mk tname with
            | (.error e, mk1) => (.error e, mk1)
            | (.ok (), mk1) =>
              match alistFind mk1.targets tname with
              | none => (.error .assertionFailed, mk1)
              | some t1 =>
                match (if t1.rules.length ≠ 0 ∧ t1.isdoublecolonQ = some false then
                         (if t1.ruleswithcommands > 1 then
                            Except.error (MakeError.dataError
                              ("Target '" ++ t1.target ++ "' has multiple rules with commands."))
                          else Except.ok ())
                       else Except.ok ()) with
                | .error e => (.error e, mk1)
                | .ok () =>
                  match (if t1.ruleswithcommands = 0 then
                           resolveimplicitrule fuel mk1 tname (ts ++ [t.target]) rs
                         else (.ok (), mk1)) with
                  | (.error e, mk2) => (.error e, mk2)
                  | (.ok (), mk2) =>
                    match alistFind mk2.targets tname with
                    | none => (.error .assertionFailed, mk2)
                    | some t2 =>
                      if t2.rules.length = 0 ∧ t2.mtime = none ∧
                          (t2.rules.any fun r => r.prerequisites.length > 0) = false ∧
                          req = true then
                        (.error (.resolutionError
                          ("No rule to make target '" ++ t2.target ++ "' needed by " ++
                            strJoin " -> " (ts ++ [t.target]))), mk2)
                      else
                        match rdepsRuleLoop fuel mk2 (ts ++ [t.target]) rs t2.rules with
                        | (.error e, mk3) => (.error e, mk3)
                        | (.ok (), mk3) => (.ok (), mergePatternVariables mk3 tname)) := rfl

theorem rdepsRuleLoop_zero (mk : MakefileS) (ts1 : List String) (rs : List StackRule)
    (rules : List RuleEither) :
    rdepsRuleLoop 0 mk ts1 rs rules = (.error .outOfFuel, mk) := rfl

theorem rdepsRuleLoop_nil (fuel : Nat) (mk : MakefileS) (ts1 : List String)
    (rs : List StackRule) :
    rdepsRuleLoop (fuel+1) mk ts1 rs [] = (.ok (), mk) := rfl

theorem rdepsRuleLoop_cons (fuel : Nat) (mk : MakefileS) (ts1 : List String)
    (rs : List StackRule) (r : RuleEither) (rest : List RuleEither) :
    rdepsRuleLoop (fuel+1) mk ts1 rs (r :: rest) =
      (match rdepsPrereqLoop fuel mk ts1 (rs ++ [stackOf r]) r.prerequisites with
       | (.error e, mk1) => (.error e, mk1)
       | (.ok (), mk1) => rdepsRuleLoop fuel mk1 ts1 rs rest) := rfl

theorem rdepsPrereqLoop_zero (mk : MakefileS) (ts1 : List String) (nrs : List StackRule)
    (ps : List String) :
    rdepsPrereqLoop 0 mk ts1 nrs ps = (.error .outOfFuel, mk) := rfl

theorem rdepsPrereqLoop_nil (fuel : Nat) (mk : MakefileS) (ts1 : List String)
    (nrs : List StackRule) :
    rdepsPrereqLoop (fuel+1) mk ts1 nrs [] = (.ok (), mk) := rfl

theorem rdepsPrereqLoop_cons (fuel : Nat) (mk : MakefileS) (ts1 : List String)
    (nrs : List StackRule) (d : String) (rest : List String) :
    rdepsPrereqLoop (fuel+1) mk ts1 nrs (d :: rest) =
      (match mk.gettarget d with
       | .error e => (.error e, mk)
       | .ok (dkey, mk1) =>
         match alistFind mk1.targets dkey with
         | none => (.error .assertionFailed, mk1)
         | some dt =>
           if dt.explicit then rdepsPrereqLoop fuel mk1 ts1 nrs rest
           else
             match resolvedeps fuel mk1 dkey ts1 nrs true with
             | (.error e, mk2) => (.error e, mk2)
             | (.ok (), mk2) => rdepsPrereqLoop fuel mk2 ts1 nrs rest) := rfl

theorem resolveimplicitrule_zero (mk : MakefileS) (tname : String) (ts : List String)
    (rs : List StackRule) :
    resolveimplicitrule 0 mk tname ts rs = (.error .outOfFuel, mk) := rfl

theorem resolveimplicitrule_succ (fuel : Nat) (mk : MakefileS) (tname : String)
    (ts : List String) (rs : List StackRule) :
    resolveimplicitrule (fuel+1) mk tname ts rs =
      (match alistFind mk.targets tname with
       | none => (.error .assertionFailed, mk)
       | some t =>
         match irPassA mk tname
             (implicitCandidates mk.implicitrules rs
               ((rpartitionCh t.target '/').1 ++ (rpartitionCh t.target '/').2.1).toList
               (rpartitionCh t.target '/').2.2.toList
               (mk.implicitrules.any fun r => r.hasmatch (rpartitionCh t.target '/').2.2.toList)) [] with
         | (.error e, mk1) => (.error e, mk1)
         | (.ok none, mk1) => (.ok (), mk1)
         | (.ok (some newcandidates), mk1) =>
           irPassB fuel mk1 tname ts rs newcandidates) := rfl

theorem irPassB_zero (mk : MakefileS) (tname : String) (ts : List String)
    (rs : List StackRule) (cands : List PRInstanceS) :
    irPassB 0 mk tname ts rs cands = (.error .outOfFuel, mk) := rfl

theorem irPassB_nil (fuel : Nat) (mk : MakefileS) (tname : String) (ts : List String)
    (rs : List StackRule) :
    irPassB (fuel+1) mk tname ts rs [] = (.ok (), mk) := rfl

theorem irPassB_cons (fuel : Nat) (mk : MakefileS) (tname : String) (ts : List String)
    (rs : List StackRule) (ri : PRInstanceS) (rest : List PRInstanceS) :
    irPassB (fuel+1) mk tname ts rs (ri :: rest) =
      (match irCheckPrereqsB fuel mk ts (rs ++ [StackRule.patObj ri.prule]) ri.prerequisites with
       | (.error e, mk1) => (.error e, mk1)
       | (.ok (some _), mk1) => irPassB fuel mk1 tname ts rs rest
       | (.ok none, mk1) =>
         (.ok (), mk1.updateTarget tname fun u => { u with rules := u.rules ++ [.inst ri] })) := rfl

theorem irCheckPrereqsB_zero (mk : MakefileS) (ts : List String) (nrs : List StackRule)
    (ps : List String) :
    irCheckPrereqsB 0 mk ts nrs ps = (.error .outOfFuel, mk) := rfl

theorem irCheckPrereqsB_nil (fuel : Nat) (mk : MakefileS) (ts : List String)
    (nrs : List StackRule) :
    irCheckPrereqsB (fuel+1) mk ts nrs [] = (.ok none, mk) := rfl

theorem irCheckPrereqsB_cons (fuel : Nat) (mk : MakefileS) (ts : List String)
    (nrs : List StackRule) (p : String) (rest : List String) :
    irCheckPrereqsB (fuel+1) mk ts nrs (p :: rest) =
      (match mk.gettarget p with
       | .error e => (.error e, mk)
       | .ok (pkey, mk1) =>
         match resolvedeps fuel mk1 pkey ts nrs true with
         | (.error (.resolutionError _), mk2) => (.ok (some p), mk2)
         | (.error e, mk2) => (.error e, mk2)
         | (.ok (), mk2) => irCheckPrereqsB fuel mk2 ts nrs rest) := rfl

theorem irPassA_nil (mk : MakefileS) (tname : String) (acc : List PRInstanceS) :
    irPassA mk tname [] acc = (.ok (some acc), mk) := rfl

theorem irPassA_cons (mk : MakefileS) (tname : String) (ri : PRInstanceS)
    (rest acc : List PRInstanceS) :
    irPassA mk tname (ri :: rest) acc =
      (match irCheckPrereqsA mk ri.prerequisites with
       | (.error e, mk1) => (.error e, mk1)
       | (.ok (some _), mk1) =>
         if ri.doublecolon then irPassA mk1 tname rest acc
         else irPassA mk1 tname rest (acc ++ [ri])
       | (.ok none, mk1) =>
         (.ok none, mk1.updateTarget tname fun u => { u with rules := u.rules ++ [.inst ri] })) := rfl

theorem irCheckPrereqsA_nil (mk : MakefileS) :
    irCheckPrereqsA mk [] = (.ok none, mk) := rfl

theorem irCheckPrereqsA_cons (mk : MakefileS) (p : String) (rest : List String) :
    irCheckPrereqsA mk (p :: rest) =
      (match mk.gettarget p with
       | .error e => (.error e, mk)
       | .ok (pkey, mk1) =>
         match MakefileS.resolvevpathU mk1 pkey with
         | (.error e, mk2) => (.error e, mk2)
         | (.ok (), mk2) =>
           match alistFind mk2.targets pkey with
           | none => (.error .assertionFailed, mk2)
           | some t =>
             if t.explicit = false ∧ t.mtime = none then (.ok (some p), mk2)
             else irCheckPrereqsA mk2 rest) := rfl


theorem make_zero (mk : MakefileS) (tname : String) (ts : List String)
    (rs : List StackRule) (req av : Bool) :
    make 0 mk tname ts rs req av = (.error .outOfFuel, mk, []) := rfl

theorem make_succ (fuel : Nat) (mk : MakefileS) (tname : String) (ts : List String)
    (rs : List StackRule) (req av : Bool) :
    make (fuel+1) mk tname ts rs req av =
      (match alistFind mk.targets tname with
       | none => (.error .assertionFailed, mk, [])
       | some t =>
         match t.remade with
         | some b => (.ok b, mk, [])
         | none =>
           match resolvedeps fuel mk tname ts rs req with
           | (.error e, mk1) => (.error e, mk1, [])
           | (.ok (), mk1) =>
             match alistFind mk1.targets tname with
             | none => (.error .assertionFailed, mk1, [])
             | some t1 =>
               if t1.vpathtarget = none then (.error .assertionFailed, mk1, [])
               else
                 match (if t1.rules.length = 0 then
                          ((.ok false, mk1, []) : (Except MakeError Bool) × MakefileS × Trace)
                        else
                          match t1.isdoublecolonQ with
                          | none => (.error .indexError, mk1, [])
                          | some true =>
                            makeDCLoop fuel mk1 tname (ts ++ [t1.target]) av t1.rules false
                          | some false =>
                            makeSCCore fuel mk1 tname (ts ++ [t1.target]) t1.rules t1.mtime.isNone) with
                 | (.error e, mk2, ev) => (.error e, mk2, ev)
                 | (.ok did, mk2, ev) =>
                   (.ok did, mk2.updateTarget tname fun u => { u with remade := some did }, ev)) := rfl

theorem makeDCLoop_zero (mk : MakefileS) (tname : String) (ts2 : List String)
    (avoid : Bool) (rules : List RuleEither) (did : Bool) :
    makeDCLoop 0 mk tname ts2 avoid rules did = (.error .outOfFuel, mk, []) := rfl

theorem makeDCLoop_nil (fuel : Nat) (mk : MakefileS) (tname : String) (ts2 : List String)
    (avoid : Bool) (did : Bool) :
    makeDCLoop (fuel+1) mk tname ts2 avoid [] did = (.ok did, mk, []) := rfl

theorem makeDCLoop_cons (fuel : Nat) (mk : MakefileS) (tname : String) (ts2 : List String)
    (avoid : Bool) (r : RuleEither) (rest : List RuleEither) (did : Bool) :
    makeDCLoop (fuel+1) mk tname ts2 avoid (r :: rest) did =
      (match (if r.prerequisites.length = 0 then
               ((if avoid then Except.ok (did, false) else Except.ok (did, true)), mk, ([] : Trace))
             else
               makeDepsLoop fuel mk tname ts2 r.prerequisites did
                 (match alistFind mk.targets tname with
                  | some st => st.mtime
                  | none => none).isNone) with
       | (.error e, mk1, ev) => (.error e, mk1, ev)
       | (.ok (did1, remake1), mk1, ev) =>
         if remake1 then
           match executeRule (mk1.updateTarget tname TargetS.remakeT) tname r.rid with
           | (.error e, ev2) => (.error e, mk1.updateTarget tname TargetS.remakeT, ev ++ ev2)
           | (.ok (), ev2) =>
             match makeDCLoop fuel (mk1.updateTarget tname TargetS.remakeT) tname ts2 avoid rest true with
             | (res, mk3, ev3) => (res, mk3, ev ++ ev2 ++ ev3)
         else
           match makeDCLoop fuel mk1 tname ts2 avoid rest did1 with
           | (res, mk3, ev3) => (res, mk3, ev ++ ev3)) := rfl

theorem makeSCCore_zero (mk : MakefileS) (tname : String) (ts2 : List String)
    (rules : List RuleEither) (remake0 : Bool) :
    makeSCCore 0 mk tname ts2 rules remake0 = (.error .outOfFuel, mk, []) := rfl

theorem makeSCCore_succ (fuel : Nat) (mk : MakefileS) (tname : String) (ts2 : List String)
    (rules : List RuleEither) (remake0 : Bool) :
    makeSCCore (fuel+1) mk tname ts2 rules remake0 =
      (match makeSCRules fuel mk tname ts2 rules none false remake0 with
       | (.error e, mk1, ev) => (.error e, mk1, ev)
       | (.ok (cr, did, remake), mk1, ev) =>
         if remake then
           match cr with
           | some r =>
             match executeRule (mk1.updateTarget tname TargetS.remakeT) tname r.rid with
             | (.error e, ev2) => (.error e, mk1.updateTarget tname TargetS.remakeT, ev ++ ev2)
             | (.ok (), ev2) => (.ok true, mk1.updateTarget tname TargetS.remakeT, ev ++ ev2)
           | none => (.ok true, mk1.updateTarget tname TargetS.remakeT, ev)
         else (.ok did, mk1, ev)) := rfl

theorem makeSCRules_zero (mk : MakefileS) (tname : String) (ts2 : List String)
    (rules : List RuleEither) (cr : Option RuleEither) (did remake : Bool) :
    makeSCRules 0 mk tname ts2 rules cr did remake = (.error .outOfFuel, mk, []) := rfl

theorem makeSCRules_nil (fuel : Nat) (mk : MakefileS) (tname : String) (ts2 : List String)
    (cr : Option RuleEither) (did remake : Bool) :
    makeSCRules (fuel+1) mk tname ts2 [] cr did remake = (.ok (cr, did, remake), mk, []) := rfl

theorem makeSCRules_cons (fuel : Nat) (mk : MakefileS) (tname : String) (ts2 : List String)
    (r : RuleEither) (rest : List RuleEither) (cr : Option RuleEither) (did remake : Bool) :
    makeSCRules (fuel+1) mk tname ts2 (r :: rest) cr did remake =
      (match (if r.commands.length ≠ 0 then
               (if cr.isSome then Except.error MakeError.assertionFailed
                else Except.ok (some r))
             else Except.ok cr) with
       | .error e => (.error e, mk, [])
       | .ok cr1 =>
         match makeDepsLoop fuel mk tname ts2 r.prerequisites did remake with
         | (.error e, mk1, ev) => (.error e, mk1, ev)
         | (.ok (did1, remake1), mk1, ev) =>
           match makeSCRules fuel mk1 tname ts2 rest cr1 did1 remake1 with
           | (res, mk2, ev2) => (res, mk2, ev ++ ev2)) := rfl

theorem makeDepsLoop_zero (mk : MakefileS) (tname : String) (ts2 : List String)
    (ps : List String) (did remake : Bool) :
    makeDepsLoop 0 mk tname ts2 ps did remake = (.error .outOfFuel, mk, []) := rfl

theorem makeDepsLoop_nil (fuel : Nat) (mk : MakefileS) (tname : String) (ts2 : List String)
    (did remake : Bool) :
    makeDepsLoop (fuel+1) mk tname ts2 [] did remake = (.ok (did, remake), mk, []) := rfl

theorem makeDepsLoop_cons (fuel : Nat) (mk : MakefileS) (tname : String) (ts2 : List String)
    (p : String) (rest : List String) (did remake : Bool) :
    makeDepsLoop (fuel+1) mk tname ts2 (p :: rest) did remake =
      (match mk.gettarget p with
       | .error e => (.error e, mk, [])
       | .ok (pkey, mk1) =>
         match make fuel mk1 pkey ts2 [] true false with
         | (.error e, mk2, ev) => (.error e, mk2, ev)
         | (.ok depDid, mk2, ev) =>
           match makeDepsLoop fuel mk2 tname ts2 rest (depDid || did)
               (if !remake && mtimeislater
                   (match alistFind mk2.targets pkey with
                    | some dt => dt.mtime
                    | none => none)
                   (match alistFind mk2.targets tname with
                    | some st => st.mtime
                    | none => none) then true else remake) with
           | (res, mk3, ev2) => (res, mk3, ev ++ ev2)) := rfl


/-! ### State evolution of the vpath search and pass A -/

theorem vpathSearchLoop_evol (mk : MakefileS) (tname : String) :
    ∀ l : List String, StateEvol mk (vpathSearchLoop mk tname l) := by
  intro l
  induction l with
  | nil =>
    unfold vpathSearchLoop
    exact updateTarget_evol mk tname _ (fun t => rfl) (fun t => rfl) (fun t => rfl)
  | cons c rest ih =>
    unfold vpathSearchLoop
    dsimp only
    split
    · exact updateTarget_evol mk tname _ (fun t => rfl) (fun t => rfl) (fun t => rfl)
    · exact ih

theorem libDirLoop_evol (mk : MakefileS) (tname libname : String) :
    ∀ (dirs : List String) (mk1 : MakefileS),
      libDirLoop mk tname libname dirs = some mk1 → StateEvol mk mk1 := by
  intro dirs
  induction dirs with
  | nil =>
    intro mk1 h
    exact absurd h (by simp [libDirLoop])
  | cons d rest ih =>
    intro mk1 h
    unfold libDirLoop at h
    dsimp only at h
    split at h
    · cases h
      exact updateTarget_evol mk tname _ (fun t => rfl) (fun t => rfl) (fun t => rfl)
    · exact ih mk1 h

theorem libSearchPatterns_evol (mk : MakefileS) (tname stem : String)
    (searchdirs : List String) :
    ∀ (ps : List PatternS) (mk1 : MakefileS),
      libSearchPatterns mk tname stem searchdirs ps = .ok (some mk1) → StateEvol mk mk1 := by
  intro ps
  induction ps with
  | nil =>
    intro mk1 h
    exact absurd h (by simp [libSearchPatterns])
  | cons lp rest ih =>
    intro mk1 h
    unfold libSearchPatterns at h
    dsimp only at h
    split at h
    · exact absurd h (by simp)
    · split at h
      · rename_i mk2 hdir
        cases h
        exact libDirLoop_evol mk tname _ searchdirs _ hdir
      · exact ih mk1 h

theorem isphony_evol (mk : MakefileS) (t : TargetS) (ph : Option Bool) (mk1 : MakefileS)
    (h : mk.isphony t = .ok (ph, mk1)) : StateEvol mk mk1 := by
  unfold MakefileS.isphony at h
  split at h
  · exact absurd h (by simp)
  · rename_i key mk2 hget
    split at h
    · exact absurd h (by simp)
    · cases h
      exact (gettarget_evol mk ".PHONY" key _ hget).1

theorem vpathNormalSearch_evol (mk : MakefileS) (tname : String) (t : TargetS) :
    StateEvol mk (mk.vpathNormalSearch tname t) := by
  unfold MakefileS.vpathNormalSearch
  exact vpathSearchLoop_evol mk tname _

theorem resolvevpathU_evol (mk : MakefileS) (tname : String) (res : Except MakeError Unit)
    (mk' : MakefileS) (h : MakefileS.resolvevpathU mk tname = (res, mk')) :
    StateEvol mk mk' := by
  unfold MakefileS.resolvevpathU at h
  split at h
  · cases h
    exact .reflSE mk
  · rename_i t hfind
    split at h
    · cases h
      exact .reflSE mk
    · split at h
      · cases h
        exact .reflSE mk
      · rename_i phony mk1 hph
        have e1 : StateEvol mk mk1 := isphony_evol mk t phony mk1 hph
        split at h
        · cases h
          exact e1.transSE (updateTarget_evol mk1 tname _ (fun u => rfl) (fun u => rfl) (fun u => rfl))
        · split at h
          · dsimp only at h
            split at h
            · rename_i resolved hvar
              split at h
              · cases h
                exact e1
              · rename_i libpatterns hmap
                split at h
                · split at h
                  · cases h
                    exact e1
                  · rename_i mk2 hlib
                    cases h
                    exact e1.transSE (libSearchPatterns_evol mk1 tname _ _ _ _ hlib)
                  · cases h
                    exact e1.transSE
                      (updateTarget_evol mk1 tname _ (fun u => rfl) (fun u => rfl) (fun u => rfl))
                · cases h
                  exact e1.transSE (vpathNormalSearch_evol mk1 tname t)
            · cases h
              exact e1.transSE (vpathNormalSearch_evol mk1 tname t)
          · cases h
            exact e1.transSE (vpathNormalSearch_evol mk1 tname t)

theorem mergePatternVariables_evol (mk : MakefileS) (tname : String) :
    StateEvol mk (mergePatternVariables mk tname) := by
  unfold mergePatternVariables
  exact updateTarget_evol mk tname _ (fun u => rfl) (fun u => rfl) (fun u => rfl)

theorem irCheckPrereqsA_evol :
    ∀ (ps : List String) (mk : MakefileS) (res : Except MakeError (Option String))
      (mk' : MakefileS), irCheckPrereqsA mk ps = (res, mk') → StateEvol mk mk' := by
  intro ps
  induction ps with
  | nil =>
    intro mk res mk' h
    rw [irCheckPrereqsA_nil] at h
    cases h
    exact .reflSE mk
  | cons p rest ih =>
    intro mk res mk' h
    rw [irCheckPrereqsA_cons] at h
    split at h
    · cases h
      exact .reflSE mk
    · rename_i pkey mk1 hget
      have e1 : StateEvol mk mk1 := (gettarget_evol mk p pkey mk1 hget).1
      split at h
      · rename_i e mk2 hvp
        cases h
        exact e1.transSE (resolvevpathU_evol mk1 pkey _ _ hvp)
      · rename_i mk2 hvp
        have e2 := e1.transSE (resolvevpathU_evol mk1 pkey _ _ hvp)
        split at h
        · cases h
          exact e2
        · rename_i t hft
          split at h
          · cases h
            exact e2
          · exact e2.transSE (ih mk2 res mk' h)

theorem rulesOf_updateTarget_append (mk : MakefileS) (n : String) (l : List RuleEither) :
    rulesOf (mk.updateTarget n fun u => { u with rules := u.rules ++ l }) n = rulesOf mk n ∨
    rulesOf (mk.updateTarget n fun u => { u with rules := u.rules ++ l }) n =
      rulesOf mk n ++ l := by
  rw [rulesOf, find_updateTarget, if_pos rfl]
  rcases h : alistFind mk.targets n with _ | t
  · left
    rw [rulesOf, h]
    rfl
  · right
    rw [rulesOf, h]
    rfl

theorem irPassA_spec :
    ∀ (cands acc : List PRInstanceS) (mk : MakefileS) (tname : String)
      (res : Except MakeError (Option (List PRInstanceS))) (mk' : MakefileS),
      irPassA mk tname cands acc = (res, mk') →
      Grows mk mk' ∧
      (∀ u, u ≠ tname → rulesOf mk' u = rulesOf mk u) ∧
      (rulesOf mk' tname = rulesOf mk tname ∨
        ∃ ri ∈ cands, rulesOf mk' tname = rulesOf mk tname ++ [RuleEither.inst ri]) ∧
      (∀ nc, res = .ok (some nc) → ∀ ri ∈ nc, ri ∈ cands ∨ ri ∈ acc) := by
  intro cands
  induction cands with
  | nil =>
    intro acc mk tname res mk' h
    rw [irPassA_nil] at h
    cases h
    refine ⟨Grows.reflG mk, fun u _ => rfl, Or.inl rfl, ?_⟩
    intro nc hnc ri hri
    cases hnc
    exact Or.inr hri
  | cons ri rest ih =>
    intro acc mk tname res mk' h
    rw [irPassA_cons] at h
    split at h
    · rename_i e mk1 hA
      cases h
      have e1 := irCheckPrereqsA_evol _ mk _ _ hA
      refine ⟨e1.grows, fun u _ => e1.1 u, Or.inl (e1.1 tname), ?_⟩
      intro nc hnc
      exact absurd hnc (by simp)
    · rename_i p mk1 hA
      have e1 : StateEvol mk mk1 := irCheckPrereqsA_evol _ mk _ mk1 hA
      split at h
      · obtain ⟨g, rl, rt, ne⟩ := ih acc mk1 tname res mk' h
        refine ⟨e1.grows.transG g, fun u hu => (rl u hu).trans (e1.1 u), ?_, ?_⟩
        · rcases rt with h1 | ⟨ri2, hri2, h2⟩
          · exact Or.inl (h1.trans (e1.1 tname))
          · exact Or.inr ⟨ri2, List.mem_cons_of_mem _ hri2, by rw [h2, e1.1 tname]⟩
        · intro nc hnc ri2 hri2
          rcases ne nc hnc ri2 hri2 with hr | hr
          · exact Or.inl (List.mem_cons_of_mem _ hr)
          · exact Or.inr hr
      · obtain ⟨g, rl, rt, ne⟩ := ih (acc ++ [ri]) mk1 tname res mk' h
        refine ⟨e1.grows.transG g, fun u hu => (rl u hu).trans (e1.1 u), ?_, ?_⟩
        · rcases rt with h1 | ⟨ri2, hri2, h2⟩
          · exact Or.inl (h1.trans (e1.1 tname))
          · exact Or.inr ⟨ri2, List.mem_cons_of_mem _ hri2, by rw [h2, e1.1 tname]⟩
        · intro nc hnc ri2 hri2
          rcases ne nc hnc ri2 hri2 with hr | hr
          · exact Or.inl (List.mem_cons_of_mem _ hr)
          · rcases List.mem_append.1 hr with hr2 | hr2
            · exact Or.inr hr2
            · left
              rw [List.mem_singleton.1 hr2]
              exact List.mem_cons_self _ _
    · rename_i mk1 hA
      cases h
      have e1 : StateEvol mk mk1 := irCheckPrereqsA_evol _ mk _ mk1 hA
      refine ⟨e1.grows.transG (updateTarget_grows mk1 tname _ (fun t => rfl)),
              fun u hu => (rulesOf_updateTarget_ne mk1 tname _ u hu).trans (e1.1 u), ?_, ?_⟩
      · rcases rulesOf_updateTarget_append mk1 tname [RuleEither.inst ri] with h1 | h1
        · exact Or.inl (h1.trans (e1.1 tname))
        · exact Or.inr ⟨ri, List.mem_cons_self _ _, by rw [h1, e1.1 tname]⟩
      · intro nc hnc
        exact absurd hnc (by simp)

theorem matchesforPat_prule (r : PatternRuleS) (dir file : List Char) (sk : Bool)
    (p : PatternS) (ri : PRInstanceS) (h : matchesforPat r dir file sk p = some ri) :
    ri.prule = r := by
  unfold matchesforPat at h
  split at h
  · split at h
    · exact absurd h (by simp)
    · cases h
      rfl
  · split at h
    · cases h
      rfl
    · split at h
      · cases h
        rfl
      · exact absurd h (by simp)

theorem contains_mem_dec {α : Type} [DecidableEq α] (l : List α) (x : α) :
    l.contains x = true ↔ x ∈ l := List.elem_iff

theorem implicitCandidates_spec (irules : List PatternRuleS) (rs : List StackRule)
    (dir file : List Char) (hm : Bool) (ri : PRInstanceS)
    (h : ri ∈ implicitCandidates irules rs dir file hm) :
    StackRule.patObj ri.prule ∉ rs := by
  unfold implicitCandidates at h
  rw [List.mem_flatten] at h
  obtain ⟨sub, hsub, hri⟩ := h
  rw [List.mem_map] at hsub
  obtain ⟨r, hrf, rfl⟩ := hsub
  rw [List.mem_filter] at hrf
  obtain ⟨hr_mem, hcond⟩ := hrf
  unfold PatternRuleS.matchesfor at hri
  rw [List.mem_filterMap] at hri
  obtain ⟨p, hp, hmp⟩ := hri
  rw [matchesforPat_prule r dir file hm p ri hmp]
  have hc : rs.contains (StackRule.patObj r) = false := by
    simp only [Bool.and_eq_true, Bool.not_eq_true'] at hcond
    exact hcond.1
  intro hmem
  have hc2 : rs.contains (StackRule.patObj r) = true := (contains_mem_dec rs _).2 hmem
  rw [hc2] at hc
  cases hc


/-! ### The rule-stack discipline of implicit-rule search (fuel induction) -/

theorem engineRulesA : ∀ fuel : Nat,
    (∀ (mk : MakefileS) (tname : String) (ts : List String) (rs : List StackRule)
       (req : Bool) (res : Except MakeError Unit) (mk' : MakefileS),
        resolvedeps fuel mk tname ts rs req = (res, mk') →
        ∀ u, rulesAppendOK rs (rulesOf mk u) (rulesOf mk' u)) ∧
    (∀ (mk : MakefileS) (ts1 : List String) (rs : List StackRule)
       (rules : List RuleEither) (res : Except MakeError Unit) (mk' : MakefileS),
        rdepsRuleLoop fuel mk ts1 rs rules = (res, mk') →
        ∀ u, rulesAppendOK rs (rulesOf mk u) (rulesOf mk' u)) ∧
    (∀ (mk : MakefileS) (ts1 : List String) (nrs : List StackRule)
       (ps : List String) (res : Except MakeError Unit) (mk' : MakefileS),
        rdepsPrereqLoop fuel mk ts1 nrs ps = (res, mk') →
        ∀ u, rulesAppendOK nrs (rulesOf mk u) (rulesOf mk' u)) ∧
    (∀ (mk : MakefileS) (tname : String) (ts : List String) (rs : List StackRule)
       (res : Except MakeError Unit) (mk' : MakefileS),
        resolveimplicitrule fuel mk tname ts rs = (res, mk') →
        ∀ u, rulesAppendOK rs (rulesOf mk u) (rulesOf mk' u)) ∧
    (∀ (mk : MakefileS) (tname : String) (ts : List String) (rs : List StackRule)
       (cands : List PRInstanceS) (res : Except MakeError Unit) (mk' : MakefileS),
        (∀ ri ∈ cands, StackRule.patObj ri.prule ∉ rs) →
        irPassB fuel mk tname ts rs cands = (res, mk') →
        ∀ u, rulesAppendOK rs (rulesOf mk u) (rulesOf mk' u)) ∧
    (∀ (mk : MakefileS) (ts : List String) (nrs : List StackRule)
       (ps : List String) (res : Except MakeError (Option String)) (mk' : MakefileS),
        irCheckPrereqsB fuel mk ts nrs ps = (res, mk') →
        ∀ u, rulesAppendOK nrs (rulesOf mk u) (rulesOf mk' u)) := by
  intro fuel
  induction fuel with
  | zero =>
    refine ⟨?_, ?_, ?_, ?_, ?_, ?_⟩
    · intro mk tname ts rs req res mk' h
      rw [resolvedeps_zero] at h
      cases h
      exact fun u => rulesAppendOK_of_eq rs rfl
    · intro mk ts1 rs rules res mk' h
      rw [rdepsRuleLoop_zero] at h
      cases h
      exact fun u => rulesAppendOK_of_eq rs rfl
    · intro mk ts1 nrs ps res mk' h
      rw [rdepsPrereqLoop_zero] at h
      cases h
      exact fun u => rulesAppendOK_of_eq nrs rfl
    · intro mk tname ts rs res mk' h
      rw [resolveimplicitrule_zero] at h
      cases h
      exact fun u => rulesAppendOK_of_eq rs rfl
    · intro mk tname ts rs cands res mk' hcands h
      rw [irPassB_zero] at h
      cases h
      exact fun u => rulesAppendOK_of_eq rs rfl
    · intro mk ts nrs ps res mk' h
      rw [irCheckPrereqsB_zero] at h
      cases h
      exact fun u => rulesAppendOK_of_eq nrs rfl
  | succ fuel ih =>
    obtain ⟨ih1, ih2, ih3, ih4, ih5, ih6⟩ := ih
    refine ⟨?_, ?_, ?_, ?_, ?_, ?_⟩
    · intro mk tname ts rs req res mk' h
      rw [resolvedeps_succ] at h
      split at h
      · cases h
        exact fun u => rulesAppendOK_of_eq rs rfl
      · split at h
        · cases h
          exact fun u => rulesAppendOK_of_eq rs rfl
        · rename_i t hfind
          split at h
          · cases h
            exact fun u => rulesAppendOK_of_eq rs rfl
          · split at h
            · rename_i e mk1 hvp
              cases h
              exact fun u => rulesAppendOK_of_eq rs ((resolvevpathU_evol mk tname _ _ hvp).1 u)
            · rename_i mk1 hvp
              have g1 : ∀ u, rulesOf mk1 u = rulesOf mk u := (resolvevpathU_evol mk tname _ _ hvp).1
              split at h
              · cases h
                exact fun u => rulesAppendOK_of_eq rs (g1 u)
              · rename_i t1 hfind1
                split at h
                · cases h
                  exact fun u => rulesAppendOK_of_eq rs (g1 u)
                · split at h
                  · rename_i e mk2 heq2
                    cases h
                    split at heq2
                    · exact fun u => rulesAppendOK_trans rs (rulesAppendOK_of_eq rs (g1 u))
                        (ih4 mk1 tname (ts ++ [t.target]) rs _ _ heq2 u)
                    · cases heq2
                  · rename_i mk2 heq2
                    have g2 : ∀ u, rulesAppendOK rs (rulesOf mk u) (rulesOf mk2 u) := by
                      split at heq2
                      · exact fun u => rulesAppendOK_trans rs (rulesAppendOK_of_eq rs (g1 u))
                          (ih4 mk1 tname (ts ++ [t.target]) rs _ _ heq2 u)
                      · cases heq2
                        exact fun u => rulesAppendOK_of_eq rs (g1 u)
                    split at h
                    · cases h
                      exact g2
                    · rename_i t2 hfind2
                      split at h
                      · cases h
                        exact g2
                      · split at h
                        · rename_i e mk3 hloop
                          cases h
                          exact fun u => rulesAppendOK_trans rs (g2 u)
                            (ih2 mk2 (ts ++ [t.target]) rs _ _ _ hloop u)
                        · rename_i mk3 hloop
                          cases h
                          exact fun u => rulesAppendOK_trans rs
                            (rulesAppendOK_trans rs (g2 u)
                              (ih2 mk2 (ts ++ [t.target]) rs _ _ _ hloop u))
                            (rulesAppendOK_of_eq rs ((mergePatternVariables_evol mk3 tname).1 u))
    · intro mk ts1 rs rules res mk' h
      rcases rules with _ | ⟨r, rest⟩
      · rw [rdepsRuleLoop_nil] at h
        cases h
        exact fun u => rulesAppendOK_of_eq rs rfl
      · rw [rdepsRuleLoop_cons] at h
        have hsub : ∀ x ∈ rs, x ∈ rs ++ [stackOf r] := fun x hx => List.mem_append_left _ hx
        split at h
        · rename_i e mk1 hpre
          cases h
          exact fun u => rulesAppendOK_mono hsub (ih3 mk ts1 _ _ _ _ hpre u)
        · rename_i mk1 hpre
          exact fun u => rulesAppendOK_trans rs
            (rulesAppendOK_mono hsub (ih3 mk ts1 _ _ _ _ hpre u))
            (ih2 mk1 ts1 rs rest res mk' h u)
    · intro mk ts1 nrs ps res mk' h
      rcases ps with _ | ⟨d, rest⟩
      · rw [rdepsPrereqLoop_nil] at h
        cases h
        exact fun u => rulesAppendOK_of_eq nrs rfl
      · rw [rdepsPrereqLoop_cons] at h
        split at h
        · cases h
          exact fun u => rulesAppendOK_of_eq nrs rfl
        · rename_i dkey mk1 hget
          have g1 : ∀ u, rulesOf mk1 u = rulesOf mk u := (gettarget_evol mk d dkey mk1 hget).1.1
          split at h
          · cases h
            exact fun u => rulesAppendOK_of_eq nrs (g1 u)
          · rename_i dt hfd
            split at h
            · exact fun u => rulesAppendOK_trans nrs (rulesAppendOK_of_eq nrs (g1 u))
                (ih3 mk1 ts1 nrs rest res mk' h u)
            · split at h
              · rename_i e mk2 hrd
                cases h
                exact fun u => rulesAppendOK_trans nrs (rulesAppendOK_of_eq nrs (g1 u))
                  (ih1 mk1 dkey ts1 nrs true _ _ hrd u)
              · rename_i mk2 hrd
                exact fun u => rulesAppendOK_trans nrs
                  (rulesAppendOK_trans nrs (rulesAppendOK_of_eq nrs (g1 u))
                    (ih1 mk1 dkey ts1 nrs true _ _ hrd u))
                  (ih3 mk2 ts1 nrs rest res mk' h u)
    · intro mk tname ts rs res mk' h
      rw [resolveimplicitrule_succ] at h
      split at h
      · cases h
        exact fun u => rulesAppendOK_of_eq rs rfl
      · rename_i t hfind
        split at h
        · rename_i e mk1 hpa
          cases h
          have spec := irPassA_spec _ [] mk tname _ _ hpa
          intro u
          by_cases hu : u = tname
          · subst hu
            rcases spec.2.2.1 with h1 | ⟨ri, hri, h2⟩
            · exact rulesAppendOK_of_eq rs h1
            · rw [h2]
              exact rulesAppendOK_install rs _ ri (implicitCandidates_spec _ rs _ _ _ ri hri)
          · exact rulesAppendOK_of_eq rs (spec.2.1 u hu)
        · rename_i mk1 hpa
          cases h
          have spec := irPassA_spec _ [] mk tname _ _ hpa
          intro u
          by_cases hu : u = tname
          · subst hu
            rcases spec.2.2.1 with h1 | ⟨ri, hri, h2⟩
            · exact rulesAppendOK_of_eq rs h1
            · rw [h2]
              exact rulesAppendOK_install rs _ ri (implicitCandidates_spec _ rs _ _ _ ri hri)
          · exact rulesAppendOK_of_eq rs (spec.2.1 u hu)
        · rename_i nc mk1 hpa
          have spec := irPassA_spec _ [] mk tname _ _ hpa
          have hnc : ∀ ri2 ∈ nc, StackRule.patObj ri2.prule ∉ rs := by
            intro ri2 hri2
            rcases spec.2.2.2 nc rfl ri2 hri2 with hin | hin
            · exact implicitCandidates_spec _ rs _ _ _ ri2 hin
            · exact absurd hin (by simp)
          have hA : ∀ u, rulesAppendOK rs (rulesOf mk u) (rulesOf mk1 u) := by
            intro u
            by_cases hu : u = tname
            · subst hu
              rcases spec.2.2.1 with h1 | ⟨ri, hri, h2⟩
              · exact rulesAppendOK_of_eq rs h1
              · rw [h2]
                exact rulesAppendOK_install rs _ ri (implicitCandidates_spec _ rs _ _ _ ri hri)
            · exact rulesAppendOK_of_eq rs (spec.2.1 u hu)
          exact fun u => rulesAppendOK_trans rs (hA u)
            (ih5 mk1 tname ts rs nc res mk' hnc h u)
    · intro mk tname ts rs cands res mk' hcands h
      rcases cands with _ | ⟨ri, rest⟩
      · rw [irPassB_nil] at h
        cases h
        exact fun u => rulesAppendOK_of_eq rs rfl
      · rw [irPassB_cons] at h
        have hsub : ∀ x ∈ rs, x ∈ rs ++ [StackRule.patObj ri.prule] :=
          fun x hx => List.mem_append_left _ hx
        split at h
        · rename_i e mk1 hck
          cases h
          exact fun u => rulesAppendOK_mono hsub (ih6 mk ts _ _ _ _ hck u)
        · rename_i p mk1 hck
          exact fun u => rulesAppendOK_trans rs
            (rulesAppendOK_mono hsub (ih6 mk ts _ _ _ _ hck u))
            (ih5 mk1 tname ts rs rest res mk'
              (fun ri2 hri2 => hcands ri2 (List.mem_cons_of_mem _ hri2)) h u)
        · rename_i mk1 hck
          cases h
          have g1 : ∀ u, rulesAppendOK rs (rulesOf mk u) (rulesOf mk1 u) :=
            fun u => rulesAppendOK_mono hsub (ih6 mk ts _ _ _ _ hck u)
          intro u
          by_cases hu : u = tname
          · subst hu
            refine rulesAppendOK_trans rs (g1 u) ?_
            rcases rulesOf_updateTarget_append mk1 u [RuleEither.inst ri] with h1 | h1
            · exact rulesAppendOK_of_eq rs h1
            · rw [h1]
              exact rulesAppendOK_install rs _ ri (hcands ri (List.mem_cons_self _ _))
          · exact rulesAppendOK_trans rs (g1 u)
              (rulesAppendOK_of_eq rs (rulesOf_updateTarget_ne mk1 tname _ u hu))
    · intro mk ts nrs ps res mk' h
      rcases ps with _ | ⟨p, rest⟩
      · rw [irCheckPrereqsB_nil] at h
        cases h
        exact fun u => rulesAppendOK_of_eq nrs rfl
      · rw [irCheckPrereqsB_cons] at h
        split at h
        · cases h
          exact fun u => rulesAppendOK_of_eq nrs rfl
        · rename_i pkey mk1 hget
          have g1 : ∀ u, rulesOf mk1 u = rulesOf mk u := (gettarget_evol mk p pkey mk1 hget).1.1
          rcases hrd : resolvedeps fuel mk1 pkey ts nrs true with ⟨rres, mk2⟩
          rw [hrd] at h
          have g2 : ∀ u, rulesAppendOK nrs (rulesOf mk u) (rulesOf mk2 u) :=
            fun u => rulesAppendOK_trans nrs (rulesAppendOK_of_eq nrs (g1 u))
              (ih1 mk1 pkey ts nrs true _ _ hrd u)
          rcases rres with e | ⟨⟩
          · cases e <;> (dsimp only at h; cases h; exact g2)
          · dsimp only at h
            exact fun u => rulesAppendOK_trans nrs (g2 u) (ih6 mk2 ts nrs rest res mk' h u)


/-- A pattern rule with commands whose single target pattern is `%`
(match-anything), used to exercise the implicit-rule candidate filter. -/
def prFix : PatternRuleS :=
  { id := 7, targetpatterns := [⟨[], some []⟩], prerequisites := [], doublecolon := false,
    commands := [1] }

/-- The instance `prFix.matchesfor [] ['a'] false` yields. -/
def riFix : PRInstanceS := ⟨prFix, [], ['a'], true⟩

/-- C2: a target whose name is already on the target stack makes `resolvedeps`
raise the recursive-dependency `ResolutionError` at once, with the state
unchanged; and during implicit-rule search every pattern rule already on the
rule stack is skipped: the candidate list draws only on rules off the stack,
and a whole `resolveimplicitrule` call only ever appends pattern-rule
instances whose pattern rule is not on the incoming rule stack, so no
implicit-rule chain instantiates the same pattern rule twice. -/
theorem C2_recursion_guard_and_rule_stack :
    (∀ (fuel : Nat) (mk : MakefileS) (tname : String) (ts : List String)
       (rs : List StackRule) (req : Bool) (t : TargetS),
        mk.parsingfinished = true →
        alistFind mk.targets tname = some t →
        ts.contains t.target = true →
        resolvedeps (fuel+1) mk tname ts rs req =
          (.error (.resolutionError
            ("Recursive dependency: " ++ strJoin " -> " ts ++ " -> " ++ t.target)), mk)) ∧
    (∀ (irules : List PatternRuleS) (rs : List StackRule) (dir file : List Char)
       (hm : Bool) (ri : PRInstanceS),
        ri ∈ implicitCandidates irules rs dir file hm →
        StackRule.patObj ri.prule ∉ rs) ∧
    (∀ (fuel : Nat) (mk : MakefileS) (tname : String) (ts : List String)
       (rs : List StackRule) (res : Except MakeError Unit) (mk' : MakefileS),
        resolveimplicitrule fuel mk tname ts rs = (res, mk') →
        ∀ u, rulesAppendOK rs (rulesOf mk u) (rulesOf mk' u)) := by
  refine ⟨?_, ?_, ?_⟩
  · intro fuel mk tname ts rs req t hpf hfind hcont
    simp only [resolvedeps_succ, hpf, hfind, hcont]
    rw [if_neg (fun hh => Bool.noConfusion hh), if_pos trivial]
  · exact fun irules rs dir file hm ri h => implicitCandidates_spec irules rs dir file hm ri h
  · intro fuel mk tname ts rs res mk' h
    exact (engineRulesA fuel).2.2.2.1 mk tname ts rs res mk' h

/-- C2, instantiated: a direct self-dependency on `foo` errors out with the
state untouched; the match-anything instance the candidate filter admits on an
empty rule stack is not on that stack; and a concrete `resolveimplicitrule`
run only extends rule lists as permitted. -/
theorem C2_recursion_guard_and_rule_stack_witness :
    resolvedeps 1 phonyScenario "foo" ["foo"] [] true =
      (.error (.resolutionError
        ("Recursive dependency: " ++ strJoin " -> " ["foo"] ++ " -> " ++ "foo")),
        phonyScenario) ∧
    StackRule.patObj riFix.prule ∉ ([] : List StackRule) ∧
    rulesAppendOK [] (rulesOf phonyScenario "foo") (rulesOf phonyScenario "foo") :=
  ⟨C2_recursion_guard_and_rule_stack.1 0 phonyScenario "foo" ["foo"] [] true
      (newTarget "foo") rfl rfl rfl,
   C2_recursion_guard_and_rule_stack.2.1 [prFix] [] [] [Char.ofNat 97] false riFix (by decide),
   C2_recursion_guard_and_rule_stack.2.2 1 phonyScenario "foo" [] [] (.error .outOfFuel)
      phonyScenario rfl "foo"⟩


theorem rulesOf_of_find (mk : MakefileS) (u : String) (t : TargetS)
    (h : alistFind mk.targets u = some t) : rulesOf mk u = t.rules := by
  rw [rulesOf, h]

theorem executeRule_snd (mk : MakefileS) (tname : String) (rid : Nat) :
    (executeRule mk tname rid).2 = [(tname, rid)] := by
  unfold executeRule
  split <;> rfl


/-! ### The combined state/trace invariant of the build engine -/

theorem engineInv : ∀ fuel : Nat,
    (∀ (mk : MakefileS) (tname : String) (ts : List String) (rs : List StackRule)
       (req : Bool) (res : Except MakeError Unit) (mk' : MakefileS),
        resolvedeps fuel mk tname ts rs req = (res, mk') →
        Grows mk mk' ∧
        (∀ T ∈ ts, WFNames mk → rulesOf mk' T = rulesOf mk T) ∧
        (res = .ok () → WFNames mk → tname ∉ ts)) ∧
    (∀ (mk : MakefileS) (ts1 : List String) (rs : List StackRule)
       (rules : List RuleEither) (res : Except MakeError Unit) (mk' : MakefileS),
        rdepsRuleLoop fuel mk ts1 rs rules = (res, mk') →
        Grows mk mk' ∧ (∀ T ∈ ts1, WFNames mk → rulesOf mk' T = rulesOf mk T)) ∧
    (∀ (mk : MakefileS) (ts1 : List String) (nrs : List StackRule)
       (ps : List String) (res : Except MakeError Unit) (mk' : MakefileS),
        rdepsPrereqLoop fuel mk ts1 nrs ps = (res, mk') →
        Grows mk mk' ∧ (∀ T ∈ ts1, WFNames mk → rulesOf mk' T = rulesOf mk T)) ∧
    (∀ (mk : MakefileS) (tname : String) (ts : List String) (rs : List StackRule)
       (res : Except MakeError Unit) (mk' : MakefileS),
        resolveimplicitrule fuel mk tname ts rs = (res, mk') →
        Grows mk mk' ∧
        (∀ T ∈ ts, T ≠ tname → WFNames mk → rulesOf mk' T = rulesOf mk T)) ∧
    (∀ (mk : MakefileS) (tname : String) (ts : List String) (rs : List StackRule)
       (cands : List PRInstanceS) (res : Except MakeError Unit) (mk' : MakefileS),
        irPassB fuel mk tname ts rs cands = (res, mk') →
        Grows mk mk' ∧
        (∀ T ∈ ts, T ≠ tname → WFNames mk → rulesOf mk' T = rulesOf mk T)) ∧
    (∀ (mk : MakefileS) (ts : List String) (nrs : List StackRule)
       (ps : List String) (res : Except MakeError (Option String)) (mk' : MakefileS),
        irCheckPrereqsB fuel mk ts nrs ps = (res, mk') →
        Grows mk mk' ∧ (∀ T ∈ ts, WFNames mk → rulesOf mk' T = rulesOf mk T)) ∧
    (∀ (mk : MakefileS) (tname : String) (ts : List String) (rs : List StackRule)
       (req av : Bool) (res : Except MakeError Bool) (mk' : MakefileS) (ev : Trace),
        make fuel mk tname ts rs req av = (res, mk', ev) →
        Grows mk mk' ∧
        (∀ T ∈ ts, WFNames mk → rulesOf mk' T = rulesOf mk T) ∧
        (∀ T ∈ ts, WFNames mk → traceT T ev = []) ∧
        (WFNames mk →
          ((traceT tname ev).map Prod.snd).Sublist ((rulesOf mk' tname).map RuleEither.rid)) ∧
        (∀ b, res = .ok b → remadeOf mk' tname = some b)) ∧
    (∀ (mk : MakefileS) (tname : String) (ts2 : List String) (avoid : Bool)
       (rules : List RuleEither) (did : Bool) (res : Except MakeError Bool)
       (mk' : MakefileS) (ev : Trace),
        makeDCLoop fuel mk tname ts2 avoid rules did = (res, mk', ev) →
        Grows mk mk' ∧
        (∀ T ∈ ts2, WFNames mk → rulesOf mk' T = rulesOf mk T) ∧
        (∀ T ∈ ts2, T ≠ tname → WFNames mk → traceT T ev = []) ∧
        (tname ∈ ts2 → WFNames mk →
          ((traceT tname ev).map Prod.snd).Sublist (rules.map RuleEither.rid))) ∧
    (∀ (mk : MakefileS) (tname : String) (ts2 : List String)
       (rules : List RuleEither) (remake0 : Bool) (res : Except MakeError Bool)
       (mk' : MakefileS) (ev : Trace),
        makeSCCore fuel mk tname ts2 rules remake0 = (res, mk', ev) →
        Grows mk mk' ∧
        (∀ T ∈ ts2, WFNames mk → rulesOf mk' T = rulesOf mk T) ∧
        (∀ T ∈ ts2, T ≠ tname → WFNames mk → traceT T ev = []) ∧
        (tname ∈ ts2 → WFNames mk →
          ((traceT tname ev).map Prod.snd).Sublist (rules.map RuleEither.rid))) ∧
    (∀ (mk : MakefileS) (tname : String) (ts2 : List String)
       (rules : List RuleEither) (cr : Option RuleEither) (did remake : Bool)
       (res : Except MakeError (Option RuleEither × Bool × Bool))
       (mk' : MakefileS) (ev : Trace),
        makeSCRules fuel mk tname ts2 rules cr did remake = (res, mk', ev) →
        Grows mk mk' ∧
        (∀ T ∈ ts2, WFNames mk → rulesOf mk' T = rulesOf mk T) ∧
        (∀ T ∈ ts2, WFNames mk → traceT T ev = []) ∧
        (∀ cr2 d2 rm2, res = .ok (cr2, d2, rm2) →
          cr2 = cr ∨ ∃ r ∈ rules, cr2 = some r)) ∧
    (∀ (mk : MakefileS) (tname : String) (ts2 : List String)
       (ps : List String) (did remake : Bool)
       (res : Except MakeError (Bool × Bool)) (mk' : MakefileS) (ev : Trace),
        makeDepsLoop fuel mk tname ts2 ps did remake = (res, mk', ev) →
        Grows mk mk' ∧
        (∀ T ∈ ts2, WFNames mk → rulesOf mk' T = rulesOf mk T) ∧
        (∀ T ∈ ts2, WFNames mk → traceT T ev = [])) := by
  intro fuel
  induction fuel with
  | zero =>
    refine ⟨?_, ?_, ?_, ?_, ?_, ?_, ?_, ?_, ?_, ?_, ?_⟩
    · intro mk tname ts rs req res mk' h
      rw [resolvedeps_zero] at h
      cases h
      exact ⟨Grows.reflG mk, fun T _ _ => rfl, fun hok _ => absurd hok (by simp)⟩
    · intro mk ts1 rs rules res mk' h
      rw [rdepsRuleLoop_zero] at h
      cases h
      exact ⟨Grows.reflG mk, fun T _ _ => rfl⟩
    · intro mk ts1 nrs ps res mk' h
      rw [rdepsPrereqLoop_zero] at h
      cases h
      exact ⟨Grows.reflG mk, fun T _ _ => rfl⟩
    · intro mk tname ts rs res mk' h
      rw [resolveimplicitrule_zero] at h
      cases h
      exact ⟨Grows.reflG mk, fun T _ _ _ => rfl⟩
    · intro mk tname ts rs cands res mk' h
      rw [irPassB_zero] at h
      cases h
      exact ⟨Grows.reflG mk, fun T _ _ _ => rfl⟩
    · intro mk ts nrs ps res mk' h
      rw [irCheckPrereqsB_zero] at h
      cases h
      exact ⟨Grows.reflG mk, fun T _ _ => rfl⟩
    · intro mk tname ts rs req av res mk' ev h
      rw [make_zero] at h
      cases h
      exact ⟨Grows.reflG mk, fun T _ _ => rfl, fun T _ _ => rfl, fun _ => List.nil_sublist _,
        fun b hb => absurd hb (by simp)⟩
    · intro mk tname ts2 avoid rules did res mk' ev h
      rw [makeDCLoop_zero] at h
      cases h
      exact ⟨Grows.reflG mk, fun T _ _ => rfl, fun T _ _ _ => rfl, fun _ _ => List.nil_sublist _⟩
    · intro mk tname ts2 rules remake0 res mk' ev h
      rw [makeSCCore_zero] at h
      cases h
      exact ⟨Grows.reflG mk, fun T _ _ => rfl, fun T _ _ _ => rfl, fun _ _ => List.nil_sublist _⟩
    · intro mk tname ts2 rules cr did remake res mk' ev h
      rw [makeSCRules_zero] at h
      cases h
      exact ⟨Grows.reflG mk, fun T _ _ => rfl, fun T _ _ => rfl,
        fun cr2 d2 rm2 hres => absurd hres (by simp)⟩
    · intro mk tname ts2 ps did remake res mk' ev h
      rw [makeDepsLoop_zero] at h
      cases h
      exact ⟨Grows.reflG mk, fun T _ _ => rfl, fun T _ _ => rfl⟩
  | succ fuel ih =>
    obtain ⟨ih1, ih2, ih3, ih4, ih5, ih6, ih7, ih8, ih9, ih10, ih11⟩ := ih
    refine ⟨?_, ?_, ?_, ?_, ?_, ?_, ?_, ?_, ?_, ?_, ?_⟩
    · -- resolvedeps
      intro mk tname ts rs req res mk' h
      rw [resolvedeps_succ] at h
      split at h
      · cases h
        exact ⟨Grows.reflG mk, fun T _ _ => rfl, fun hok _ => absurd hok (by simp)⟩
      · split at h
        · cases h
          exact ⟨Grows.reflG mk, fun T _ _ => rfl, fun hok _ => absurd hok (by simp)⟩
        · rename_i t hfind
          split at h
          · cases h
            exact ⟨Grows.reflG mk, fun T _ _ => rfl, fun hok _ => absurd hok (by simp)⟩
          · rename_i hcont
            have hnots : WFNames mk → tname ∉ ts := by
              intro hw hmem
              have htt : t.target = tname := hw tname t hfind
              exact hcont (by rw [htt]; exact (contains_mem ts tname).2 hmem)
            split at h
            · rename_i e mk1 hvp
              cases h
              have ev1 := resolvevpathU_evol mk tname _ _ hvp
              exact ⟨ev1.grows, fun T _ _ => ev1.1 T, fun hok _ => absurd hok (by simp)⟩
            · rename_i mk1 hvp
              have ev1 := resolvevpathU_evol mk tname _ _ hvp
              split at h
              · cases h
                exact ⟨ev1.grows, fun T _ _ => ev1.1 T, fun hok _ => absurd hok (by simp)⟩
              · rename_i t1 hfind1
                split at h
                · cases h
                  exact ⟨ev1.grows, fun T _ _ => ev1.1 T, fun hok _ => absurd hok (by simp)⟩
                · split at h
                  · rename_i e mk2 heq2
                    have hfa : Grows mk1 mk2 ∧
                        (∀ T ∈ ts, WFNames mk → rulesOf mk2 T = rulesOf mk1 T) := by
                      split at heq2
                      · have p4 := ih4 mk1 tname (ts ++ [t.target]) rs _ _ heq2
                        refine ⟨p4.1, fun T hT hw => ?_⟩
                        refine p4.2 T (List.mem_append_left _ hT) ?_ (ev1.grows.2 hw)
                        intro hTe
                        exact (hnots hw) (hTe ▸ hT)
                      · cases heq2
                    cases h
                    exact ⟨ev1.grows.transG hfa.1,
                      fun T hT hw => (hfa.2 T hT hw).trans (ev1.1 T),
                      fun hok _ => absurd hok (by simp)⟩
                  · rename_i mk2 heq2
                    have hfa : Grows mk1 mk2 ∧
                        (∀ T ∈ ts, WFNames mk → rulesOf mk2 T = rulesOf mk1 T) := by
                      split at heq2
                      · have p4 := ih4 mk1 tname (ts ++ [t.target]) rs _ _ heq2
                        refine ⟨p4.1, fun T hT hw => ?_⟩
                        refine p4.2 T (List.mem_append_left _ hT) ?_ (ev1.grows.2 hw)
                        intro hTe
                        exact (hnots hw) (hTe ▸ hT)
                      · cases heq2
                        exact ⟨Grows.reflG mk1, fun T _ _ => rfl⟩
                    split at h
                    · cases h
                      exact ⟨ev1.grows.transG hfa.1,
                        fun T hT hw => (hfa.2 T hT hw).trans (ev1.1 T),
                        fun hok _ => absurd hok (by simp)⟩
                    · rename_i t2 hfind2
                      split at h
                      · cases h
                        exact ⟨ev1.grows.transG hfa.1,
                          fun T hT hw => (hfa.2 T hT hw).trans (ev1.1 T),
                          fun hok _ => absurd hok (by simp)⟩
                      · split at h
                        · rename_i e mk3 hloop
                          cases h
                          have p2 := ih2 mk2 (ts ++ [t.target]) rs t2.rules _ _ hloop
                          exact ⟨ev1.grows.transG (hfa.1.transG p2.1),
                            fun T hT hw => ((p2.2 T (List.mem_append_left _ hT)
                              (hfa.1.2 (ev1.grows.2 hw))).trans (hfa.2 T hT hw)).trans (ev1.1 T),
                            fun hok _ => absurd hok (by simp)⟩
                        · rename_i mk3 hloop
                          cases h
                          have p2 := ih2 mk2 (ts ++ [t.target]) rs t2.rules _ _ hloop
                          have emv := mergePatternVariables_evol mk3 tname
                          exact ⟨ev1.grows.transG ((hfa.1.transG p2.1).transG emv.grows),
                            fun T hT hw => (((emv.1 T).trans (p2.2 T (List.mem_append_left _ hT)
                              (hfa.1.2 (ev1.grows.2 hw)))).trans (hfa.2 T hT hw)).trans (ev1.1 T),
                            fun _ hw => hnots hw⟩
    · -- rdepsRuleLoop
      intro mk ts1 rs rules res mk' h
      rcases rules with _ | ⟨r, rest⟩
      · rw [rdepsRuleLoop_nil] at h
        cases h
        exact ⟨Grows.reflG mk, fun T _ _ => rfl⟩
      · rw [rdepsRuleLoop_cons] at h
        split at h
        · rename_i e mk1 hpre
          cases h
          exact ih3 mk ts1 _ _ _ _ hpre
        · rename_i mk1 hpre
          have p3 := ih3 mk ts1 _ _ _ _ hpre
          have p2 := ih2 mk1 ts1 rs rest _ _ h
          exact ⟨p3.1.transG p2.1,
            fun T hT hw => (p2.2 T hT (p3.1.2 hw)).trans (p3.2 T hT hw)⟩
    · -- rdepsPrereqLoop
      intro mk ts1 nrs ps res mk' h
      rcases ps with _ | ⟨d, rest⟩
      · rw [rdepsPrereqLoop_nil] at h
        cases h
        exact ⟨Grows.reflG mk, fun T _ _ => rfl⟩
      · rw [rdepsPrereqLoop_cons] at h
        split at h
        · cases h
          exact ⟨Grows.reflG mk, fun T _ _ => rfl⟩
        · rename_i dkey mk1 hget
          have e1 := (gettarget_evol mk d dkey mk1 hget).1
          split at h
          · cases h
            exact ⟨e1.grows, fun T _ _ => e1.1 T⟩
          · rename_i dt hfd
            split at h
            · have p3 := ih3 mk1 ts1 nrs rest _ _ h
              exact ⟨e1.grows.transG p3.1,
                fun T hT hw => (p3.2 T hT (e1.grows.2 hw)).trans (e1.1 T)⟩
            · split at h
              · rename_i e mk2 hrd
                cases h
                have p1 := ih1 mk1 dkey ts1 nrs true _ _ hrd
                exact ⟨e1.grows.transG p1.1,
                  fun T hT hw => (p1.2.1 T hT (e1.grows.2 hw)).trans (e1.1 T)⟩
              · rename_i mk2 hrd
                have p1 := ih1 mk1 dkey ts1 nrs true _ _ hrd
                have p3 := ih3 mk2 ts1 nrs rest _ _ h
                exact ⟨e1.grows.transG (p1.1.transG p3.1),
                  fun T hT hw => ((p3.2 T hT (p1.1.2 (e1.grows.2 hw))).trans
                    (p1.2.1 T hT (e1.grows.2 hw))).trans (e1.1 T)⟩
    · -- resolveimplicitrule
      intro mk tname ts rs res mk' h
      rw [resolveimplicitrule_succ] at h
      split at h
      · cases h
        exact ⟨Grows.reflG mk, fun T _ _ _ => rfl⟩
      · rename_i t hfind
        split at h
        · rename_i e mk1 hpa
          cases h
          have spec := irPassA_spec _ [] mk tname _ _ hpa
          exact ⟨spec.1, fun T _ hne _ => spec.2.1 T hne⟩
        · rename_i mk1 hpa
          cases h
          have spec := irPassA_spec _ [] mk tname _ _ hpa
          exact ⟨spec.1, fun T _ hne _ => spec.2.1 T hne⟩
        · rename_i nc mk1 hpa
          have spec := irPassA_spec _ [] mk tname _ _ hpa
          have p5 := ih5 mk1 tname ts rs nc _ _ h
          exact ⟨spec.1.transG p5.1,
            fun T hT hne hw => (p5.2 T hT hne (spec.1.2 hw)).trans (spec.2.1 T hne)⟩
    · -- irPassB
      intro mk tname ts rs cands res mk' h
      rcases cands with _ | ⟨ri, rest⟩
      · rw [irPassB_nil] at h
        cases h
        exact ⟨Grows.reflG mk, fun T _ _ _ => rfl⟩
      · rw [irPassB_cons] at h
        split at h
        · rename_i e mk1 hck
          cases h
          have p6 := ih6 mk ts _ _ _ _ hck
          exact ⟨p6.1, fun T hT hne hw => p6.2 T hT hw⟩
        · rename_i p mk1 hck
          have p6 := ih6 mk ts _ _ _ _ hck
          have p5 := ih5 mk1 tname ts rs rest _ _ h
          exact ⟨p6.1.transG p5.1,
            fun T hT hne hw => (p5.2 T hT hne (p6.1.2 hw)).trans (p6.2 T hT hw)⟩
        · rename_i mk1 hck
          cases h
          have p6 := ih6 mk ts _ _ _ _ hck
          exact ⟨p6.1.transG (updateTarget_grows _ _ _ (fun t => rfl)),
            fun T hT hne hw => (rulesOf_updateTarget_ne mk1 tname _ T hne).trans
              (p6.2 T hT hw)⟩
    · -- irCheckPrereqsB
      intro mk ts nrs ps res mk' h
      rcases ps with _ | ⟨p, rest⟩
      · rw [irCheckPrereqsB_nil] at h
        cases h
        exact ⟨Grows.reflG mk, fun T _ _ => rfl⟩
      · rw [irCheckPrereqsB_cons] at h
        split at h
        · cases h
          exact ⟨Grows.reflG mk, fun T _ _ => rfl⟩
        · rename_i pkey mk1 hget
          have e1 := (gettarget_evol mk p pkey mk1 hget).1
          rcases hrd : resolvedeps fuel mk1 pkey ts nrs true with ⟨rres, mk2⟩
          rw [hrd] at h
          have p1 := ih1 mk1 pkey ts nrs true _ _ hrd
          have acc : Grows mk mk2 ∧ (∀ T ∈ ts, WFNames mk → rulesOf mk2 T = rulesOf mk T) :=
            ⟨e1.grows.transG p1.1,
             fun T hT hw => (p1.2.1 T hT (e1.grows.2 hw)).trans (e1.1 T)⟩
          rcases rres with e | ⟨⟩
          · cases e <;> (dsimp only at h; cases h; exact acc)
          · dsimp only at h
            have p6 := ih6 mk2 ts nrs rest _ _ h
            exact ⟨acc.1.transG p6.1,
              fun T hT hw => (p6.2 T hT (acc.1.2 hw)).trans (acc.2 T hT hw)⟩
    · -- make
      intro mk tname ts rs req av res mk' ev h
      rw [make_succ] at h
      split at h
      · cases h
        exact ⟨Grows.reflG mk, fun T _ _ => rfl, fun T _ _ => rfl, fun _ => List.nil_sublist _,
          fun b hb => absurd hb (by simp)⟩
      · rename_i t hfind
        split at h
        · rename_i b0 hrem
          cases h
          refine ⟨Grows.reflG mk, fun T _ _ => rfl, fun T _ _ => rfl,
            fun _ => List.nil_sublist _, ?_⟩
          intro b hb
          cases hb
          rw [remadeOf, hfind]
          exact hrem
        · split at h
          · rename_i e mk1 hrd
            cases h
            have p1 := ih1 mk tname ts rs req _ _ hrd
            exact ⟨p1.1, p1.2.1, fun T _ _ => rfl, fun _ => List.nil_sublist _,
              fun b hb => absurd hb (by simp)⟩
          · rename_i mk1 hrd
            have p1 := ih1 mk tname ts rs req _ _ hrd
            have hnost : WFNames mk → tname ∉ ts := p1.2.2 rfl
            split at h
            · cases h
              exact ⟨p1.1, p1.2.1, fun T _ _ => rfl, fun _ => List.nil_sublist _,
                fun b hb => absurd hb (by simp)⟩
            · rename_i t1 hfind1
              split at h
              · cases h
                exact ⟨p1.1, p1.2.1, fun T _ _ => rfl, fun _ => List.nil_sublist _,
                  fun b hb => absurd hb (by simp)⟩
              · rcases hbr : (if t1.rules.length = 0 then
                    ((.ok false, mk1, []) : (Except MakeError Bool) × MakefileS × Trace)
                  else
                    match t1.isdoublecolonQ with
                    | none => (.error .indexError, mk1, [])
                    | some true =>
                      makeDCLoop fuel mk1 tname (ts ++ [t1.target]) av t1.rules false
                    | some false =>
                      makeSCCore fuel mk1 tname (ts ++ [t1.target]) t1.rules t1.mtime.isNone)
                  with ⟨bres, mk2, ev0⟩
                rw [hbr] at h
                have hfacts : Grows mk1 mk2 ∧
                    (∀ T ∈ ts ++ [t1.target], WFNames mk1 → rulesOf mk2 T = rulesOf mk1 T) ∧
                    (∀ T ∈ ts ++ [t1.target], T ≠ tname → WFNames mk1 → traceT T ev0 = []) ∧
                    (tname ∈ ts ++ [t1.target] → WFNames mk1 →
                      ((traceT tname ev0).map Prod.snd).Sublist
                        (t1.rules.map RuleEither.rid)) := by
                  split at hbr
                  · cases hbr
                    exact ⟨Grows.reflG mk1, fun T _ _ => rfl, fun T _ _ _ => rfl,
                      fun _ _ => List.nil_sublist _⟩
                  · split at hbr
                    · cases hbr
                      exact ⟨Grows.reflG mk1, fun T _ _ => rfl, fun T _ _ _ => rfl,
                        fun _ _ => List.nil_sublist _⟩
                    · have p8 := ih8 mk1 tname (ts ++ [t1.target]) av t1.rules false _ _ _ hbr
                      exact ⟨p8.1, p8.2.1, p8.2.2.1, p8.2.2.2⟩
                    · have p9 := ih9 mk1 tname (ts ++ [t1.target]) t1.rules t1.mtime.isNone
                        _ _ _ hbr
                      exact ⟨p9.1, p9.2.1, p9.2.2.1, p9.2.2.2⟩
                rcases bres with e | did
                · dsimp only at h
                  cases h
                  refine ⟨p1.1.transG hfacts.1, ?_, ?_, ?_, fun b hb => absurd hb (by simp)⟩
                  · intro T hT hw
                    rw [hfacts.2.1 T (List.mem_append_left _ hT) (p1.1.2 hw)]
                    exact p1.2.1 T hT hw
                  · intro T hT hw
                    refine hfacts.2.2.1 T (List.mem_append_left _ hT) ?_ (p1.1.2 hw)
                    intro hTe
                    exact (hnost hw) (hTe ▸ hT)
                  · intro hw
                    have hw1 := p1.1.2 hw
                    have htt : t1.target = tname := hw1 tname t1 hfind1
                    have htm : tname ∈ ts ++ [t1.target] := by
                      rw [htt]
                      exact List.mem_append_right _ (List.mem_singleton.2 rfl)
                    have hr2 : rulesOf mk' tname = t1.rules := by
                      rw [hfacts.2.1 tname htm hw1]
                      exact rulesOf_of_find mk1 tname t1 hfind1
                    rw [hr2]
                    exact hfacts.2.2.2 htm hw1
                · dsimp only at h
                  cases h
                  refine ⟨p1.1.transG (hfacts.1.transG (updateTarget_grows _ _ _ (fun t => rfl))),
                    ?_, ?_, ?_, ?_⟩
                  · intro T hT hw
                    rw [rulesOf_updateTarget_keep mk2 tname
                        (fun u => { u with remade := some did }) (fun t => rfl) T,
                      hfacts.2.1 T (List.mem_append_left _ hT) (p1.1.2 hw)]
                    exact p1.2.1 T hT hw
                  · intro T hT hw
                    refine hfacts.2.2.1 T (List.mem_append_left _ hT) ?_ (p1.1.2 hw)
                    intro hTe
                    exact (hnost hw) (hTe ▸ hT)
                  · intro hw
                    have hw1 := p1.1.2 hw
                    have htt : t1.target = tname := hw1 tname t1 hfind1
                    have htm : tname ∈ ts ++ [t1.target] := by
                      rw [htt]
                      exact List.mem_append_right _ (List.mem_singleton.2 rfl)
                    have hr2 : rulesOf
                        (mk2.updateTarget tname fun u => { u with remade := some did }) tname =
                        t1.rules := by
                      rw [rulesOf_updateTarget_keep mk2 tname
                          (fun u => { u with remade := some did }) (fun t => rfl) tname,
                        hfacts.2.1 tname htm hw1]
                      exact rulesOf_of_find mk1 tname t1 hfind1
                    rw [hr2]
                    exact hfacts.2.2.2 htm hw1
                  · intro b hb
                    cases hb
                    have hsome : (alistFind mk2.targets tname).isSome = true :=
                      hfacts.1.1 tname (by rw [hfind1]; rfl)
                    rcases hS : alistFind mk2.targets tname with _ | tX
                    · rw [hS] at hsome
                      exact absurd hsome (by simp)
                    · rw [remadeOf_updateTarget_self mk2 tname _ tX hS]
    · -- makeDCLoop
      intro mk tname ts2 avoid rules did res mk' ev h
      rcases rules with _ | ⟨r, rest⟩
      · rw [makeDCLoop_nil] at h
        cases h
        exact ⟨Grows.reflG mk, fun T _ _ => rfl, fun T _ _ _ => rfl, fun _ _ => List.nil_sublist _⟩
      · rw [makeDCLoop_cons] at h
        rcases hbr : (if r.prerequisites.length = 0 then
            ((if avoid then Except.ok (did, false) else Except.ok (did, true)), mk, ([] : Trace))
          else
            makeDepsLoop fuel mk tname ts2 r.prerequisites did
              (match alistFind mk.targets tname with
               | some st => st.mtime
               | none => none).isNone) with ⟨bres, mk1, ev0⟩
        rw [hbr] at h
        have hfacts : Grows mk mk1 ∧
            (∀ T ∈ ts2, WFNames mk → rulesOf mk1 T = rulesOf mk T) ∧
            (∀ T ∈ ts2, WFNames mk → traceT T ev0 = []) := by
          split at hbr
          · split at hbr
            · cases hbr
              exact ⟨Grows.reflG mk, fun T _ _ => rfl, fun T _ _ => rfl⟩
            · cases hbr
              exact ⟨Grows.reflG mk, fun T _ _ => rfl, fun T _ _ => rfl⟩
          · have p11 := ih11 mk tname ts2 r.prerequisites did _ _ _ _ hbr
            exact ⟨p11.1, p11.2.1, p11.2.2⟩
        rcases bres with e | ⟨did1, remake1⟩
        · dsimp only at h
          cases h
          exact ⟨hfacts.1, hfacts.2.1, fun T hT _ hw => hfacts.2.2 T hT hw,
            fun htm hw => by rw [hfacts.2.2 tname htm hw]; exact List.nil_sublist _⟩
        · dsimp only at h
          split at h
          · rcases hex : executeRule (mk1.updateTarget tname TargetS.remakeT) tname r.rid
              with ⟨eres, ev2⟩
            rw [hex] at h
            have hev2 : ev2 = [(tname, r.rid)] := by
              have h2 := executeRule_snd (mk1.updateTarget tname TargetS.remakeT) tname r.rid
              rw [hex] at h2
              exact h2
            have hgrow2 : Grows mk (mk1.updateTarget tname TargetS.remakeT) :=
              hfacts.1.transG (updateTarget_grows _ _ _ (fun t => rfl))
            have hpres2 : ∀ T ∈ ts2, WFNames mk →
                rulesOf (mk1.updateTarget tname TargetS.remakeT) T = rulesOf mk T :=
              fun T hT hw =>
                (rulesOf_updateTarget_keep mk1 tname TargetS.remakeT (fun t => rfl) T).trans
                (hfacts.2.1 T hT hw)
            rcases eres with e | ⟨⟩
            · dsimp only at h
              cases h
              refine ⟨hgrow2, hpres2, ?_, ?_⟩
              · intro T hT hne hw
                rw [traceT_append, hfacts.2.2 T hT hw, hev2,
                  traceT_single_other T tname _ (Ne.symm hne)]
                rfl
              · intro htm hw
                rw [traceT_append, hfacts.2.2 tname htm hw, hev2, traceT_single_self]
                exact List.Sublist.cons₂ _ (List.nil_sublist _)
            · rcases hrec : makeDCLoop fuel (mk1.updateTarget tname TargetS.remakeT) tname ts2
                  avoid rest true with ⟨res0, mk3, ev3⟩
              rw [hrec] at h
              dsimp only at h
              cases h
              have p8 := ih8 _ tname ts2 avoid rest true _ _ _ hrec
              have hw2 : WFNames mk → WFNames (mk1.updateTarget tname TargetS.remakeT) :=
                hgrow2.2
              refine ⟨hgrow2.transG p8.1, ?_, ?_, ?_⟩
              · intro T hT hw
                rw [p8.2.1 T hT (hw2 hw)]
                exact hpres2 T hT hw
              · intro T hT hne hw
                rw [traceT_append, traceT_append, hfacts.2.2 T hT hw, hev2,
                  traceT_single_other T tname _ (Ne.symm hne), p8.2.2.1 T hT hne (hw2 hw)]
                rfl
              · intro htm hw
                rw [traceT_append, traceT_append, hfacts.2.2 tname htm hw, hev2,
                  traceT_single_self]
                exact List.Sublist.cons₂ _ (p8.2.2.2 htm (hw2 hw))
          · rcases hrec : makeDCLoop fuel mk1 tname ts2 avoid rest did1 with ⟨res0, mk3, ev3⟩
            rw [hrec] at h
            dsimp only at h
            cases h
            have p8 := ih8 mk1 tname ts2 avoid rest did1 _ _ _ hrec
            refine ⟨hfacts.1.transG p8.1, ?_, ?_, ?_⟩
            · intro T hT hw
              rw [p8.2.1 T hT (hfacts.1.2 hw)]
              exact hfacts.2.1 T hT hw
            · intro T hT hne hw
              rw [traceT_append, hfacts.2.2 T hT hw, p8.2.2.1 T hT hne (hfacts.1.2 hw)]
              rfl
            · intro htm hw
              rw [traceT_append, hfacts.2.2 tname htm hw]
              exact List.Sublist.cons _ (p8.2.2.2 htm (hfacts.1.2 hw))
    · -- makeSCCore
      intro mk tname ts2 rules remake0 res mk' ev h
      rw [makeSCCore_succ] at h
      rcases hsr : makeSCRules fuel mk tname ts2 rules none false remake0 with ⟨sres, mk1, ev0⟩
      rw [hsr] at h
      have p10 := ih10 mk tname ts2 rules none false remake0 _ _ _ hsr
      rcases sres with e | ⟨cr, did, remake⟩
      · dsimp only at h
        cases h
        exact ⟨p10.1, p10.2.1, fun T hT _ hw => p10.2.2.1 T hT hw,
          fun htm hw => by rw [p10.2.2.1 tname htm hw]; exact List.nil_sublist _⟩
      · dsimp only at h
        split at h
        · split at h
          · rename_i r
            have hr : r ∈ rules := by
              rcases p10.2.2.2 _ _ _ rfl with h1 | ⟨r2, hr2, h2⟩
              · exact absurd h1 (by simp)
              · injection h2 with h3
                rw [h3]
                exact hr2
            rcases hex : executeRule (mk1.updateTarget tname TargetS.remakeT) tname r.rid
              with ⟨eres, ev2⟩
            rw [hex] at h
            have hev2 : ev2 = [(tname, r.rid)] := by
              have h2 := executeRule_snd (mk1.updateTarget tname TargetS.remakeT) tname r.rid
              rw [hex] at h2
              exact h2
            have hgrow2 : Grows mk (mk1.updateTarget tname TargetS.remakeT) :=
              p10.1.transG (updateTarget_grows _ _ _ (fun t => rfl))
            have hpres2 : ∀ T ∈ ts2, WFNames mk →
                rulesOf (mk1.updateTarget tname TargetS.remakeT) T = rulesOf mk T :=
              fun T hT hw =>
                (rulesOf_updateTarget_keep mk1 tname TargetS.remakeT (fun t => rfl) T).trans
                (p10.2.1 T hT hw)
            rcases eres with e | ⟨⟩
            · dsimp only at h
              cases h
              refine ⟨hgrow2, hpres2, ?_, ?_⟩
              · intro T hT hne hw
                rw [traceT_append, p10.2.2.1 T hT hw, hev2,
                  traceT_single_other T tname _ (Ne.symm hne)]
                rfl
              · intro htm hw
                rw [traceT_append, p10.2.2.1 tname htm hw, hev2, traceT_single_self]
                exact List.singleton_sublist.2 (List.mem_map_of_mem _ hr)
            · dsimp only at h
              cases h
              refine ⟨hgrow2, hpres2, ?_, ?_⟩
              · intro T hT hne hw
                rw [traceT_append, p10.2.2.1 T hT hw, hev2,
                  traceT_single_other T tname _ (Ne.symm hne)]
                rfl
              · intro htm hw
                rw [traceT_append, p10.2.2.1 tname htm hw, hev2, traceT_single_self]
                exact List.singleton_sublist.2 (List.mem_map_of_mem _ hr)
          · cases h
            exact ⟨p10.1.transG (updateTarget_grows _ _ _ (fun t => rfl)),
              fun T hT hw =>
                (rulesOf_updateTarget_keep mk1 tname TargetS.remakeT (fun t => rfl) T).trans
                (p10.2.1 T hT hw),
              fun T hT hne hw => p10.2.2.1 T hT hw,
              fun htm hw => by rw [p10.2.2.1 tname htm hw]; exact List.nil_sublist _⟩
        · cases h
          exact ⟨p10.1, p10.2.1, fun T hT _ hw => p10.2.2.1 T hT hw,
            fun htm hw => by rw [p10.2.2.1 tname htm hw]; exact List.nil_sublist _⟩
    · -- makeSCRules
      intro mk tname ts2 rules cr did remake res mk' ev h
      rcases rules with _ | ⟨r, rest⟩
      · rw [makeSCRules_nil] at h
        cases h
        refine ⟨Grows.reflG mk, fun T _ _ => rfl, fun T _ _ => rfl, ?_⟩
        intro cr2 d2 rm2 hres
        cases hres
        exact Or.inl rfl
      · rw [makeSCRules_cons] at h
        split at h
        · cases h
          exact ⟨Grows.reflG mk, fun T _ _ => rfl, fun T _ _ => rfl,
            fun cr2 d2 rm2 hres => absurd hres (by simp)⟩
        · rename_i cr1 hcr1eq
          have hcr1 : cr1 = cr ∨ cr1 = some r := by
            split at hcr1eq
            · split at hcr1eq
              · exact absurd hcr1eq (by simp)
              · cases hcr1eq
                exact Or.inr rfl
            · cases hcr1eq
              exact Or.inl rfl
          split at h
          · rename_i e mk1 ev0 hdl
            cases h
            have p11 := ih11 mk tname ts2 r.prerequisites did remake _ _ _ hdl
            exact ⟨p11.1, p11.2.1, p11.2.2,
              fun cr2 d2 rm2 hres => absurd hres (by simp)⟩
          · rename_i did1 remake1 mk1 ev0 hdl
            have p11 := ih11 mk tname ts2 r.prerequisites did remake _ _ _ hdl
            rcases hrec : makeSCRules fuel mk1 tname ts2 rest cr1 did1 remake1
              with ⟨res0, mk2, ev2⟩
            rw [hrec] at h
            dsimp only at h
            cases h
            have p10 := ih10 mk1 tname ts2 rest cr1 did1 remake1 _ _ _ hrec
            refine ⟨p11.1.transG p10.1, ?_, ?_, ?_⟩
            · intro T hT hw
              rw [p10.2.1 T hT (p11.1.2 hw)]
              exact p11.2.1 T hT hw
            · intro T hT hw
              rw [traceT_append, p11.2.2 T hT hw, p10.2.2.1 T hT (p11.1.2 hw)]
              rfl
            · intro cr2 d2 rm2 hres
              rcases p10.2.2.2 cr2 d2 rm2 hres with h1 | ⟨r2, hr2, h2⟩
              · rcases hcr1 with h3 | h3
                · exact Or.inl (h1.trans h3)
                · exact Or.inr ⟨r, List.mem_cons_self _ _, h1.trans h3⟩
              · exact Or.inr ⟨r2, List.mem_cons_of_mem _ hr2, h2⟩
    · -- makeDepsLoop
      intro mk tname ts2 ps did remake res mk' ev h
      rcases ps with _ | ⟨p, rest⟩
      · rw [makeDepsLoop_nil] at h
        cases h
        exact ⟨Grows.reflG mk, fun T _ _ => rfl, fun T _ _ => rfl⟩
      · rw [makeDepsLoop_cons] at h
        split at h
        · cases h
          exact ⟨Grows.reflG mk, fun T _ _ => rfl, fun T _ _ => rfl⟩
        · rename_i pkey mk1 hget
          have e1 := (gettarget_evol mk p pkey mk1 hget).1
          rcases hmk : make fuel mk1 pkey ts2 [] true false with ⟨mres, mk2, ev0⟩
          rw [hmk] at h
          have p7 := ih7 mk1 pkey ts2 [] true false _ _ _ hmk
          rcases mres with e | depDid
          · dsimp only at h
            cases h
            refine ⟨e1.grows.transG p7.1, ?_, ?_⟩
            · intro T hT hw
              rw [p7.2.1 T hT (e1.grows.2 hw)]
              exact e1.1 T
            · intro T hT hw
              exact p7.2.2.1 T hT (e1.grows.2 hw)
          · dsimp only at h
            rcases hrec : makeDepsLoop fuel mk2 tname ts2 rest (depDid || did)
                (if !remake && mtimeislater
                    (match alistFind mk2.targets pkey with
                     | some dt => dt.mtime
                     | none => none)
                    (match alistFind mk2.targets tname with
                     | some st => st.mtime
                     | none => none) then true else remake) with ⟨res0, mk3, ev3⟩
            rw [hrec] at h
            dsimp only at h
            cases h
            have p11r := ih11 mk2 tname ts2 rest (depDid || did) _ _ _ _ hrec
            refine ⟨e1.grows.transG (p7.1.transG p11r.1), ?_, ?_⟩
            · intro T hT hw
              rw [p11r.2.1 T hT (p7.1.2 (e1.grows.2 hw)), p7.2.1 T hT (e1.grows.2 hw)]
              exact e1.1 T
            · intro T hT hw
              rw [traceT_append, p7.2.2.1 T hT (e1.grows.2 hw),
                p11r.2.2 T hT (p7.1.2 (e1.grows.2 hw))]
              rfl


/-- A makefile whose target `foo` already carries a cached `remade` result. -/
def remadeMk : MakefileS :=
  { emptyMakefile with
    parsingfinished := true
    targets := [("foo", { newTarget "foo" with remade := some true })] }

/-- C1: `make` memoizes through the `remade` field: (a) when a target's
`remade` is already set, `make` returns the cached value at once, leaving the
state untouched and resolving and executing nothing (empty trace); (b) a
`make` call that returns `ok b` leaves `remade = some b` recorded on the
target, so every later call hits the cache; (c) in any single `make` call the
execute events of the target follow its rule list in order, each rule at most
once: the executed rule ids form a sublist of the target's rule-list ids. -/
theorem C1_make_memoization :
    (∀ (fuel : Nat) (mk : MakefileS) (tname : String) (ts : List String)
       (rs : List StackRule) (req av : Bool) (t : TargetS) (b : Bool),
        alistFind mk.targets tname = some t →
        t.remade = some b →
        make (fuel+1) mk tname ts rs req av = (.ok b, mk, [])) ∧
    (∀ (fuel : Nat) (mk : MakefileS) (tname : String) (ts : List String)
       (rs : List StackRule) (req av : Bool) (b : Bool) (mk' : MakefileS) (ev : Trace),
        make fuel mk tname ts rs req av = (.ok b, mk', ev) →
        remadeOf mk' tname = some b) ∧
    (∀ (fuel : Nat) (mk : MakefileS) (tname : String) (ts : List String)
       (rs : List StackRule) (req av : Bool) (res : Except MakeError Bool)
       (mk' : MakefileS) (ev : Trace),
        make fuel mk tname ts rs req av = (res, mk', ev) →
        WFNames mk →
        ((traceT tname ev).map Prod.snd).Sublist ((rulesOf mk' tname).map RuleEither.rid)) := by
  refine ⟨?_, ?_, ?_⟩
  · intro fuel mk tname ts rs req av t b hfind hrem
    simp only [make_succ, hfind, hrem]
  · intro fuel mk tname ts rs req av b mk' ev h
    exact ((engineInv fuel).2.2.2.2.2.2.1 mk tname ts rs req av _ mk' ev h).2.2.2.2 b rfl
  · intro fuel mk tname ts rs req av res mk' ev h hw
    exact ((engineInv fuel).2.2.2.2.2.2.1 mk tname ts rs req av res mk' ev h).2.2.2.1 hw

/-- C1, instantiated: with `foo` cached as `remade = some true`, `make`
returns the cached value with no state change and no events, the `remade`
field indeed reads back, and the (empty) event list of an erroring run is a
sublist of the rule ids. -/
theorem C1_make_memoization_witness :
    make 1 remadeMk "foo" [] [] true false = (.ok true, remadeMk, []) ∧
    remadeOf remadeMk "foo" = some true ∧
    ((traceT "foo" []).map Prod.snd).Sublist ((rulesOf emptyMakefile "foo").map RuleEither.rid) :=
  ⟨C1_make_memoization.1 0 remadeMk "foo" [] [] true false
      { newTarget "foo" with remade := some true } true rfl rfl,
   C1_make_memoization.2.1 1 remadeMk "foo" [] [] true false true remadeMk [] rfl,
   C1_make_memoization.2.2 1 emptyMakefile "foo" [] [] true false (.error .assertionFailed)
      emptyMakefile [] rfl (fun k t h => nomatch h)⟩

end PyMake








